import Mathlib

/-!
Verification development for the secret-store subsystem of
`electron-app-switchboard` (`src/main/index.ts`, `src/shared/storage.ts`).

The embedding is shallow:

* an `electron-store` instance (`Store<Record<string, string>>`) is an
  association list `List (String × String)` with JS-object semantics
  (`mget` / `mset` / `mdel`);
* the OS keychain (keytar scoped by the fixed `KEYCHAIN_SERVICE_NAME`)
  is another association list from account names to values;
* `safeStorage` (`isEncryptionAvailable` / `encryptString ∘ toString base64`
  / `Buffer.from base64 ∘ decryptString`) is a collaborator record
  `SafeStorage`; a decryption throw is `none`;
* keytar's fallibility (module load, per-call rejections) is an oracle
  `KeytarEnv`; a throw of `getPassword`/`setPassword`/`deletePassword`
  at a given account is the oracle answering `false` for that account;
* `JSON.parse` / `JSON.stringify` are modelled by an executable JSON
  parser and printer over `List Char`;
* the module-level mutable bindings (`keytarClient`, `keytarLoadError`,
  `keytarFallbackWarned`, the two stores) are fields of
  `SecureStoreState`, threaded explicitly.
-/

namespace Switchboard

/-! ## JS-object style association maps -/

/-- Lookup in a string-keyed object/store (`store.get(k)`). -/
def mget : List (String × String) → String → Option String
  | [], _ => none
  | (a, v) :: t, k => if a = k then some v else mget t k

/-- Update/insert in a string-keyed object/store (`store.set(k, v)`). -/
def mset : List (String × String) → String → String → List (String × String)
  | [], k, v => [(k, v)]
  | (a, w) :: t, k, v => if a = k then (k, v) :: t else (a, w) :: mset t k v

/-- Deletion from a string-keyed object/store (`store.delete(k)`). -/
def mdel : List (String × String) → String → List (String × String)
  | [], _ => []
  | (a, w) :: t, k => if a = k then mdel t k else (a, w) :: mdel t k

theorem mget_mset_self (m : List (String × String)) (k v : String) :
    mget (mset m k v) k = some v := by
  induction m with
  | nil => simp [mget, mset]
  | cons e t ih =>
    obtain ⟨a, w⟩ := e
    by_cases h : a = k
    · simp [mget, mset, h]
    · simp [mget, mset, h, ih]

theorem mget_mset_ne (m : List (String × String)) (k k' v : String) (h : k ≠ k') :
    mget (mset m k v) k' = mget m k' := by
  induction m with
  | nil => simp [mget, mset, h]
  | cons e t ih =>
    obtain ⟨a, w⟩ := e
    by_cases ha : a = k
    · subst ha
      simp [mget, mset, h]
    · simp only [mset, if_neg ha]
      by_cases ha' : a = k'
      · simp [mget, ha']
      · simp [mget, ha', ih]

theorem mget_mdel (m : List (String × String)) (k k' : String) :
    mget (mdel m k) k' = if k = k' then none else mget m k' := by
  induction m with
  | nil => simp [mget, mdel]
  | cons e t ih =>
    obtain ⟨a, w⟩ := e
    by_cases ha : a = k
    · subst ha
      by_cases hk : a = k'
      · subst hk
        simp [mdel, ih]
      · simp [mdel, mget, hk, ih]
    · by_cases ha' : a = k'
      · subst ha'
        have : k ≠ a := fun h => ha h.symm
        simp [mdel, ha, mget, this]
      · simp [mdel, ha, mget, ha', ih]

theorem mget_mdel_self (m : List (String × String)) (k : String) :
    mget (mdel m k) k = none := by
  simp [mget_mdel]

theorem mget_mdel_ne (m : List (String × String)) (k k' : String) (h : k ≠ k') :
    mget (mdel m k) k' = mget m k' := by
  simp [mget_mdel, h]

theorem mdel_of_mget_none (m : List (String × String)) (k : String)
    (h : mget m k = none) : mdel m k = m := by
  induction m with
  | nil => simp [mdel]
  | cons e t ih =>
    obtain ⟨a, w⟩ := e
    by_cases ha : a = k
    · simp [mget, ha] at h
    · simp only [mget, if_neg ha] at h
      simp [mdel, ha, ih h]

theorem mdel_mdel_self (m : List (String × String)) (k : String) :
    mdel (mdel m k) k = mdel m k :=
  mdel_of_mget_none _ _ (mget_mdel_self m k)

theorem mset_of_mget_some (m : List (String × String)) (k v : String)
    (h : mget m k = some v) : mset m k v = m := by
  induction m with
  | nil => simp [mget] at h
  | cons e t ih =>
    obtain ⟨a, w⟩ := e
    by_cases ha : a = k
    · subst ha
      simp [mget] at h
      simp [mset, h]
    · simp only [mget, if_neg ha] at h
      simp [mset, ha, ih h]

theorem mget_eq_none_of_not_mem (m : List (String × String)) (k : String)
    (h : k ∉ m.map Prod.fst) : mget m k = none := by
  induction m with
  | nil => simp [mget]
  | cons e t ih =>
    obtain ⟨a, w⟩ := e
    simp only [List.map_cons, List.mem_cons] at h
    push_neg at h
    have : a ≠ k := fun hh => h.1 hh.symm
    simp [mget, this, ih h.2]

theorem eq_nil_of_forall_mget_none (m : List (String × String))
    (h : ∀ a, mget m a = none) : m = [] := by
  cases m with
  | nil => rfl
  | cons e t =>
    obtain ⟨a, w⟩ := e
    have := h a
    simp [mget] at this

/-! ## Shared storage helpers (`src/shared/storage.ts`) -/

def LOCAL_STORAGE_NAMESPACE : String := "switchboard.local"

def SECURE_STORAGE_NAMESPACE : String := "switchboard.secure"

def SECURE_KEY_INDEX : String := "__switchboard_secure_keys__"

/-- Character class of the key-validation regex `[a-zA-Z0-9_.-]`. -/
def isStorageKeyChar (c : Char) : Bool :=
  ('a' ≤ c && c ≤ 'z') || ('A' ≤ c && c ≤ 'Z') || ('0' ≤ c && c ≤ '9') ||
    c = '_' || c = '.' || c = '-'

/-- `isValidStorageKey` from `src/shared/storage.ts`: nonempty, at most 256
characters, and the regex `/^[a-zA-Z0-9_.-]+$/` matches (every character is
in the class; with nonemptiness checked separately this is exactly the
`+`-repetition anchored at both ends). -/
def isValidStorageKey (key : String) : Bool :=
  key.length > 0 && key.length ≤ 256 && key.data.all isStorageKeyChar

/-- `getLocalStorageKey`: the local-store namespaced key name. -/
def getLocalStorageKey (key : String) : String :=
  LOCAL_STORAGE_NAMESPACE ++ "." ++ key

/-- `getSecureStorageKey`: the secure-store namespaced key name. -/
def getSecureStorageKey (key : String) : String :=
  SECURE_STORAGE_NAMESPACE ++ "." ++ key

/-- `ResolvedStoredValue` from `src/shared/storage.ts`. -/
structure ResolvedStoredValue where
  value : Option String
  shouldMigrateLegacyValue : Bool
  deriving DecidableEq, Repr

/-- `resolveStoredValue`: a namespaced value wins; otherwise a legacy value
is returned and flagged for migration; otherwise null. (`typeof x ===
'string'` on a `string | null` read is `Option.isSome`.) -/
def resolveStoredValue (namespacedValue legacyValue : Option String) :
    ResolvedStoredValue :=
  match namespacedValue with
  | some s => ⟨some s, false⟩
  | none =>
    match legacyValue with
    | some s => ⟨some s, true⟩
    | none => ⟨none, false⟩

/-- Models `String.prototype.startsWith` (code-unit prefix test; all keys
involved here are ASCII, where code units and scalar values agree). -/
def strStartsWith (s pre : String) : Bool :=
  pre.data.isPrefixOf s.data

theorem strStartsWith_append (pre rest : String) :
    strStartsWith (pre ++ rest) pre = true := by
  unfold strStartsWith
  rw [String.data_append]
  induction pre.data with
  | nil => simp [List.isPrefixOf]
  | cons c t ih => simpa [List.isPrefixOf] using ih

/-! ## JS string comparison and `Array.prototype.sort` -/

/-- Lexicographic `≤` on code units, the order used by `Array.sort()` with
the default comparator. -/
def charsLe : List Char → List Char → Bool
  | [], _ => true
  | _ :: _, [] => false
  | a :: as, b :: bs => if a = b then charsLe as bs else decide (a < b)

def strLe (a b : String) : Bool :=
  charsLe a.data b.data

theorem charsLe_total (a b : List Char) :
    charsLe a b = true ∨ charsLe b a = true := by
  induction a generalizing b with
  | nil => exact Or.inl rfl
  | cons x xs ih =>
    cases b with
    | nil => exact Or.inr rfl
    | cons y ys =>
      by_cases hxy : x = y
      · subst hxy
        rcases ih ys with h | h
        · exact Or.inl (by simpa [charsLe] using h)
        · exact Or.inr (by simpa [charsLe] using h)
      · rcases lt_or_gt_of_ne hxy with h | h
        · exact Or.inl (by simp [charsLe, hxy, h])
        · have hyx : y ≠ x := fun hh => hxy hh.symm
          exact Or.inr (by simp [charsLe, hyx, h])

theorem charsLe_trans {a b c : List Char} (h1 : charsLe a b = true)
    (h2 : charsLe b c = true) : charsLe a c = true := by
  induction a generalizing b c with
  | nil => rfl
  | cons x xs ih =>
    cases b with
    | nil => simp [charsLe] at h1
    | cons y ys =>
      cases c with
      | nil => simp [charsLe] at h2
      | cons z zs =>
        by_cases hxy : x = y
        · subst hxy
          simp only [charsLe, if_pos rfl] at h1
          by_cases hyz : x = z
          · subst hyz
            simp only [charsLe, if_pos rfl] at h2 ⊢
            exact ih h1 h2
          · simp only [charsLe, if_neg hyz] at h2 ⊢
            exact h2
        · simp only [charsLe, if_neg hxy, decide_eq_true_eq] at h1
          by_cases hyz : y = z
          · have hxz : x ≠ z := fun hh => hxy (hh.trans hyz.symm)
            have hlt : x < z := hyz ▸ h1
            simp [charsLe, hxz, hlt]
          · simp only [charsLe, if_neg hyz, decide_eq_true_eq] at h2
            have hxz : x < z := lt_trans h1 h2
            have : x ≠ z := ne_of_lt hxz
            simp [charsLe, this, hxz]

theorem charsLe_of_not_charsLe {a b : List Char} (h : ¬ charsLe a b = true) :
    charsLe b a = true := by
  rcases charsLe_total a b with h' | h'
  · exact absurd h' h
  · exact h'

/-- `Array.prototype.sort()` on an array of strings: insertion sort with the
default (code-unit lexicographic) comparator. -/
def insSorted (x : String) : List String → List String
  | [] => [x]
  | a :: t => if strLe x a then x :: a :: t else a :: insSorted x t

def sortStr (l : List String) : List String :=
  l.foldr insSorted []

theorem mem_insSorted (x y : String) (l : List String) :
    y ∈ insSorted x l ↔ y = x ∨ y ∈ l := by
  induction l with
  | nil => simp [insSorted]
  | cons a t ih =>
    by_cases h : strLe x a
    · simp [insSorted, h]
    · simp only [insSorted, if_neg h, List.mem_cons, ih]
      tauto

theorem mem_sortStr (y : String) (l : List String) :
    y ∈ sortStr l ↔ y ∈ l := by
  induction l with
  | nil => simp [sortStr]
  | cons a t ih =>
    simp only [sortStr, List.foldr_cons, List.mem_cons]
    rw [show List.foldr insSorted [] t = sortStr t from rfl] at *
    rw [mem_insSorted, ih]

theorem nodup_insSorted (x : String) (l : List String) (hx : x ∉ l)
    (hl : l.Nodup) : (insSorted x l).Nodup := by
  induction l with
  | nil => simp [insSorted]
  | cons a t ih =>
    simp only [List.mem_cons] at hx
    push_neg at hx
    rw [List.nodup_cons] at hl
    by_cases h : strLe x a
    · rw [insSorted, if_pos h]
      refine List.nodup_cons.mpr ⟨?_, List.nodup_cons.mpr hl⟩
      simp only [List.mem_cons]
      push_neg
      exact hx
    · rw [insSorted, if_neg h]
      refine List.nodup_cons.mpr ⟨?_, ih hx.2 hl.2⟩
      rw [mem_insSorted]
      push_neg
      exact ⟨fun hh => hx.1 hh.symm, hl.1⟩

theorem nodup_sortStr (l : List String) (h : l.Nodup) : (sortStr l).Nodup := by
  induction l with
  | nil => simp [sortStr]
  | cons a t ih =>
    rw [List.nodup_cons] at h
    have : sortStr (a :: t) = insSorted a (sortStr t) := rfl
    rw [this]
    exact nodup_insSorted a (sortStr t) (fun hm => h.1 ((mem_sortStr a t).mp hm)) (ih h.2)

/-- Sortedness with respect to the JS comparator. -/
def SortedStr (l : List String) : Prop :=
  List.Pairwise (fun a b => strLe a b = true) l

theorem sorted_insSorted (x : String) (l : List String) (h : SortedStr l) :
    SortedStr (insSorted x l) := by
  induction l with
  | nil => simp [insSorted, SortedStr]
  | cons a t ih =>
    rw [SortedStr, List.pairwise_cons] at h
    by_cases hle : strLe x a
    · rw [insSorted, if_pos hle]
      refine List.Pairwise.cons ?_ (List.Pairwise.cons h.1 h.2)
      intro b hb
      rcases List.mem_cons.mp hb with hb | hb
      · subst hb
        exact hle
      · exact charsLe_trans hle (h.1 b hb)
    · rw [insSorted, if_neg hle]
      refine List.Pairwise.cons ?_ (ih h.2)
      intro b hb
      rcases (mem_insSorted x b t).mp hb with hb | hb
      · subst hb
        exact charsLe_of_not_charsLe hle
      · exact h.1 b hb

theorem sorted_sortStr (l : List String) : SortedStr (sortStr l) := by
  induction l with
  | nil => exact List.Pairwise.nil
  | cons a t ih => exact sorted_insSorted a (sortStr t) ih

theorem insSorted_of_le_head (x : String) (l : List String)
    (h : ∀ b ∈ l, strLe x b = true) : insSorted x l = x :: l := by
  cases l with
  | nil => rfl
  | cons a t => rw [insSorted, if_pos (h a (List.mem_cons_self a t))]

theorem sortStr_of_sorted (l : List String) (h : SortedStr l) : sortStr l = l := by
  induction l with
  | nil => rfl
  | cons a t ih =>
    rw [SortedStr, List.pairwise_cons] at h
    have : sortStr (a :: t) = insSorted a (sortStr t) := rfl
    rw [this, ih h.2]
    exact insSorted_of_le_head a t h.1

theorem sortStr_sortStr (l : List String) : sortStr (sortStr l) = sortStr l :=
  sortStr_of_sorted _ (sorted_sortStr l)

theorem sortStr_eq_nil_iff (l : List String) : sortStr l = [] ↔ l = [] := by
  constructor
  · intro h
    cases l with
    | nil => rfl
    | cons a t =>
      have : a ∈ sortStr (a :: t) := (mem_sortStr a (a :: t)).mpr (List.mem_cons_self a t)
      rw [h] at this
      cases this
  · intro h
    subst h
    rfl

/-! ## JS `Set` of strings (insertion-ordered, deduplicated) -/

/-- `new Set(values)`: deduplicate keeping first occurrences. -/
def dedupF : List String → List String
  | [] => []
  | a :: t => a :: (dedupF t).filter (fun x => x ≠ a)

/-- `set.add(k)`. -/
def setAdd (l : List String) (k : String) : List String :=
  if k ∈ l then l else l ++ [k]

/-- `set.delete(k)`. -/
def setDel (l : List String) (k : String) : List String :=
  l.filter (fun x => x ≠ k)

theorem mem_dedupF (y : String) (l : List String) : y ∈ dedupF l ↔ y ∈ l := by
  induction l with
  | nil => simp [dedupF]
  | cons a t ih =>
    simp only [dedupF, List.mem_cons, List.mem_filter, ih, decide_eq_true_eq]
    constructor
    · rintro (h | ⟨h, _⟩)
      · exact Or.inl h
      · exact Or.inr h
    · rintro (h | h)
      · exact Or.inl h
      · by_cases hy : y = a
        · exact Or.inl hy
        · exact Or.inr ⟨h, hy⟩

theorem nodup_dedupF (l : List String) : (dedupF l).Nodup := by
  induction l with
  | nil => simp [dedupF]
  | cons a t ih =>
    rw [dedupF, List.nodup_cons]
    constructor
    · intro h
      have := (List.mem_filter.mp h).2
      simp at this
    · exact List.Nodup.filter _ ih

theorem dedupF_of_nodup (l : List String) (h : l.Nodup) : dedupF l = l := by
  induction l with
  | nil => rfl
  | cons a t ih =>
    rw [List.nodup_cons] at h
    rw [dedupF, ih h.2]
    congr 1
    rw [List.filter_eq_self]
    intro b hb
    simp only [decide_eq_true_eq]
    exact fun hh => h.1 (hh ▸ hb)

theorem mem_setAdd (y : String) (l : List String) (k : String) :
    y ∈ setAdd l k ↔ y ∈ l ∨ y = k := by
  unfold setAdd
  by_cases h : k ∈ l
  · simp only [if_pos h]
    constructor
    · exact Or.inl
    · rintro (hy | hy)
      · exact hy
      · exact hy ▸ h
  · simp [if_neg h]

theorem nodup_setAdd (l : List String) (k : String) (h : l.Nodup) :
    (setAdd l k).Nodup := by
  unfold setAdd
  by_cases hk : k ∈ l
  · simpa [if_pos hk]
  · rw [if_neg hk]
    simpa [List.nodup_append] using ⟨h, hk⟩

theorem mem_setDel (y : String) (l : List String) (k : String) :
    y ∈ setDel l k ↔ y ∈ l ∧ y ≠ k := by
  simp [setDel, List.mem_filter]

theorem nodup_setDel (l : List String) (k : String) (h : l.Nodup) :
    (setDel l k).Nodup :=
  List.Nodup.filter _ h

theorem setDel_of_not_mem (l : List String) (k : String) (h : k ∉ l) :
    setDel l k = l := by
  rw [setDel, List.filter_eq_self]
  intro b hb
  simp only [decide_eq_true_eq]
  exact fun hh => h (hh ▸ hb)

theorem not_mem_setDel (l : List String) (k : String) : k ∉ setDel l k := by
  intro h
  exact ((mem_setDel k l k).mp h).2 rfl

/-! ## JSON model (`JSON.parse` / `JSON.stringify`)

`readSecureKeyIndex` stores a JSON-encoded array of strings inside the
non-secret store, so the JS built-ins are modelled executably: a
recursive-descent parser over `List Char` (fuelled; the fuel is spent on
value/element boundaries, and an input of `n` characters needs at most
`n + 1` fuel) and the standard printer for arrays of strings. -/

inductive Json where
  | jnull : Json
  | jbool (b : Bool) : Json
  | jnum : Json
  | jstr (s : String) : Json
  | jarr (elems : List Json) : Json
  | jobj (fields : List (String × Json)) : Json

def isWsChar (c : Char) : Bool :=
  c = ' ' || c = '\t' || c = '\n' || c = '\r'

def skipWs : List Char → List Char
  | [] => []
  | c :: t => if isWsChar c then skipWs t else c :: t

def hexVal (c : Char) : Option Nat :=
  if '0' ≤ c ∧ c ≤ '9' then some (c.toNat - 48)
  else if 'a' ≤ c ∧ c ≤ 'f' then some (c.toNat - 87)
  else if 'A' ≤ c ∧ c ≤ 'F' then some (c.toNat - 55)
  else none

/-- Body of a JSON string literal after the opening quote: returns the
decoded characters and the input following the closing quote. Unknown
escapes and raw control characters are parse errors, as in `JSON.parse`. -/
def parseStringBody : Nat → List Char → Option (List Char × List Char)
  | 0, _ => none
  | _ + 1, [] => none
  | f + 1, c :: t =>
    if c = '"' then some ([], t)
    else if c = '\\' then
      match t with
      | [] => none
      | e :: t2 =>
        let decoded : Option (Char × List Char) :=
          if e = '"' ∨ e = '\\' ∨ e = '/' then some (e, t2)
          else if e = 'b' then some (Char.ofNat 8, t2)
          else if e = 'f' then some (Char.ofNat 12, t2)
          else if e = 'n' then some ('\n', t2)
          else if e = 'r' then some ('\r', t2)
          else if e = 't' then some ('\t', t2)
          else if e = 'u' then
            match t2 with
            | h1 :: h2 :: h3 :: h4 :: t3 =>
              match hexVal h1, hexVal h2, hexVal h3, hexVal h4 with
              | some a, some b, some c2, some d =>
                some (Char.ofNat (((a * 16 + b) * 16 + c2) * 16 + d), t3)
              | _, _, _, _ => none
            | _ => none
          else none
        match decoded with
        | some (ch, rest) =>
          match parseStringBody f rest with
          | some (cs, r) => some (ch :: cs, r)
          | none => none
        | none => none
    else if c.toNat < 32 then none
    else
      match parseStringBody f t with
      | some (cs, r) => some (c :: cs, r)
      | none => none

def takeDigits : List Char → List Char × List Char
  | [] => ([], [])
  | c :: t =>
    if c.isDigit then
      let p := takeDigits t
      (c :: p.1, p.2)
    else ([], c :: t)

/-- Integer part of a JSON number: `0` or a nonzero digit followed by
digits. Returns the remaining input. -/
def parseIntPart : List Char → Option (List Char)
  | [] => none
  | c :: t =>
    if c = '0' then some t
    else if c.isDigit then some (takeDigits t).2
    else none

def parseFracPart : List Char → Option (List Char)
  | '.' :: t =>
    match takeDigits t with
    | ([], _) => none
    | (_ :: _, r) => some r
  | s => some s

def parseExpPart : List Char → Option (List Char)
  | [] => some []
  | c :: t =>
    if c = 'e' ∨ c = 'E' then
      let t2 := match t with
        | s :: t' => if s = '+' ∨ s = '-' then t' else s :: t'
        | [] => []
      match takeDigits t2 with
      | ([], _) => none
      | (_ :: _, r) => some r
    else some (c :: t)

def parseNumber (s : List Char) : Option (Json × List Char) :=
  let s1 := match s with
    | '-' :: t => t
    | _ => s
  match parseIntPart s1 with
  | none => none
  | some r1 =>
    match parseFracPart r1 with
    | none => none
    | some r2 =>
      match parseExpPart r2 with
      | none => none
      | some r3 => some (.jnum, r3)

def stripLit (pre s : List Char) : Option (List Char) :=
  if pre.isPrefixOf s then some (s.drop pre.length) else none

/-- The five mutually recursive productions of the JSON grammar, packaged so
that the recursion is plainly structural on the fuel. -/
structure JsonParsers where
  val : List Char → Option (Json × List Char)
  arrItems : List Char → Option (List Json × List Char)
  arrRest : List Char → Option (List Json × List Char)
  objItems : List Char → Option (List (String × Json) × List Char)
  objRest : List Char → Option (List (String × Json) × List Char)

def noParsers : JsonParsers :=
  ⟨fun _ => none, fun _ => none, fun _ => none, fun _ => none, fun _ => none⟩

def stepParsers (P : JsonParsers) : JsonParsers where
  val s :=
    match skipWs s with
    | [] => none
    | c :: t =>
      if c = '"' then
        match parseStringBody (t.length + 1) t with
        | some (cs, r) => some (.jstr ⟨cs⟩, r)
        | none => none
      else if c = '[' then
        match P.arrItems t with
        | some (vs, r) => some (.jarr vs, r)
        | none => none
      else if c = '{' then
        match P.objItems t with
        | some (fs, r) => some (.jobj fs, r)
        | none => none
      else if c = 't' then (stripLit ['r', 'u', 'e'] t).map (fun r => (.jbool true, r))
      else if c = 'f' then (stripLit ['a', 'l', 's', 'e'] t).map (fun r => (.jbool false, r))
      else if c = 'n' then (stripLit ['u', 'l', 'l'] t).map (fun r => (.jnull, r))
      else if c = '-' ∨ c.isDigit then parseNumber (c :: t)
      else none
  arrItems s :=
    match skipWs s with
    | ']' :: r => some ([], r)
    | s' =>
      match P.val s' with
      | some (v, r) =>
        match P.arrRest r with
        | some (vs, r2) => some (v :: vs, r2)
        | none => none
      | none => none
  arrRest s :=
    match skipWs s with
    | ',' :: r =>
      match P.val r with
      | some (v, r2) =>
        match P.arrRest r2 with
        | some (vs, r3) => some (v :: vs, r3)
        | none => none
      | none => none
    | ']' :: r => some ([], r)
    | _ => none
  objItems s :=
    match skipWs s with
    | '}' :: r => some ([], r)
    | '"' :: t =>
      match parseStringBody (t.length + 1) t with
      | some (cs, r) =>
        match skipWs r with
        | ':' :: r2 =>
          match P.val r2 with
          | some (v, r3) =>
            match P.objRest r3 with
            | some (fs, r4) => some ((⟨cs⟩, v) :: fs, r4)
            | none => none
          | none => none
        | _ => none
      | none => none
    | _ => none
  objRest s :=
    match skipWs s with
    | '}' :: r => some ([], r)
    | ',' :: r =>
      match skipWs r with
      | '"' :: t =>
        match parseStringBody (t.length + 1) t with
        | some (cs, r2) =>
          match skipWs r2 with
          | ':' :: r3 =>
            match P.val r3 with
            | some (v, r4) =>
              match P.objRest r4 with
              | some (fs, r5) => some ((⟨cs⟩, v) :: fs, r5)
              | none => none
            | none => none
          | _ => none
        | none => none
      | _ => none
    | _ => none

def jsonParsers : Nat → JsonParsers
  | 0 => noParsers
  | f + 1 => stepParsers (jsonParsers f)

/-- `JSON.parse`: parse one value and require only trailing whitespace. -/
def parseJson (s : String) : Option Json :=
  match (jsonParsers (s.data.length + 1)).val s.data with
  | some (v, r) => if skipWs r = [] then some v else none
  | none => none

/-- `JSON.stringify` escaping for one character of a string literal. -/
def jsonEscapeChar (c : Char) : List Char :=
  if c = '"' then ['\\', '"']
  else if c = '\\' then ['\\', '\\']
  else if c = '\n' then ['\\', 'n']
  else if c = '\r' then ['\\', 'r']
  else if c = '\t' then ['\\', 't']
  else if c.toNat = 8 then ['\\', 'b']
  else if c.toNat = 12 then ['\\', 'f']
  else if c.toNat < 32 then
    ['\\', 'u', '0', '0', (Nat.digitChar (c.toNat / 16)), (Nat.digitChar (c.toNat % 16))]
  else [c]

def quoteChars (s : String) : List Char :=
  '"' :: (s.data.flatMap jsonEscapeChar) ++ ['"']

def arrayRestChars (l : List String) : List Char :=
  l.flatMap (fun s => ',' :: quoteChars s)

def itemsChars : List String → List Char
  | [] => []
  | s :: t => quoteChars s ++ arrayRestChars t

/-- `JSON.stringify` of an array of strings: `[` + comma-joined quoted
entries + `]`. -/
def stringifyStrArr (l : List String) : String :=
  ⟨'[' :: itemsChars l ++ [']']⟩

/-! ## Collaborators and per-instance state (`src/main/index.ts`) -/

/-- The `safeStorage` collaborator. `avail` is `isEncryptionAvailable()`
(checked on every fallback operation); `enc` is
`encryptString(·).toString('base64')`; `dec` is
`decryptString(Buffer.from(·, 'base64'))`, with `none` for a throw. -/
structure SafeStorage where
  avail : Bool
  enc : String → String
  dec : String → Option String

/-- Deterministic oracle for the keytar collaborator's behaviour: whether
`require('keytar')` resolves, whether `findCredentials` is exposed and
succeeds, and whether each per-account call succeeds or rejects. -/
structure KeytarEnv where
  loadOk : Bool
  hasFindCredentials : Bool
  findOk : Bool
  getOk : String → Bool
  setOk : String → Bool
  delOk : String → Bool

/-- Module-level mutable state of `src/main/index.ts` restricted to the
secret store: the memoised keytar client / load error, the warn-once flag,
the keychain contents (accounts under `KEYCHAIN_SERVICE_NAME`), the
`switchboard-secure-fallback` store and the `switchboard-store` local
store. -/
structure SecureStoreState where
  keytarLoaded : Bool
  keytarLoadFailed : Bool
  keytarFallbackWarned : Bool
  keychain : List (String × String)
  fallback : List (String × String)
  localStore : List (String × String)
  deriving DecidableEq, Repr

/-- The pristine state of a fresh store instance with empty backends. -/
def initialState : SecureStoreState :=
  ⟨false, false, false, [], [], []⟩

/-- `getKeytar()`: returns the memoised client, rethrows the memoised load
error, or attempts the module load once and memoises the outcome. -/
def getKeytar (env : KeytarEnv) (st : SecureStoreState) :
    Except String Unit × SecureStoreState :=
  if st.keytarLoaded then (.ok (), st)
  else if st.keytarLoadFailed then (.error "Keychain integration unavailable", st)
  else if env.loadOk then (.ok (), { st with keytarLoaded := true })
  else (.error "Keychain integration unavailable", { st with keytarLoadFailed := true })

/-- `warnKeytarFallback`: log once; only the flag is modelled. -/
def warnKeytarFallback (st : SecureStoreState) : SecureStoreState :=
  { st with keytarFallbackWarned := true }

/-- The error thrown by `throw keytarLoadError ?? new Error('No secure
storage backend is available')`. -/
def storageUnavailableError (st : SecureStoreState) : String :=
  if st.keytarLoadFailed then "Keychain integration unavailable"
  else "No secure storage backend is available"

/-! ## Secure key index (`readSecureKeyIndex` and friends) -/

def jsonToStr : Json → Option String
  | .jstr s => some s
  | _ => none

/-- `readSecureKeyIndex()`: read the reserved key from the local store,
parse it as a JSON array, keep the valid string entries as a `Set`. A
`JSON.parse` throw deletes the corrupt value (self-healing); a missing or
empty raw value, or parsed non-array JSON, yields the empty set without
deleting. Returns the set together with the possibly self-healed store. -/
def readSecureKeyIndex (ls : List (String × String)) :
    List String × List (String × String) :=
  match mget ls SECURE_KEY_INDEX with
  | none => ([], ls)
  | some raw =>
    if raw.length = 0 then ([], ls)
    else
      match parseJson raw with
      | none => ([], mdel ls SECURE_KEY_INDEX)
      | some j =>
        match j with
        | .jarr elems =>
          (dedupF ((elems.filterMap jsonToStr).filter isValidStorageKey), ls)
        | _ => ([], ls)

/-- `writeSecureKeyIndex(keys)`: delete the reserved key when the set is
empty, else store the sorted JSON array. -/
def writeSecureKeyIndex (keys : List String) (ls : List (String × String)) :
    List (String × String) :=
  let entries := sortStr keys
  if entries.length = 0 then mdel ls SECURE_KEY_INDEX
  else mset ls SECURE_KEY_INDEX (stringifyStrArr entries)

/-- `trackSecureKey(key)`: read-modify-write add. -/
def trackSecureKey (key : String) (st : SecureStoreState) : SecureStoreState :=
  let rd := readSecureKeyIndex st.localStore
  { st with localStore := writeSecureKeyIndex (setAdd rd.1 key) rd.2 }

/-- `untrackSecureKey(key)`: read-modify-write remove. -/
def untrackSecureKey (key : String) (st : SecureStoreState) : SecureStoreState :=
  let rd := readSecureKeyIndex st.localStore
  { st with localStore := writeSecureKeyIndex (setDel rd.1 key) rd.2 }

/-- `getTrackedSecureKeys()`. -/
def getTrackedSecureKeys (ls : List (String × String)) : List String :=
  (readSecureKeyIndex ls).1

/-! ## The four secret-store operations -/

/-- `decryptFallbackSecureValue`: decryption failure is logged and surfaces
as `null`. -/
def decryptFallbackSecureValue (safe : SafeStorage) (encryptedValue : String) :
    Option String :=
  safe.dec encryptedValue

/-- Fallback tail of `secureGetValue` (after the catch): capability check,
then resolve the two ciphertext entries, decrypt, and migrate the legacy
entry when decryption succeeded. -/
def secureGetFallback (safe : SafeStorage) (key : String) (st : SecureStoreState) :
    Except String (Option String × SecureStoreState) :=
  let fallbackKey := getSecureStorageKey key
  if safe.avail = false then .error (storageUnavailableError st)
  else
    let namespacedEncryptedValue := mget st.fallback fallbackKey
    let legacyEncryptedValue := mget st.fallback key
    let resolvedEncrypted := resolveStoredValue namespacedEncryptedValue legacyEncryptedValue
    match resolvedEncrypted.value with
    | some encVal =>
      let decrypted := decryptFallbackSecureValue safe encVal
      if resolvedEncrypted.shouldMigrateLegacyValue ∧ decrypted ≠ none then
        let st2 := { st with fallback := mdel (mset st.fallback fallbackKey encVal) key }
        .ok (decrypted, trackSecureKey key st2)
      else .ok (decrypted, st)
    | none => .ok (none, st)

/-- `secureGetValue(key)`: primary read with one-time legacy migration
inside the same try block; any throw there is caught, warned once, and the
read restarts on the fallback path. -/
def secureGetValue (env : KeytarEnv) (safe : SafeStorage) (key : String)
    (st : SecureStoreState) : Except String (Option String × SecureStoreState) :=
  let accountKey := getSecureStorageKey key
  match getKeytar env st with
  | (.error _, st1) => secureGetFallback safe key (warnKeytarFallback st1)
  | (.ok _, st1) =>
    if env.getOk accountKey then
      let namespacedValue := mget st1.keychain accountKey
      if env.getOk key then
        let legacyValue := mget st1.keychain key
        let resolved := resolveStoredValue namespacedValue legacyValue
        if resolved.shouldMigrateLegacyValue ∧ resolved.value ≠ none then
          if env.setOk accountKey then
            let st2 := { st1 with
              keychain := mset st1.keychain accountKey (resolved.value.getD "") }
            if env.delOk key then
              let st3 := { st2 with keychain := mdel st2.keychain key }
              .ok (resolved.value, trackSecureKey key st3)
            else secureGetFallback safe key (warnKeytarFallback st2)
          else secureGetFallback safe key (warnKeytarFallback st1)
        else .ok (resolved.value, st1)
      else secureGetFallback safe key (warnKeytarFallback st1)
    else secureGetFallback safe key (warnKeytarFallback st1)

/-- `secureSetValue(key, value)`: primary write, else warn once, check the
fallback capability (throwing `keytarLoadError ?? 'No secure storage
backend is available'` when absent), encrypt and write the fallback entry;
the key is tracked after either successful write. -/
def secureSetValue (env : KeytarEnv) (safe : SafeStorage) (key value : String)
    (st : SecureStoreState) : Except String (Unit × SecureStoreState) :=
  let accountKey := getSecureStorageKey key
  let fallbackKey := getSecureStorageKey key
  let primary : Except SecureStoreState SecureStoreState :=
    match getKeytar env st with
    | (.error _, st1) => .error (warnKeytarFallback st1)
    | (.ok _, st1) =>
      if env.setOk accountKey then
        .ok { st1 with keychain := mset st1.keychain accountKey value }
      else .error (warnKeytarFallback st1)
  match primary with
  | .ok st2 => .ok ((), trackSecureKey key st2)
  | .error st1 =>
    if safe.avail = false then .error (storageUnavailableError st1)
    else
      let encryptedValue := safe.enc value
      let st2 := { st1 with fallback := mset st1.fallback fallbackKey encryptedValue }
      .ok ((), trackSecureKey key st2)

/-- Primary half of `secureDeleteValue`: the try block deleting the
namespaced and legacy accounts, with any throw caught and warned. -/
def deletePrimaryPhase (env : KeytarEnv) (key : String) (st : SecureStoreState) :
    SecureStoreState :=
  let accountKey := getSecureStorageKey key
  match getKeytar env st with
  | (.error _, st1) => warnKeytarFallback st1
  | (.ok _, st1) =>
    if env.delOk accountKey then
      let st2 := { st1 with keychain := mdel st1.keychain accountKey }
      if env.delOk key then { st2 with keychain := mdel st2.keychain key }
      else warnKeytarFallback st2
    else warnKeytarFallback st1

/-- `secureDeleteValue(key)`: best-effort primary deletes (errors caught
and warned), unconditional fallback deletes, then untrack. -/
def secureDeleteValue (env : KeytarEnv) (key : String) (st : SecureStoreState) :
    Except String (Unit × SecureStoreState) :=
  let fallbackKey := getSecureStorageKey key
  let afterPrimary := deletePrimaryPhase env key st
  let st3 := { afterPrimary with
    fallback := mdel (mdel afterPrimary.fallback fallbackKey) key }
  .ok ((), untrackSecureKey key st3)

/-- One iteration of the `findCredentials` clearing loop: each delete has
its own try/catch. -/
def clearCredentialsPass (env : KeytarEnv) (kc : List (String × String))
    (creds : List (String × String)) : List (String × String) :=
  creds.foldl (fun m cred => if env.delOk cred.1 then mdel m cred.1 else m) kc

/-- One iteration of the tracked-keys clearing loop: both deletes share one
try/catch, so a failing namespaced delete skips the legacy delete. -/
def clearTrackedPass (env : KeytarEnv) (kc : List (String × String))
    (trackedKeys : List String) : List (String × String) :=
  trackedKeys.foldl
    (fun m k =>
      if env.delOk (getSecureStorageKey k) then
        if env.delOk k then mdel (mdel m (getSecureStorageKey k)) k
        else mdel m (getSecureStorageKey k)
      else m)
    kc

/-- `clearSecureValues()`: snapshot the tracked keys, clear the keychain by
enumeration (`findCredentials`) when exposed or by tracked keys otherwise
(outer throw caught and warned), wipe every fallback entry, and reset the
index to empty. -/
def clearSecureValues (env : KeytarEnv) (st : SecureStoreState) :
    Except String (Unit × SecureStoreState) :=
  let rd := readSecureKeyIndex st.localStore
  let trackedKeys := rd.1
  let st0 := { st with localStore := rd.2 }
  let st1 :=
    match getKeytar env st0 with
    | (.error _, sta) => warnKeytarFallback sta
    | (.ok _, sta) =>
      if env.hasFindCredentials then
        if env.findOk then
          { sta with keychain := clearCredentialsPass env sta.keychain sta.keychain }
        else warnKeytarFallback sta
      else { sta with keychain := clearTrackedPass env sta.keychain trackedKeys }
  let st2 := { st1 with
    fallback := (st1.fallback.map Prod.fst).foldl mdel st1.fallback }
  .ok ((), { st2 with localStore := writeSecureKeyIndex [] st2.localStore })


/-! ## Round trip of the index encoding

Storage keys contain no quote, backslash or control character, so
`JSON.stringify` escapes nothing and the parser recovers the array
verbatim. -/

/-- Characters that `JSON.stringify` leaves unescaped and that terminate
no token inside a string literal. -/
def plainChar (c : Char) : Bool :=
  !(c = '"') && !(c = '\\') && !(decide (c.toNat < 32))

def PlainStr (s : String) : Prop :=
  ∀ c ∈ s.data, plainChar c = true

theorem char_ne_of_toNat_ne {c d : Char} (h : c.toNat ≠ d.toNat) : c ≠ d :=
  fun hh => h (congrArg Char.toNat hh)

theorem charLe_toNat {a b : Char} (h : a ≤ b) : a.toNat ≤ b.toNat := by
  rw [Char.le_def] at h
  exact h

theorem isStorageKeyChar_plain {c : Char} (h : isStorageKeyChar c = true) :
    plainChar c = true := by
  unfold isStorageKeyChar at h
  simp only [Bool.or_eq_true, Bool.and_eq_true, decide_eq_true_eq] at h
  have toNatFacts : 32 ≤ c.toNat ∧ c.toNat ≠ 34 ∧ c.toNat ≠ 92 := by
    rcases h with ((((⟨h1, h2⟩ | ⟨h1, h2⟩) | ⟨h1, h2⟩) | h1) | h1) | h1
    · have l1 := charLe_toNat h1
      have l2 := charLe_toNat h2
      simp only [show ('a' : Char).toNat = 97 from rfl] at l1
      simp only [show ('z' : Char).toNat = 122 from rfl] at l2
      omega
    · have l1 := charLe_toNat h1
      have l2 := charLe_toNat h2
      simp only [show ('A' : Char).toNat = 65 from rfl] at l1
      simp only [show ('Z' : Char).toNat = 90 from rfl] at l2
      omega
    · have l1 := charLe_toNat h1
      have l2 := charLe_toNat h2
      simp only [show ('0' : Char).toNat = 48 from rfl] at l1
      simp only [show ('9' : Char).toNat = 57 from rfl] at l2
      omega
    · subst h1
      refine ⟨by decide, by decide, by decide⟩
    · subst h1
      refine ⟨by decide, by decide, by decide⟩
    · subst h1
      refine ⟨by decide, by decide, by decide⟩
  obtain ⟨h32, h34, h92⟩ := toNatFacts
  unfold plainChar
  have hq : c ≠ '"' := char_ne_of_toNat_ne (by simpa using h34)
  have hb : c ≠ '\\' := char_ne_of_toNat_ne (by simpa using h92)
  simp [hq, hb]
  omega

theorem jsonEscapeChar_plain {c : Char} (h : plainChar c = true) :
    jsonEscapeChar c = [c] := by
  unfold plainChar at h
  simp only [Bool.and_eq_true, Bool.not_eq_true', decide_eq_false_iff_not,
    decide_eq_true_eq, Bool.not_eq_true] at h
  obtain ⟨⟨hq, hb⟩, h32⟩ := h
  have hq' : c ≠ '"' := by simpa using hq
  have hb' : c ≠ '\\' := by simpa using hb
  have hn : c ≠ '\n' := fun hh => h32 (by subst hh; decide)
  have hr : c ≠ '\r' := fun hh => h32 (by subst hh; decide)
  have ht : c ≠ '\t' := fun hh => h32 (by subst hh; decide)
  have h8 : ¬(c.toNat = 8) := fun hh => h32 (by omega)
  have h12 : ¬(c.toNat = 12) := fun hh => h32 (by omega)
  simp [jsonEscapeChar, hq', hb', hn, hr, ht, h8, h12, h32]

theorem flatMap_escape_plain {l : List Char} (h : ∀ c ∈ l, plainChar c = true) :
    l.flatMap jsonEscapeChar = l := by
  induction l with
  | nil => rfl
  | cons c t ih =>
    have hc : plainChar c = true := h c (List.mem_cons_self c t)
    have ht : ∀ c' ∈ t, plainChar c' = true := fun c' hc' => h c' (List.mem_cons_of_mem c hc')
    rw [List.flatMap_cons, jsonEscapeChar_plain hc, ih ht]
    rfl

theorem quoteChars_plain {s : String} (h : PlainStr s) :
    quoteChars s = '"' :: s.data ++ ['"'] := by
  unfold quoteChars
  rw [flatMap_escape_plain h]

theorem parseStringBody_plain (cs : List Char) (rest : List Char) (f : Nat)
    (h : ∀ c ∈ cs, plainChar c = true) (hf : cs.length + 1 ≤ f) :
    parseStringBody f (cs ++ '"' :: rest) = some (cs, rest) := by
  induction cs generalizing f with
  | nil =>
    obtain ⟨f', rfl⟩ : ∃ f', f = f' + 1 := ⟨f - 1, by omega⟩
    simp [parseStringBody]
  | cons c t ih =>
    obtain ⟨f', rfl⟩ : ∃ f', f = f' + 1 := ⟨f - 1, by omega⟩
    have hc : plainChar c = true := h c (List.mem_cons_self c t)
    unfold plainChar at hc
    simp only [Bool.and_eq_true, Bool.not_eq_true', decide_eq_false_iff_not,
      decide_eq_true_eq, Bool.not_eq_true] at hc
    obtain ⟨⟨hq, hb⟩, h32⟩ := hc
    have hq' : ¬(c = '"') := by simpa using hq
    have hb' : ¬(c = '\\') := by simpa using hb
    have ht : ∀ c' ∈ t, plainChar c' = true := fun c' hc' => h c' (List.mem_cons_of_mem c hc')
    have hrec := ih f' ht (by simp at hf; omega)
    simp only [List.cons_append, parseStringBody, if_neg hq', if_neg hb', if_neg h32,
      List.append_eq, hrec]

theorem skipWs_cons {c : Char} (t : List Char) (h : isWsChar c = false) :
    skipWs (c :: t) = c :: t := by
  simp [skipWs, h]

theorem string_mk_data (s : String) : String.mk s.data = s := rfl

theorem jsonParsers_succ (f : Nat) : jsonParsers (f + 1) = stepParsers (jsonParsers f) := rfl

/-- Parsing one quoted plain string: any positive fuel suffices. -/
theorem parseValue_quote (s : String) (rest : List Char) (f : Nat) (hf : 1 ≤ f)
    (h : PlainStr s) :
    (jsonParsers f).val (quoteChars s ++ rest) = some (.jstr s, rest) := by
  obtain ⟨f', rfl⟩ : ∃ f', f = f' + 1 := ⟨f - 1, by omega⟩
  rw [quoteChars_plain h, jsonParsers_succ]
  show (match skipWs ('"' :: (s.data ++ ['"']) ++ rest) with
    | [] => none
    | c :: t =>
      if c = '"' then
        match parseStringBody (t.length + 1) t with
        | some (cs, r) => some (Json.jstr ⟨cs⟩, r)
        | none => none
      else if c = '[' then
        match (jsonParsers f').arrItems t with
        | some (vs, r) => some (.jarr vs, r)
        | none => none
      else if c = '{' then
        match (jsonParsers f').objItems t with
        | some (fs, r) => some (.jobj fs, r)
        | none => none
      else if c = 't' then (stripLit ['r', 'u', 'e'] t).map (fun r => (.jbool true, r))
      else if c = 'f' then (stripLit ['a', 'l', 's', 'e'] t).map (fun r => (.jbool false, r))
      else if c = 'n' then (stripLit ['u', 'l', 'l'] t).map (fun r => (.jnull, r))
      else if c = '-' ∨ c.isDigit then parseNumber (c :: t)
      else none) = some (.jstr s, rest)
  rw [show ('"' :: (s.data ++ ['"']) ++ rest) = '"' :: (s.data ++ '"' :: rest) by simp]
  rw [skipWs_cons _ (by decide)]
  have hbody : parseStringBody ((s.data ++ '"' :: rest).length + 1) (s.data ++ '"' :: rest) =
      some (s.data, rest) := by
    apply parseStringBody_plain _ _ _ h
    simp
  simp only [if_pos rfl, hbody, string_mk_data]
  simp

theorem stepParsers_arrRest_rb (P : JsonParsers) (r : List Char) :
    (stepParsers P).arrRest (']' :: r) = some ([], r) := rfl

theorem stepParsers_arrRest_comma (P : JsonParsers) (r : List Char) :
    (stepParsers P).arrRest (',' :: r) =
      (match P.val r with
       | some (v, r2) =>
         match P.arrRest r2 with
         | some (vs, r3) => some (v :: vs, r3)
         | none => none
       | none => none) := rfl

theorem stepParsers_arrItems_rb (P : JsonParsers) (r : List Char) :
    (stepParsers P).arrItems (']' :: r) = some ([], r) := rfl

theorem stepParsers_arrItems_quote (P : JsonParsers) (t : List Char) :
    (stepParsers P).arrItems ('"' :: t) =
      (match P.val ('"' :: t) with
       | some (v, r) =>
         match P.arrRest r with
         | some (vs, r2) => some (v :: vs, r2)
         | none => none
       | none => none) := rfl

theorem stepParsers_val_lb (P : JsonParsers) (t : List Char) :
    (stepParsers P).val ('[' :: t) =
      (match P.arrItems t with
       | some (vs, r) => some (Json.jarr vs, r)
       | none => none) := rfl

theorem parseArrRest_chars (t : List String) (ht : ∀ s ∈ t, PlainStr s) :
    ∀ F rest, t.length + 1 ≤ F →
    (jsonParsers F).arrRest (arrayRestChars t ++ ']' :: rest) = some (t.map Json.jstr, rest) := by
  induction t with
  | nil =>
    intro F rest hF
    obtain ⟨f', rfl⟩ : ∃ f', F = f' + 1 := ⟨F - 1, by omega⟩
    rw [jsonParsers_succ,
      show arrayRestChars [] ++ ']' :: rest = ']' :: rest from rfl,
      stepParsers_arrRest_rb]
    simp
  | cons s t ih =>
    intro F rest hF
    obtain ⟨f', rfl⟩ : ∃ f', F = f' + 1 := ⟨F - 1, by omega⟩
    have hs : PlainStr s := ht s (List.mem_cons_self s t)
    have ht' : ∀ s' ∈ t, PlainStr s' := fun s' hs' => ht s' (List.mem_cons_of_mem s hs')
    have hsplit : arrayRestChars (s :: t) ++ ']' :: rest =
        ',' :: (quoteChars s ++ (arrayRestChars t ++ ']' :: rest)) := by
      simp [arrayRestChars, List.flatMap_cons, List.append_assoc]
    have hF' : t.length + 1 ≤ f' := by
      simp only [List.length_cons] at hF
      omega
    rw [jsonParsers_succ, hsplit, stepParsers_arrRest_comma,
      parseValue_quote s _ f' (by omega) hs]
    simp [ih ht' f' rest hF']

theorem parseArrItems_chars (l : List String) (hl : ∀ s ∈ l, PlainStr s)
    (F : Nat) (rest : List Char) (hF : l.length + 1 ≤ F) :
    (jsonParsers F).arrItems (itemsChars l ++ ']' :: rest) = some (l.map Json.jstr, rest) := by
  cases l with
  | nil =>
    obtain ⟨f', rfl⟩ : ∃ f', F = f' + 1 := ⟨F - 1, by omega⟩
    rw [jsonParsers_succ,
      show itemsChars [] ++ ']' :: rest = ']' :: rest from rfl,
      stepParsers_arrItems_rb]
    simp
  | cons s t =>
    obtain ⟨f', rfl⟩ : ∃ f', F = f' + 1 := ⟨F - 1, by omega⟩
    have hs : PlainStr s := hl s (List.mem_cons_self s t)
    have ht' : ∀ s' ∈ t, PlainStr s' := fun s' hs' => hl s' (List.mem_cons_of_mem s hs')
    have hsplit : itemsChars (s :: t) ++ ']' :: rest =
        '"' :: ((s.data ++ ['"']) ++ (arrayRestChars t ++ ']' :: rest)) := by
      simp [itemsChars, quoteChars_plain hs, List.append_assoc]
    have hquote : '"' :: ((s.data ++ ['"']) ++ (arrayRestChars t ++ ']' :: rest)) =
        quoteChars s ++ (arrayRestChars t ++ ']' :: rest) := by
      simp [quoteChars_plain hs, List.append_assoc]
    have hF' : t.length + 1 ≤ f' := by
      simp only [List.length_cons] at hF
      omega
    rw [jsonParsers_succ, hsplit, stepParsers_arrItems_quote, hquote,
      parseValue_quote s _ f' (by omega) hs]
    simp [parseArrRest_chars t ht' f' rest hF']

theorem arrayRestChars_length_ge (t : List String) :
    t.length ≤ (arrayRestChars t).length := by
  induction t with
  | nil => simp [arrayRestChars]
  | cons s t ih =>
    simp only [arrayRestChars, List.flatMap_cons, List.length_append, List.length_cons]
    simp only [arrayRestChars] at ih
    omega

theorem itemsChars_length_ge (l : List String) :
    l.length ≤ (itemsChars l).length + 1 := by
  cases l with
  | nil => simp [itemsChars]
  | cons s t =>
    have := arrayRestChars_length_ge t
    simp only [itemsChars, List.length_append, List.length_cons]
    omega

/-- The round trip backing the secure key index: printing a list of
escape-free strings and parsing it back recovers the same array. -/
theorem parseJson_stringify (l : List String) (hl : ∀ s ∈ l, PlainStr s) :
    parseJson (stringifyStrArr l) = some (.jarr (l.map .jstr)) := by
  unfold parseJson
  have hdata : (stringifyStrArr l).data = '[' :: itemsChars l ++ [']'] := rfl
  rw [hdata]
  have hlen : ('[' :: itemsChars l ++ [']']).length = (itemsChars l).length + 2 := by
    simp
  rw [hlen, jsonParsers_succ, List.cons_append, stepParsers_val_lb]
  have harr : (jsonParsers ((itemsChars l).length + 2)).arrItems (itemsChars l ++ [']']) =
      some (l.map Json.jstr, []) := by
    have := itemsChars_length_ge l
    exact parseArrItems_chars l hl _ [] (by omega)
  rw [harr]
  simp [skipWs]

/-! ## Coherence of the secure key index -/

theorem valid_plainStr {s : String} (h : isValidStorageKey s = true) : PlainStr s := by
  unfold isValidStorageKey at h
  simp only [Bool.and_eq_true, decide_eq_true_eq, List.all_eq_true] at h
  exact fun c hc => isStorageKeyChar_plain (h.2 c hc)

theorem filterMap_jsonToStr_map (l : List String) :
    (l.map Json.jstr).filterMap jsonToStr = l := by
  induction l with
  | nil => rfl
  | cons s t ih => simp [jsonToStr, ih]

theorem filterMap_jsonToStr_comp (l : List String) :
    l.filterMap (jsonToStr ∘ Json.jstr) = l := by
  induction l with
  | nil => rfl
  | cons s t ih => simp [jsonToStr, ih]

theorem stringifyStrArr_length_ne_zero (l : List String) :
    (stringifyStrArr l).length ≠ 0 := by
  show ('[' :: itemsChars l ++ [']']).length ≠ 0
  simp

/-- Reading back a just-written index recovers exactly the sorted key set
and changes nothing further. -/
theorem readSecureKeyIndex_write (keys : List String) (ls : List (String × String))
    (hnd : keys.Nodup) (hval : ∀ x ∈ keys, isValidStorageKey x = true) :
    readSecureKeyIndex (writeSecureKeyIndex keys ls) =
      (sortStr keys, writeSecureKeyIndex keys ls) := by
  unfold writeSecureKeyIndex
  by_cases he : (sortStr keys).length = 0
  · have hk : sortStr keys = [] := List.length_eq_zero.mp he
    rw [if_pos he]
    unfold readSecureKeyIndex
    rw [mget_mdel_self, hk]
  · rw [if_neg he]
    unfold readSecureKeyIndex
    rw [mget_mset_self]
    have hplain : ∀ s ∈ sortStr keys, PlainStr s := fun s hs =>
      valid_plainStr (hval s ((mem_sortStr s keys).mp hs))
    have hfil : (sortStr keys).filter isValidStorageKey = sortStr keys :=
      List.filter_eq_self.mpr (fun a ha => hval a ((mem_sortStr a keys).mp ha))
    have hded : dedupF (sortStr keys) = sortStr keys :=
      dedupF_of_nodup _ (nodup_sortStr _ hnd)
    simp [stringifyStrArr_length_ne_zero, parseJson_stringify _ hplain,
      filterMap_jsonToStr_map, filterMap_jsonToStr_comp, hfil, hded]

/-- Rewriting the sorted contents of a written index is the identity. -/
theorem writeSecureKeyIndex_write_self (keys : List String) (ls : List (String × String)) :
    writeSecureKeyIndex (sortStr keys) (writeSecureKeyIndex keys ls) =
      writeSecureKeyIndex keys ls := by
  unfold writeSecureKeyIndex
  rw [sortStr_sortStr]
  by_cases he : (sortStr keys).length = 0
  · rw [if_pos he, if_pos he]
    exact mdel_mdel_self ls SECURE_KEY_INDEX
  · rw [if_neg he, if_neg he]
    exact mset_of_mget_some _ _ _ (mget_mset_self ls SECURE_KEY_INDEX _)

theorem readSecureKeyIndex_fst_nodup (ls : List (String × String)) :
    (readSecureKeyIndex ls).1.Nodup := by
  unfold readSecureKeyIndex
  cases hm : mget ls SECURE_KEY_INDEX with
  | none => simp
  | some raw =>
    by_cases hl : raw.length = 0
    · simp [hl]
    · cases hp : parseJson raw with
      | none => simp [hl, hp]
      | some j =>
        cases j <;> simp [hl, hp, nodup_dedupF]

theorem readSecureKeyIndex_fst_valid (ls : List (String × String)) :
    ∀ x ∈ (readSecureKeyIndex ls).1, isValidStorageKey x = true := by
  unfold readSecureKeyIndex
  cases hm : mget ls SECURE_KEY_INDEX with
  | none => simp
  | some raw =>
    by_cases hl : raw.length = 0
    · simp [hl]
    · cases hp : parseJson raw with
      | none => simp [hl, hp]
      | some j =>
        cases j <;> simp [hl, hp]
        intro x hx
        exact (List.mem_filter.mp ((mem_dedupF x _).mp hx)).2

/-- Well-formedness of the persisted index: reading it is pure and returns
a duplicate-free list of valid keys. -/
def IndexWF (ls : List (String × String)) (idx : List String) : Prop :=
  readSecureKeyIndex ls = (idx, ls) ∧ idx.Nodup ∧ ∀ x ∈ idx, isValidStorageKey x = true

theorem indexWF_initial : IndexWF [] [] :=
  ⟨rfl, List.nodup_nil, by simp⟩

theorem indexWF_write (keys : List String) (ls : List (String × String))
    (hnd : keys.Nodup) (hval : ∀ x ∈ keys, isValidStorageKey x = true) :
    IndexWF (writeSecureKeyIndex keys ls) (sortStr keys) :=
  ⟨readSecureKeyIndex_write keys ls hnd hval, nodup_sortStr keys hnd,
    fun x hx => hval x ((mem_sortStr x keys).mp hx)⟩

/-- Reading the index is stabilising: re-reading the possibly self-healed
store returns the same answer and heals nothing further. -/
theorem readSecureKeyIndex_idem (ls : List (String × String)) :
    readSecureKeyIndex (readSecureKeyIndex ls).2 = readSecureKeyIndex ls := by
  cases hm : mget ls SECURE_KEY_INDEX with
  | none =>
    have h1 : readSecureKeyIndex ls = ([], ls) := by
      simp [readSecureKeyIndex, hm]
    rw [h1]
    exact h1
  | some raw =>
    by_cases hl : raw.length = 0
    · have h1 : readSecureKeyIndex ls = ([], ls) := by
        simp [readSecureKeyIndex, hm, hl]
      rw [h1]
      exact h1
    · cases hp : parseJson raw with
      | none =>
        have h1 : readSecureKeyIndex ls = ([], mdel ls SECURE_KEY_INDEX) := by
          simp [readSecureKeyIndex, hm, hl, hp]
        rw [h1]
        show readSecureKeyIndex (mdel ls SECURE_KEY_INDEX) = ([], mdel ls SECURE_KEY_INDEX)
        simp [readSecureKeyIndex, mget_mdel_self]
      | some j =>
        cases j with
        | jarr elems =>
          have h1 : readSecureKeyIndex ls =
              (dedupF ((elems.filterMap jsonToStr).filter isValidStorageKey), ls) := by
            simp [readSecureKeyIndex, hm, hl, hp]
          rw [h1]
          exact h1
        | jnull =>
          have h1 : readSecureKeyIndex ls = ([], ls) := by
            simp [readSecureKeyIndex, hm, hl, hp]
          rw [h1]
          exact h1
        | jbool b =>
          have h1 : readSecureKeyIndex ls = ([], ls) := by
            simp [readSecureKeyIndex, hm, hl, hp]
          rw [h1]
          exact h1
        | jnum =>
          have h1 : readSecureKeyIndex ls = ([], ls) := by
            simp [readSecureKeyIndex, hm, hl, hp]
          rw [h1]
          exact h1
        | jstr s =>
          have h1 : readSecureKeyIndex ls = ([], ls) := by
            simp [readSecureKeyIndex, hm, hl, hp]
          rw [h1]
          exact h1
        | jobj fields =>
          have h1 : readSecureKeyIndex ls = ([], ls) := by
            simp [readSecureKeyIndex, hm, hl, hp]
          rw [h1]
          exact h1

theorem readSecureKeyIndex_wf (ls : List (String × String)) :
    IndexWF (readSecureKeyIndex ls).2 (readSecureKeyIndex ls).1 := by
  refine ⟨?_, readSecureKeyIndex_fst_nodup ls, readSecureKeyIndex_fst_valid ls⟩
  rw [readSecureKeyIndex_idem]

/-! ## Small state utilities -/

theorem warnKeytarFallback_eq_self {st : SecureStoreState}
    (h : st.keytarFallbackWarned = true) : warnKeytarFallback st = st := by
  cases st
  simp only [warnKeytarFallback] at *
  simp_all

theorem warnKeytarFallback_idem (st : SecureStoreState) :
    warnKeytarFallback (warnKeytarFallback st) = warnKeytarFallback st := rfl

theorem getSecureStorageKey_ne_key (k : String) : getSecureStorageKey k ≠ k := by
  intro h
  have hlen : (getSecureStorageKey k).length = k.length := congrArg String.length h
  rw [getSecureStorageKey] at hlen
  rw [String.length_append, String.length_append] at hlen
  rw [show SECURE_STORAGE_NAMESPACE.length = 18 from by decide] at hlen
  rw [show (("." : String)).length = 1 from by decide] at hlen
  omega

/-- The state after `untrackSecureKey` in terms of the read-back index. -/
theorem untrackSecureKey_eq (key : String) (st : SecureStoreState) :
    untrackSecureKey key st =
      { st with localStore := writeSecureKeyIndex (setDel (readSecureKeyIndex st.localStore).1 key) (readSecureKeyIndex st.localStore).2 } := rfl

theorem untrack_idem (key : String) (st : SecureStoreState) :
    untrackSecureKey key (untrackSecureKey key st) = untrackSecureKey key st := by
  have hwf := readSecureKeyIndex_wf st.localStore
  set idx0 := (readSecureKeyIndex st.localStore).1 with hidx0
  set ls0 := (readSecureKeyIndex st.localStore).2 with hls0
  have hnd : (setDel idx0 key).Nodup := nodup_setDel _ _ hwf.2.1
  have hval : ∀ x ∈ setDel idx0 key, isValidStorageKey x = true := fun x hx =>
    hwf.2.2 x ((mem_setDel x idx0 key).mp hx).1
  have hread : readSecureKeyIndex (writeSecureKeyIndex (setDel idx0 key) ls0) =
      (sortStr (setDel idx0 key), writeSecureKeyIndex (setDel idx0 key) ls0) :=
    readSecureKeyIndex_write _ _ hnd hval
  rw [untrackSecureKey_eq key st]
  rw [untrackSecureKey_eq key _]
  simp only [hread]
  have hnotmem : key ∉ sortStr (setDel idx0 key) := fun hm =>
    not_mem_setDel idx0 key ((mem_sortStr key _).mp hm)
  rw [setDel_of_not_mem _ _ hnotmem]
  rw [writeSecureKeyIndex_write_self]

theorem mget_mdel_mdel_none (X : List (String × String)) (a b : String) :
    mget (mdel (mdel X a) b) a = none := by
  rw [mget_mdel]
  by_cases h : b = a
  · simp [h]
  · simp [h, mget_mdel_self]

theorem mdel_mdel_absorb (X : List (String × String)) (a b : String) :
    mdel (mdel (mdel X a) b) a = mdel (mdel X a) b :=
  mdel_of_mget_none _ _ (mget_mdel_mdel_none X a b)

/-- Repeating the primary delete phase on a state that already carries its
outcome (same keychain and probe/warn flags) changes nothing. -/
theorem deletePrimaryPhase_idem (env : KeytarEnv) (k : String)
    (st st' : SecureStoreState)
    (hkc : st'.keychain = (deletePrimaryPhase env k st).keychain)
    (hl : st'.keytarLoaded = (deletePrimaryPhase env k st).keytarLoaded)
    (hf : st'.keytarLoadFailed = (deletePrimaryPhase env k st).keytarLoadFailed)
    (hw : st'.keytarFallbackWarned = (deletePrimaryPhase env k st).keytarFallbackWarned) :
    deletePrimaryPhase env k st' = st' := by
  obtain ⟨l', f', w', kc', fb', ls'⟩ := st'
  simp only at hkc hl hf hw
  subst hkc hl hf hw
  by_cases hL : st.keytarLoaded <;>
    by_cases hF : st.keytarLoadFailed <;>
      by_cases hO : env.loadOk <;>
        by_cases hd1 : env.delOk (getSecureStorageKey k) <;>
          by_cases hd2 : env.delOk k <;>
            simp [deletePrimaryPhase, getKeytar, warnKeytarFallback, hL, hF, hO, hd1, hd2,
              mdel_mdel_self, mdel_mdel_absorb]

/-- C7 helper: the fallback double delete is idempotent. -/
theorem fallback_deletes_absorb (fb : List (String × String)) (ns k : String) :
    mdel (mdel (mdel (mdel fb ns) k) ns) k = mdel (mdel fb ns) k := by
  calc mdel (mdel (mdel (mdel fb ns) k) ns) k
      = mdel (mdel (mdel fb ns) k) k := by rw [mdel_mdel_absorb fb ns k]
    _ = mdel (mdel fb ns) k := mdel_mdel_self _ k

/-- C7: `remove(k)` never throws — it always returns `.ok`, for every
environment (including failing primary deletes, which are caught and only
warned) and every state (including one where `k` is absent); and
`remove(k)` followed by `remove(k)` leaves both backends and the secure key
index in exactly the state a single `remove(k)` produces. -/
theorem c7_remove_idempotent (env : KeytarEnv) (key : String) (st : SecureStoreState) :
    ∃ st1, secureDeleteValue env key st = .ok ((), st1) ∧
      secureDeleteValue env key st1 = .ok ((), st1) := by
  refine ⟨untrackSecureKey key
    { deletePrimaryPhase env key st with
      fallback := mdel (mdel (deletePrimaryPhase env key st).fallback
        (getSecureStorageKey key)) key }, rfl, ?_⟩
  set p1 := deletePrimaryPhase env key st with hp1
  set st3 : SecureStoreState :=
    { p1 with fallback := mdel (mdel p1.fallback (getSecureStorageKey key)) key } with hst3
  set st1 := untrackSecureKey key st3 with hst1
  have hA : deletePrimaryPhase env key st1 = st1 :=
    deletePrimaryPhase_idem env key st st1 rfl rfl rfl rfl
  have hfb : mdel (mdel st1.fallback (getSecureStorageKey key)) key = st1.fallback :=
    fallback_deletes_absorb p1.fallback (getSecureStorageKey key) key
  have h2 : untrackSecureKey key st1 = st1 := untrack_idem key st3
  show Except.ok ((), untrackSecureKey key
    { deletePrimaryPhase env key st1 with
      fallback := mdel (mdel (deletePrimaryPhase env key st1).fallback
        (getSecureStorageKey key)) key }) = Except.ok ((), st1)
  rw [hA, hfb]
  show Except.ok ((), untrackSecureKey key st1) = Except.ok ((), st1)
  rw [h2]

/-- C7 witness: the idempotence theorem applied at a concrete environment,
key and populated state. -/
theorem c7_remove_idempotent_witness :
    ∃ st1, secureDeleteValue ⟨true, false, true, fun _ => true, fun _ => true, fun _ => true⟩
        "k" ⟨false, false, false, [("switchboard.secure.k", "v")],
          [("switchboard.secure.k", "c")], [(SECURE_KEY_INDEX, "[\"j\",\"k\"]")]⟩ =
        .ok ((), st1) ∧
      secureDeleteValue ⟨true, false, true, fun _ => true, fun _ => true, fun _ => true⟩
        "k" st1 = .ok ((), st1) :=
  c7_remove_idempotent _ _ _

/-! ## C8: key validation -/

/-- C8: `isValidStorageKey` accepts exactly the nonempty keys of at most
256 characters over the class of letters, digits, underscore, dot and
hyphen, and the spec's four examples hold, including rejection of every
257-character key. -/
theorem c8_isValidStorageKey_spec :
    (∀ k : String, isValidStorageKey k = true ↔
      (1 ≤ k.length ∧ k.length ≤ 256 ∧ ∀ c ∈ k.data,
        ('a' ≤ c ∧ c ≤ 'z') ∨ ('A' ≤ c ∧ c ≤ 'Z') ∨ ('0' ≤ c ∧ c ≤ '9') ∨
          c = '_' ∨ c = '.' ∨ c = '-')) ∧
    isValidStorageKey "../etc/passwd" = false ∧
    isValidStorageKey "a.b-c_1" = true ∧
    isValidStorageKey "" = false ∧
    (∀ k : String, k.length = 257 → isValidStorageKey k = false) := by
  refine ⟨?_, by decide, by decide, by decide, ?_⟩
  · intro k
    unfold isValidStorageKey isStorageKeyChar
    simp only [Bool.and_eq_true, decide_eq_true_eq, List.all_eq_true, Bool.or_eq_true]
    constructor
    · rintro ⟨⟨h1, h2⟩, h3⟩
      refine ⟨h1, h2, fun c hc => ?_⟩
      have := h3 c hc
      tauto
    · rintro ⟨h1, h2, h3⟩
      refine ⟨⟨h1, h2⟩, fun c hc => ?_⟩
      have := h3 c hc
      tauto
  · intro k hk
    unfold isValidStorageKey
    simp [hk]

set_option maxRecDepth 4096 in
/-- C8 witness: the characterisation applied at a 3-character key and the
257-character bound applied at a concrete 257-character key. -/
theorem c8_isValidStorageKey_witness :
    isValidStorageKey "a.b" = true ∧
    (String.mk (List.replicate 257 'a')).length = 257 ∧
    isValidStorageKey (String.mk (List.replicate 257 'a')) = false := by
  refine ⟨(c8_isValidStorageKey_spec.1 "a.b").mpr (by decide), by rfl, ?_⟩
  exact c8_isValidStorageKey_spec.2.2.2.2 _ (by rfl)

/-! ## C4: storage unavailable is surfaced -/

theorem secureGetFallback_unavail (safe : SafeStorage) (k : String)
    (st : SecureStoreState) (hsa : safe.avail = false) :
    secureGetFallback safe k st = .error (storageUnavailableError st) := by
  simp [secureGetFallback, hsa]

/-- C4: with the fallback encryption capability absent, a primary that is
unavailable (memoised failure or failing load) or whose read/write call
rejects leaves `secureGetValue`/`secureSetValue` no backend: both surface
an error instead of returning null or silently succeeding. -/
theorem c4_storage_unavailable (env : KeytarEnv) (safe : SafeStorage)
    (key value : String) (st : SecureStoreState) (hsa : safe.avail = false) :
    ((st.keytarLoaded = false ∧ (st.keytarLoadFailed = true ∨ env.loadOk = false)) ∨
        env.getOk (getSecureStorageKey key) = false ∨ env.getOk key = false →
      ∃ e, secureGetValue env safe key st = .error e) ∧
    ((st.keytarLoaded = false ∧ (st.keytarLoadFailed = true ∨ env.loadOk = false)) ∨
        env.setOk (getSecureStorageKey key) = false →
      ∃ e, secureSetValue env safe key value st = .error e) := by
  constructor
  · intro h
    by_cases hL : st.keytarLoaded <;>
      by_cases hF : st.keytarLoadFailed <;>
        by_cases hO : env.loadOk <;>
          by_cases hg1 : env.getOk (getSecureStorageKey key) <;>
            by_cases hg2 : env.getOk key <;>
              simp_all [secureGetValue, getKeytar, secureGetFallback_unavail _ _ _ hsa]
  · intro h
    by_cases hL : st.keytarLoaded <;>
      by_cases hF : st.keytarLoadFailed <;>
        by_cases hO : env.loadOk <;>
          by_cases hs1 : env.setOk (getSecureStorageKey key) <;>
            simp_all [secureSetValue, getKeytar, hsa]

/-- C4 witness: both conclusions at a concrete never-loading environment,
unavailable `safeStorage`, and the pristine state. -/
theorem c4_storage_unavailable_witness :
    (∃ e, secureGetValue ⟨false, false, false, fun _ => true, fun _ => true, fun _ => true⟩
      ⟨false, fun v => v, fun v => some v⟩ "k" initialState = .error e) ∧
    (∃ e, secureSetValue ⟨false, false, false, fun _ => true, fun _ => true, fun _ => true⟩
      ⟨false, fun v => v, fun v => some v⟩ "k" "v" initialState = .error e) := by
  have h := c4_storage_unavailable
    ⟨false, false, false, fun _ => true, fun _ => true, fun _ => true⟩
    ⟨false, fun v => v, fun v => some v⟩ "k" "v" initialState rfl
  exact ⟨h.1 (Or.inl ⟨rfl, Or.inr rfl⟩), h.2 (Or.inl ⟨rfl, Or.inr rfl⟩)⟩

/-! ## C2: migration write failure during a primary get -/

def c2Env : KeytarEnv :=
  ⟨true, false, true, fun _ => true, fun _ => false, fun _ => true⟩

def c2Safe : SafeStorage :=
  ⟨true, fun v => v, fun v => some v⟩

def c2St : SecureStoreState :=
  ⟨false, false, false, [("theme", "dark")], [], []⟩

def c2StAfter : SecureStoreState :=
  ⟨true, false, true, [("theme", "dark")], [], []⟩

/-- C2 counterexample: with only a legacy primary entry `"theme" = "dark"`
and a migration `setPassword` that rejects, `secureGetValue` does not
return the resolved value `"dark"`: the throw lands in the shared catch,
the fallback warning fires, and the read is answered as `null` from the
(empty) fallback store — so the migration writes are not best-effort. -/
theorem c2_migration_counterexample :
    resolveStoredValue (mget c2St.keychain (getSecureStorageKey "theme"))
        (mget c2St.keychain "theme") = ⟨some "dark", true⟩ ∧
    c2Env.setOk (getSecureStorageKey "theme") = false ∧
    secureGetValue c2Env c2Safe "theme" c2St = .ok (none, c2StAfter) :=
  ⟨rfl, rfl, rfl⟩

/-- C2 amended: when only a legacy entry exists and the migration
`setPassword` rejects, the failure is caught by the same handler as
primary unavailability: the warning is logged, the read is aborted on the
primary and re-served from the fallback path (null when no fallback entry
exists) instead of returning the resolved value; the legacy primary entry
is left intact for a later retry. -/
theorem c2_migration_amended (env : KeytarEnv) (safe : SafeStorage) (k v : String)
    (st : SecureStoreState)
    (hload : st.keytarLoaded = true ∨ (st.keytarLoadFailed = false ∧ env.loadOk = true))
    (hg1 : env.getOk (getSecureStorageKey k) = true) (hg2 : env.getOk k = true)
    (hns : mget st.keychain (getSecureStorageKey k) = none)
    (hleg : mget st.keychain k = some v)
    (hset : env.setOk (getSecureStorageKey k) = false)
    (hsa : safe.avail = true)
    (hfb1 : mget st.fallback (getSecureStorageKey k) = none)
    (hfb2 : mget st.fallback k = none) :
    ∃ st', secureGetValue env safe k st = .ok (none, st') ∧
      st'.keychain = st.keychain ∧ st'.keytarFallbackWarned = true ∧
      st'.fallback = st.fallback ∧ st'.localStore = st.localStore ∧
      mget st'.keychain k = some v := by
  rcases hload with hL | ⟨hF, hO⟩
  · refine ⟨{ st with keytarFallbackWarned := true }, ?_, rfl, rfl, rfl, rfl, hleg⟩
    simp [secureGetValue, getKeytar, hL, hg1, hg2, hns, hleg, resolveStoredValue, hset,
      secureGetFallback, hsa, hfb1, hfb2, warnKeytarFallback]
  · by_cases hL : st.keytarLoaded
    · refine ⟨{ st with keytarFallbackWarned := true }, ?_, rfl, rfl, rfl, rfl, hleg⟩
      simp [secureGetValue, getKeytar, hL, hg1, hg2, hns, hleg, resolveStoredValue, hset,
        secureGetFallback, hsa, hfb1, hfb2, warnKeytarFallback]
    · refine ⟨{ st with keytarLoaded := true, keytarFallbackWarned := true }, ?_,
        rfl, rfl, rfl, rfl, hleg⟩
      simp [secureGetValue, getKeytar, hL, hF, hO, hg1, hg2, hns, hleg, resolveStoredValue,
        hset, secureGetFallback, hsa, hfb1, hfb2, warnKeytarFallback]

/-- C2 witness: the amended theorem applied at the counterexample input. -/
theorem c2_migration_witness :
    ∃ st', secureGetValue c2Env c2Safe "theme" c2St = .ok (none, st') ∧
      st'.keychain = c2St.keychain ∧ st'.keytarFallbackWarned = true ∧
      st'.fallback = c2St.fallback ∧ st'.localStore = c2St.localStore ∧
      mget st'.keychain "theme" = some "dark" :=
  c2_migration_amended c2Env c2Safe "theme" "dark" c2St (Or.inr ⟨rfl, rfl⟩)
    rfl rfl rfl rfl rfl rfl rfl rfl

/-! ## C3: index self-healing -/

def c3Store : List (String × String) := [(SECURE_KEY_INDEX, "true")]

/-- C3 counterexample: `"true"` is valid JSON that is not an array; reading
the index yields the empty set but the stored value is **not** deleted —
deletion happens only when `JSON.parse` throws. -/
theorem c3_index_self_heal_counterexample :
    parseJson "true" = some (.jbool true) ∧
    readSecureKeyIndex c3Store = ([], c3Store) ∧
    mget c3Store SECURE_KEY_INDEX = some "true" :=
  ⟨rfl, rfl, rfl⟩

/-- C3 amended: a non-empty stored value on which `JSON.parse` throws is
deleted from the non-secret store and the index reads as empty
(self-healing); but an empty stored string, or valid JSON that is not an
array, yields the empty set with the stored value left in place. -/
theorem c3_index_self_heal_amended (ls : List (String × String)) (raw : String)
    (hm : mget ls SECURE_KEY_INDEX = some raw) :
    (raw ≠ "" → parseJson raw = none →
      readSecureKeyIndex ls = ([], mdel ls SECURE_KEY_INDEX)) ∧
    (∀ j, parseJson raw = some j → (∀ es, j ≠ .jarr es) →
      readSecureKeyIndex ls = ([], ls)) ∧
    (raw = "" → readSecureKeyIndex ls = ([], ls)) := by
  have hlen : raw.length = 0 ↔ raw = "" := by
    constructor
    · intro h
      have : raw.data = [] := List.length_eq_zero.mp h
      cases raw
      simp_all
    · intro h
      subst h
      rfl
  refine ⟨?_, ?_, ?_⟩
  · intro hne hp
    have hl : ¬ raw.length = 0 := fun h => hne (hlen.mp h)
    simp [readSecureKeyIndex, hm, hl, hp]
  · intro j hp hj
    by_cases hl : raw.length = 0
    · simp [readSecureKeyIndex, hm, hl]
    · cases j with
      | jarr es => exact absurd rfl (hj es)
      | jnull => simp [readSecureKeyIndex, hm, hl, hp]
      | jbool b => simp [readSecureKeyIndex, hm, hl, hp]
      | jnum => simp [readSecureKeyIndex, hm, hl, hp]
      | jstr s => simp [readSecureKeyIndex, hm, hl, hp]
      | jobj fields => simp [readSecureKeyIndex, hm, hl, hp]
  · intro h
    subst h
    simp [readSecureKeyIndex, hm]

/-- C3 witness: the amended theorem applied to a store holding a non-JSON
string, confirming deletion, and to the non-array counterexample input. -/
theorem c3_index_self_heal_witness :
    readSecureKeyIndex [(SECURE_KEY_INDEX, "not json")] =
      ([], mdel [(SECURE_KEY_INDEX, "not json")] SECURE_KEY_INDEX) ∧
    readSecureKeyIndex c3Store = ([], c3Store) := by
  constructor
  · exact (c3_index_self_heal_amended [(SECURE_KEY_INDEX, "not json")] "not json" rfl).1
      (by decide) rfl
  · exact (c3_index_self_heal_amended c3Store "true" rfl).2.1 (.jbool true) rfl
      (fun es h => by cases h)

/-! ## C9: clearing the non-secret store leaves secret storage intact -/

theorem mget_foldl_mdel (ks : List String) (m : List (String × String)) (a : String) :
    mget (ks.foldl mdel m) a = if a ∈ ks then none else mget m a := by
  induction ks generalizing m with
  | nil => simp
  | cons k t ih =>
    rw [List.foldl_cons, ih]
    by_cases hat : a ∈ t
    · simp [hat]
    · by_cases hak : a = k
      · simp [hat, hak, mget_mdel_self]
      · have : a ≠ k := hak
        simp [hat, hak, mget_mdel_ne _ _ _ (fun h => hak h.symm)]

/-! ## C10: a failed fallback decryption mutates nothing -/

/-- C10: a get that reaches the fallback path without a primary write
(memoised/fresh load failure, or a rejected primary read) and whose
resolved ciphertext fails to decrypt returns null and leaves the fallback
entries (namespaced and legacy), the keychain, and the secure key index
exactly as they were — in particular an undecryptable legacy entry is
neither migrated nor deleted. -/
theorem c10_decrypt_failure_frame (env : KeytarEnv) (safe : SafeStorage)
    (key c : String) (st : SecureStoreState)
    (hentry : (st.keytarLoaded = false ∧ (st.keytarLoadFailed = true ∨ env.loadOk = false)) ∨
      env.getOk (getSecureStorageKey key) = false)
    (hsa : safe.avail = true)
    (hc : (resolveStoredValue (mget st.fallback (getSecureStorageKey key))
      (mget st.fallback key)).value = some c)
    (hdec : safe.dec c = none) :
    ∃ st', secureGetValue env safe key st = .ok (none, st') ∧
      st'.fallback = st.fallback ∧ st'.keychain = st.keychain ∧
      st'.localStore = st.localStore := by
  have hfb : ∀ st'' : SecureStoreState, st''.fallback = st.fallback →
      secureGetFallback safe key st'' = .ok (none, st'') := by
    intro st'' hfbeq
    simp only [secureGetFallback, hsa, hfbeq, decryptFallbackSecureValue]
    rw [hc]
    simp [hdec]
  rcases hentry with ⟨hL, hrest⟩ | hg1
  · rcases hrest with hF | hO
    · refine ⟨{ st with keytarFallbackWarned := true }, ?_, rfl, rfl, rfl⟩
      unfold secureGetValue
      rw [show getKeytar env st =
        (.error "Keychain integration unavailable", st) by simp [getKeytar, hL, hF]]
      exact hfb _ rfl
    · by_cases hF : st.keytarLoadFailed
      · refine ⟨{ st with keytarFallbackWarned := true }, ?_, rfl, rfl, rfl⟩
        unfold secureGetValue
        rw [show getKeytar env st =
          (.error "Keychain integration unavailable", st) by simp [getKeytar, hL, hF]]
        exact hfb _ rfl
      · refine ⟨{ st with keytarLoadFailed := true, keytarFallbackWarned := true },
          ?_, rfl, rfl, rfl⟩
        unfold secureGetValue
        rw [show getKeytar env st =
          (.error "Keychain integration unavailable", { st with keytarLoadFailed := true })
          by simp [getKeytar, hL, hF, hO]]
        exact hfb _ rfl
  · by_cases hL : st.keytarLoaded
    · refine ⟨{ st with keytarFallbackWarned := true }, ?_, rfl, rfl, rfl⟩
      unfold secureGetValue
      rw [show getKeytar env st = (.ok (), st) by simp [getKeytar, hL]]
      simp only [hg1]
      simp only [Bool.false_eq_true, if_false]
      exact hfb _ rfl
    · by_cases hF : st.keytarLoadFailed
      · refine ⟨{ st with keytarFallbackWarned := true }, ?_, rfl, rfl, rfl⟩
        unfold secureGetValue
        rw [show getKeytar env st =
          (.error "Keychain integration unavailable", st) by simp [getKeytar, hL, hF]]
        exact hfb _ rfl
      · by_cases hO : env.loadOk
        · refine ⟨{ st with keytarLoaded := true, keytarFallbackWarned := true },
            ?_, rfl, rfl, rfl⟩
          unfold secureGetValue
          rw [show getKeytar env st = (.ok (), { st with keytarLoaded := true })
            by simp [getKeytar, hL, hF, hO]]
          simp only [hg1]
          simp only [Bool.false_eq_true, if_false]
          exact hfb _ rfl
        · refine ⟨{ st with keytarLoadFailed := true, keytarFallbackWarned := true },
            ?_, rfl, rfl, rfl⟩
          unfold secureGetValue
          rw [show getKeytar env st =
            (.error "Keychain integration unavailable", { st with keytarLoadFailed := true })
            by simp [getKeytar, hL, hF, hO]]
          exact hfb _ rfl

/-- C10 witness: the frame applied at a state holding an undecryptable
legacy ciphertext with the primary load failing. -/
theorem c10_decrypt_failure_frame_witness :
    ∃ st', secureGetValue ⟨false, false, false, fun _ => true, fun _ => true, fun _ => true⟩
        ⟨true, fun v => v, fun _ => none⟩ "k"
        ⟨false, false, false, [], [("k", "garbage")], [(SECURE_KEY_INDEX, "[\"k\"]")]⟩ =
        .ok (none, st') ∧
      st'.fallback = [("k", "garbage")] ∧ st'.keychain = [] ∧
      st'.localStore = [(SECURE_KEY_INDEX, "[\"k\"]")] :=
  c10_decrypt_failure_frame _ _ "k" "garbage" _ (Or.inl ⟨rfl, Or.inr rfl⟩) rfl rfl rfl

/-! ## C6: sticky primary unavailability -/

theorem getKeytar_failed {st : SecureStoreState} (e : KeytarEnv)
    (hl : st.keytarLoaded = false) (hf : st.keytarLoadFailed = true) :
    getKeytar e st = (.error "Keychain integration unavailable", st) := by
  simp [getKeytar, hl, hf]

theorem foldl_mdel_all_keys (m : List (String × String)) :
    (m.map Prod.fst).foldl mdel m = [] := by
  apply eq_nil_of_forall_mget_none
  intro a
  rw [mget_foldl_mdel]
  by_cases hmem : a ∈ m.map Prod.fst
  · simp [hmem]
  · simp [hmem, mget_eq_none_of_not_mem _ _ hmem]

theorem secureGetFallback_frame (safe : SafeStorage) (k : String) (s : SecureStoreState)
    (r : Option String) (s2 : SecureStoreState)
    (h : secureGetFallback safe k s = .ok (r, s2)) :
    s2.keychain = s.keychain ∧ s2.keytarLoaded = s.keytarLoaded ∧
      s2.keytarLoadFailed = s.keytarLoadFailed := by
  unfold secureGetFallback at h
  simp only [decryptFallbackSecureValue] at h
  split at h
  · cases h
  · split at h
    · split at h
      · obtain ⟨h1, h2⟩ := Prod.mk.injEq .. ▸ (Except.ok.injEq .. ▸ h)
        subst h2
        exact ⟨rfl, rfl, rfl⟩
      · obtain ⟨h1, h2⟩ := Prod.mk.injEq .. ▸ (Except.ok.injEq .. ▸ h)
        subst h2
        exact ⟨rfl, rfl, rfl⟩
    · obtain ⟨h1, h2⟩ := Prod.mk.injEq .. ▸ (Except.ok.injEq .. ▸ h)
      subst h2
      exact ⟨rfl, rfl, rfl⟩

/-- C6: once the load failure is memoised (`keytarLoadError` set,
`keytarClient` absent), every subsequent operation is independent of the
keytar environment — in particular no re-load is attempted even under an
environment whose load would now succeed — and each operation leaves the
keychain and both probe flags unchanged, i.e. it runs purely on the
fallback path. -/
theorem c6_sticky_unavailable (env env' : KeytarEnv) (safe : SafeStorage)
    (k v : String) (st : SecureStoreState)
    (hf : st.keytarLoadFailed = true) (hl : st.keytarLoaded = false) :
    secureGetValue env safe k st = secureGetValue env' safe k st ∧
    secureSetValue env safe k v st = secureSetValue env' safe k v st ∧
    secureDeleteValue env k st = secureDeleteValue env' k st ∧
    clearSecureValues env st = clearSecureValues env' st ∧
    (∀ r st2, secureGetValue env safe k st = .ok (r, st2) →
      st2.keychain = st.keychain ∧ st2.keytarLoaded = false ∧
        st2.keytarLoadFailed = true) ∧
    (∀ st2, secureSetValue env safe k v st = .ok ((), st2) →
      st2.keychain = st.keychain ∧ st2.keytarLoaded = false ∧
        st2.keytarLoadFailed = true) ∧
    (∀ st2, secureDeleteValue env k st = .ok ((), st2) →
      st2.keychain = st.keychain ∧ st2.keytarLoaded = false ∧
        st2.keytarLoadFailed = true) ∧
    (∀ st2, clearSecureValues env st = .ok ((), st2) →
      st2.keychain = st.keychain ∧ st2.keytarLoaded = false ∧
        st2.keytarLoadFailed = true) := by
  have hget : ∀ e : KeytarEnv, secureGetValue e safe k st =
      secureGetFallback safe k (warnKeytarFallback st) := by
    intro e
    unfold secureGetValue
    rw [getKeytar_failed e hl hf]
  have hset : ∀ e : KeytarEnv, secureSetValue e safe k v st =
      (if safe.avail = false then
        .error (storageUnavailableError (warnKeytarFallback st))
      else .ok ((), trackSecureKey k { warnKeytarFallback st with
        fallback := mset (warnKeytarFallback st).fallback (getSecureStorageKey k)
          (safe.enc v) })) := by
    intro e
    unfold secureSetValue
    rw [getKeytar_failed e hl hf]
  have hdel : ∀ e : KeytarEnv, secureDeleteValue e k st =
      .ok ((), untrackSecureKey k { warnKeytarFallback st with
        fallback := mdel (mdel (warnKeytarFallback st).fallback
          (getSecureStorageKey k)) k }) := by
    intro e
    unfold secureDeleteValue deletePrimaryPhase
    rw [getKeytar_failed e hl hf]
  have hclr : ∀ e : KeytarEnv, clearSecureValues e st =
      .ok ((), { st with
        keytarFallbackWarned := true,
        fallback := [],
        localStore := writeSecureKeyIndex [] (readSecureKeyIndex st.localStore).2 }) := by
    intro e
    have hk0 : getKeytar e
        ({ st with localStore := (readSecureKeyIndex st.localStore).2 }) =
        (.error "Keychain integration unavailable",
          { st with localStore := (readSecureKeyIndex st.localStore).2 }) :=
      getKeytar_failed e hl hf
    unfold clearSecureValues
    simp only [hk0, foldl_mdel_all_keys, warnKeytarFallback]
  refine ⟨by rw [hget env, hget env'], by rw [hset env, hset env'],
    by rw [hdel env, hdel env'], by rw [hclr env, hclr env'], ?_, ?_, ?_, ?_⟩
  · intro r st2 h
    rw [hget env] at h
    have := secureGetFallback_frame safe k (warnKeytarFallback st) r st2 h
    exact ⟨this.1, by rw [this.2.1]; exact hl, by rw [this.2.2]; exact hf⟩
  · intro st2 h
    rw [hset env] at h
    by_cases hsa : safe.avail = false
    · rw [if_pos hsa] at h
      cases h
    · rw [if_neg hsa] at h
      obtain ⟨h1, h2⟩ := Prod.mk.injEq .. ▸ (Except.ok.injEq .. ▸ h)
      subst h2
      exact ⟨rfl, hl, hf⟩
  · intro st2 h
    rw [hdel env] at h
    obtain ⟨h1, h2⟩ := Prod.mk.injEq .. ▸ (Except.ok.injEq .. ▸ h)
    subst h2
    exact ⟨rfl, hl, hf⟩
  · intro st2 h
    rw [hclr env] at h
    obtain ⟨h1, h2⟩ := Prod.mk.injEq .. ▸ (Except.ok.injEq .. ▸ h)
    subst h2
    exact ⟨rfl, hl, hf⟩

/-- C6 witness: with the failure memoised, a would-now-succeed environment
and a permanently failing one produce identical operations on a concrete
state. -/
theorem c6_sticky_unavailable_witness :
    secureGetValue ⟨true, true, true, fun _ => true, fun _ => true, fun _ => true⟩
        ⟨true, fun x => x, fun x => some x⟩ "k"
        ⟨false, true, false, [("switchboard.secure.k", "v")], [], []⟩ =
      secureGetValue ⟨false, false, false, fun _ => false, fun _ => false, fun _ => false⟩
        ⟨true, fun x => x, fun x => some x⟩ "k"
        ⟨false, true, false, [("switchboard.secure.k", "v")], [], []⟩ :=
  (c6_sticky_unavailable _ _ _ "k" "v" _ rfl rfl).1

/-! ## C5: set/get round trip on either backend -/

/-- C5: for every valid key and value, `set(k, v)` then `get(k)` returns
`v` both when the primary serves both calls (load and the namespaced
write/reads succeed) and when the fallback serves both calls (primary
unavailable, `safeStorage` available, and its decrypt inverting its
encrypt), with no intervening state change. -/
theorem c5_round_trip :
    (∀ (env : KeytarEnv) (safe : SafeStorage) (k v : String) (st : SecureStoreState),
      st.keytarLoadFailed = false → env.loadOk = true →
      env.setOk (getSecureStorageKey k) = true →
      env.getOk (getSecureStorageKey k) = true → env.getOk k = true →
      ∃ st1 st2, secureSetValue env safe k v st = .ok ((), st1) ∧
        secureGetValue env safe k st1 = .ok (some v, st2)) ∧
    (∀ (env : KeytarEnv) (safe : SafeStorage) (k v : String) (st : SecureStoreState),
      st.keytarLoaded = false → (st.keytarLoadFailed = true ∨ env.loadOk = false) →
      safe.avail = true → safe.dec (safe.enc v) = some v →
      ∃ st1 st2, secureSetValue env safe k v st = .ok ((), st1) ∧
        secureGetValue env safe k st1 = .ok (some v, st2)) := by
  constructor
  · intro env safe k v st hF hO hs1 hg1 hg2
    by_cases hL : st.keytarLoaded
    · refine ⟨trackSecureKey k
        { st with keychain := mset st.keychain (getSecureStorageKey k) v },
        trackSecureKey k
          { st with keychain := mset st.keychain (getSecureStorageKey k) v }, ?_, ?_⟩
      · simp [secureSetValue, getKeytar, hL, hs1]
      · simp [secureGetValue, getKeytar, trackSecureKey, hL, hg1, hg2,
          mget_mset_self, resolveStoredValue]
    · refine ⟨trackSecureKey k
        { st with
          keytarLoaded := true,
          keychain := mset st.keychain (getSecureStorageKey k) v },
        trackSecureKey k
          { st with
            keytarLoaded := true,
            keychain := mset st.keychain (getSecureStorageKey k) v }, ?_, ?_⟩
      · simp [secureSetValue, getKeytar, hL, hF, hO, hs1]
      · simp [secureGetValue, getKeytar, trackSecureKey, hg1, hg2,
          mget_mset_self, resolveStoredValue]
  · intro env safe k v st hL hrest hsa hdec
    have hfail : ∀ W : SecureStoreState, W.keytarLoaded = false →
        W.keytarLoadFailed = true →
        secureGetValue env safe k W = secureGetFallback safe k (warnKeytarFallback W) := by
      intro W h1 h2
      unfold secureGetValue
      rw [getKeytar_failed env h1 h2]
    rcases hrest with hF | hO
    · refine ⟨trackSecureKey k
        { warnKeytarFallback st with
          fallback := mset st.fallback (getSecureStorageKey k) (safe.enc v) },
        trackSecureKey k
          { warnKeytarFallback st with
            fallback := mset st.fallback (getSecureStorageKey k) (safe.enc v) }, ?_, ?_⟩
      · unfold secureSetValue
        rw [getKeytar_failed env hL hF]
        simp [hsa, warnKeytarFallback]
      · rw [hfail _ (by simp [trackSecureKey, warnKeytarFallback, hL])
          (by simp [trackSecureKey, warnKeytarFallback, hF])]
        simp [secureGetFallback, hsa, trackSecureKey, warnKeytarFallback,
          mget_mset_self, resolveStoredValue, decryptFallbackSecureValue, hdec]
    · by_cases hF : st.keytarLoadFailed
      · refine ⟨trackSecureKey k
          { warnKeytarFallback st with
            fallback := mset st.fallback (getSecureStorageKey k) (safe.enc v) },
          trackSecureKey k
            { warnKeytarFallback st with
              fallback := mset st.fallback (getSecureStorageKey k) (safe.enc v) }, ?_, ?_⟩
        · unfold secureSetValue
          rw [getKeytar_failed env hL hF]
          simp [hsa, warnKeytarFallback]
        · rw [hfail _ (by simp [trackSecureKey, warnKeytarFallback, hL])
            (by simp [trackSecureKey, warnKeytarFallback, hF])]
          simp [secureGetFallback, hsa, trackSecureKey, warnKeytarFallback,
            mget_mset_self, resolveStoredValue, decryptFallbackSecureValue, hdec]
      · refine ⟨trackSecureKey k
          { st with
            keytarLoadFailed := true,
            keytarFallbackWarned := true,
            fallback := mset st.fallback (getSecureStorageKey k) (safe.enc v) },
          trackSecureKey k
            { st with
              keytarLoadFailed := true,
              keytarFallbackWarned := true,
              fallback := mset st.fallback (getSecureStorageKey k) (safe.enc v) }, ?_, ?_⟩
        · unfold secureSetValue
          rw [show getKeytar env st =
            (.error "Keychain integration unavailable", { st with keytarLoadFailed := true })
            by simp [getKeytar, hL, hF, hO]]
          simp [hsa, warnKeytarFallback]
        · rw [hfail _ (by simp [trackSecureKey, warnKeytarFallback, hL])
            (by simp [trackSecureKey, warnKeytarFallback])]
          simp [secureGetFallback, hsa, trackSecureKey, warnKeytarFallback,
            mget_mset_self, resolveStoredValue, decryptFallbackSecureValue, hdec]

/-- C5 witness: the primary round trip and the fallback round trip on
concrete inputs. -/
theorem c5_round_trip_witness :
    (∃ st1 st2, secureSetValue
        ⟨true, false, true, fun _ => true, fun _ => true, fun _ => true⟩
        ⟨true, fun x => x, fun x => some x⟩ "token" "abc123" initialState =
          .ok ((), st1) ∧
      secureGetValue ⟨true, false, true, fun _ => true, fun _ => true, fun _ => true⟩
        ⟨true, fun x => x, fun x => some x⟩ "token" st1 = .ok (some "abc123", st2)) ∧
    (∃ st1 st2, secureSetValue
        ⟨false, false, false, fun _ => true, fun _ => true, fun _ => true⟩
        ⟨true, fun x => x, fun x => some x⟩ "token" "abc123" initialState =
          .ok ((), st1) ∧
      secureGetValue ⟨false, false, false, fun _ => true, fun _ => true, fun _ => true⟩
        ⟨true, fun x => x, fun x => some x⟩ "token" st1 = .ok (some "abc123", st2)) :=
  ⟨c5_round_trip.1 _ _ "token" "abc123" initialState rfl rfl rfl rfl rfl,
    c5_round_trip.2 _ _ "token" "abc123" initialState rfl (Or.inr rfl) rfl rfl⟩

/-! ## C1: the index invariant over operation sequences -/

/-- One facade operation of the secret store. -/
inductive SecOp where
  | get (k : String) : SecOp
  | set (k v : String) : SecOp
  | remove (k : String) : SecOp
  | clear : SecOp

/-- A key the facade accepts that is not itself a namespaced key name (a
key of the form `switchboard.secure.x` would alias another key's
namespaced account and is excluded by the amendment). -/
def OpKeyOk (k : String) : Prop :=
  isValidStorageKey k = true ∧
    strStartsWith k (SECURE_STORAGE_NAMESPACE ++ ".") = false

/-- The primary regime: the keytar module loads and every call succeeds. -/
def PrimaryAllOk (env : KeytarEnv) : Prop :=
  env.loadOk = true ∧ (∀ a, env.getOk a = true) ∧ (∀ a, env.setOk a = true) ∧
    (∀ a, env.delOk a = true) ∧ env.findOk = true

/-- The fallback regime: the keytar module never loads, `safeStorage` is
available, and decryption inverts encryption. -/
def FallbackGood (env : KeytarEnv) (safe : SafeStorage) : Prop :=
  env.loadOk = false ∧ safe.avail = true ∧ ∀ v, safe.dec (safe.enc v) = some v

theorem strStartsWith_ns (k : String) :
    strStartsWith (getSecureStorageKey k) (SECURE_STORAGE_NAMESPACE ++ ".") = true :=
  strStartsWith_append (SECURE_STORAGE_NAMESPACE ++ ".") k

theorem opKeyOk_ne_ns {k : String} (hk : OpKeyOk k) (k' : String) :
    k ≠ getSecureStorageKey k' := by
  intro h
  have hs := strStartsWith_ns k'
  rw [← h, hk.2] at hs
  cases hs

theorem string_eq_of_data_eq {a b : String} (h : a.data = b.data) : a = b := by
  cases a
  cases b
  exact congrArg String.mk h

theorem ns_inj {a b : String} (h : getSecureStorageKey a = getSecureStorageKey b) :
    a = b := by
  have hd := congrArg String.data h
  unfold getSecureStorageKey at hd
  rw [String.data_append, String.data_append] at hd
  have := List.append_cancel_left hd
  exact string_eq_of_data_eq this

/-- A map whose populated entries are the namespaced images of `idx` reads
`none` at a bare accepted key and at the namespaced image of any key
outside `idx`. -/
theorem dom_lookup_bare {m : List (String × String)} {idx : List String} {k : String}
    (hdom : ∀ a, (∃ v, mget m a = some v) ↔ ∃ k' ∈ idx, a = getSecureStorageKey k')
    (hk : OpKeyOk k) : mget m k = none := by
  cases hm : mget m k with
  | none => rfl
  | some w =>
    obtain ⟨k', _, heq⟩ := (hdom k).mp ⟨w, hm⟩
    exact absurd heq (opKeyOk_ne_ns hk k')

theorem dom_lookup_ns_not_mem {m : List (String × String)} {idx : List String} {k : String}
    (hdom : ∀ a, (∃ v, mget m a = some v) ↔ ∃ k' ∈ idx, a = getSecureStorageKey k')
    (hk : k ∉ idx) : mget m (getSecureStorageKey k) = none := by
  cases hm : mget m (getSecureStorageKey k) with
  | none => rfl
  | some w =>
    obtain ⟨k', hk', heq⟩ := (hdom _).mp ⟨w, hm⟩
    exact absurd (ns_inj heq ▸ hk') hk

theorem dom_lookup_ns_mem {m : List (String × String)} {idx : List String} {k : String}
    (hdom : ∀ a, (∃ v, mget m a = some v) ↔ ∃ k' ∈ idx, a = getSecureStorageKey k')
    (hk : k ∈ idx) : ∃ v, mget m (getSecureStorageKey k) = some v :=
  (hdom _).mpr ⟨k, hk, rfl⟩

theorem clearCredentialsPass_all (env : KeytarEnv) (hdel : ∀ a, env.delOk a = true)
    (kc creds : List (String × String)) :
    clearCredentialsPass env kc creds = (creds.map Prod.fst).foldl mdel kc := by
  induction creds generalizing kc with
  | nil => rfl
  | cons c t ih =>
    show List.foldl _ kc (c :: t) = _
    rw [List.foldl_cons, List.map_cons, List.foldl_cons, if_pos (hdel c.1)]
    exact ih (mdel kc c.1)

theorem clearTrackedPass_lookup (env : KeytarEnv) (hdel : ∀ a, env.delOk a = true)
    (ks : List String) (kc : List (String × String)) (a : String) :
    mget (clearTrackedPass env kc ks) a = none ∨
      (mget (clearTrackedPass env kc ks) a = mget kc a ∧
        ∀ k ∈ ks, a ≠ getSecureStorageKey k) := by
  induction ks generalizing kc with
  | nil => exact Or.inr ⟨rfl, by simp⟩
  | cons k0 t ih =>
    have hstep : clearTrackedPass env kc (k0 :: t) =
        clearTrackedPass env (mdel (mdel kc (getSecureStorageKey k0)) k0) t := by
      show List.foldl _ kc (k0 :: t) = _
      rw [List.foldl_cons, if_pos (hdel (getSecureStorageKey k0)), if_pos (hdel k0)]
      rfl
    rw [hstep]
    rcases ih (mdel (mdel kc (getSecureStorageKey k0)) k0) with h | ⟨heq, hne⟩
    · exact Or.inl h
    · by_cases ha1 : a = getSecureStorageKey k0
      · left
        rw [heq, ha1, mget_mdel]
        by_cases hk0 : k0 = getSecureStorageKey k0
        · rw [if_pos hk0]
        · rw [if_neg hk0, mget_mdel_self]
      · by_cases ha2 : a = k0
        · left
          rw [heq, ha2, mget_mdel_self]
        · right
          refine ⟨?_, ?_⟩
          · rw [heq, mget_mdel_ne _ _ _ (fun h => ha2 h.symm),
              mget_mdel_ne _ _ _ (fun h => ha1 h.symm)]
          · intro k' hk'
            rcases List.mem_cons.mp hk' with h | h
            · exact h ▸ ha1
            · exact hne k' h

def c1EnvB : KeytarEnv := ⟨false, false, false, fun _ => true, fun _ => true, fun _ => true⟩

def c1SafeBad : SafeStorage := ⟨true, fun v => v, fun _ => none⟩

def c1EnvA : KeytarEnv := ⟨true, false, true, fun _ => true, fun _ => true, fun _ => true⟩

def c1SafeGood : SafeStorage := ⟨true, fun v => v, fun v => some v⟩


/-! ## Dot-notation store model

Both `electron-store` instances are constructed with default options
(`src/main/index.ts:359-367` and `467-475`), so `accessPropertiesByDotNotation`
is on: `conf` hands every key of `get`/`set`/`delete` to `dot-prop`, which
splits it on `'.'` and traverses nested objects. A stored value is therefore
a string leaf or a nested object. `set` overwrites a non-object intermediate
with a fresh object and replaces the whole subtree at the path, `delete`
removes the whole subtree and no-ops when an intermediate is missing or not
an object, reads through a missing or non-object intermediate yield
`undefined`, and a path containing one of `dot-prop`'s reserved segments
(`__proto__`, `prototype`, `constructor`) is rejected outright: reads give
`undefined`, writes and deletes change nothing. -/

/-- A value stored in a dot-notation store: a string leaf written by the
application or a nested object created by path splitting. -/
inductive SVal where
  | leaf (s : String)
  | node (m : List (String × SVal))

/-- The root object of a dot-notation store. -/
abbrev DStore := List (String × SVal)

/-- Lookup of one own property of a JS object. -/
def aget {α : Type} : List (String × α) → String → Option α
  | [], _ => none
  | (a, v) :: t, k => if a = k then some v else aget t k

/-- Update/insert of one own property of a JS object. -/
def aset {α : Type} : List (String × α) → String → α → List (String × α)
  | [], k, v => [(k, v)]
  | (a, w) :: t, k, v => if a = k then (k, v) :: t else (a, w) :: aset t k v

/-- Deletion of one own property of a JS object. -/
def adel {α : Type} : List (String × α) → String → List (String × α)
  | [], _ => []
  | (a, w) :: t, k => if a = k then adel t k else (a, w) :: adel t k

theorem aget_aset_self {α : Type} (m : List (String × α)) (k : String) (v : α) :
    aget (aset m k v) k = some v := by
  induction m with
  | nil => simp [aget, aset]
  | cons e t ih =>
    obtain ⟨a, w⟩ := e
    by_cases h : a = k
    · simp [aget, aset, h]
    · simp [aget, aset, h, ih]

theorem aget_aset_ne {α : Type} (m : List (String × α)) (k k' : String) (v : α)
    (h : k ≠ k') : aget (aset m k v) k' = aget m k' := by
  induction m with
  | nil => simp [aget, aset, h]
  | cons e t ih =>
    obtain ⟨a, w⟩ := e
    by_cases ha : a = k
    · subst ha
      simp [aget, aset, h]
    · simp only [aset, if_neg ha]
      by_cases ha' : a = k'
      · simp [aget, ha']
      · simp [aget, ha', ih]

theorem aget_adel {α : Type} (m : List (String × α)) (k k' : String) :
    aget (adel m k) k' = if k = k' then none else aget m k' := by
  induction m with
  | nil => simp [aget, adel]
  | cons e t ih =>
    obtain ⟨a, w⟩ := e
    by_cases ha : a = k
    · subst ha
      by_cases hk : a = k'
      · subst hk
        simp [adel, ih]
      · simp [adel, aget, hk, ih]
    · by_cases ha' : a = k'
      · subst ha'
        have : k ≠ a := fun h => ha h.symm
        simp [adel, ha, aget, this]
      · simp [adel, ha, aget, ha', ih]

theorem aget_adel_self {α : Type} (m : List (String × α)) (k : String) :
    aget (adel m k) k = none := by
  simp [aget_adel]

theorem adel_of_aget_none {α : Type} (m : List (String × α)) (k : String)
    (h : aget m k = none) : adel m k = m := by
  induction m with
  | nil => simp [adel]
  | cons e t ih =>
    obtain ⟨a, w⟩ := e
    by_cases ha : a = k
    · simp [aget, ha] at h
    · simp only [aget, if_neg ha] at h
      simp [adel, ha, ih h]

theorem aset_of_aget_some {α : Type} (m : List (String × α)) (k : String) (v : α)
    (h : aget m k = some v) : aset m k v = m := by
  induction m with
  | nil => simp [aget] at h
  | cons e t ih =>
    obtain ⟨a, w⟩ := e
    by_cases ha : a = k
    · subst ha
      simp [aget] at h
      simp [aset, h]
    · simp only [aget, if_neg ha] at h
      simp [aset, ha, ih h]

/-! ### Path splitting (`key.split('.')`) -/

/-- The worker of `String.prototype.split('.')`, accumulating the current
segment in reverse. -/
def splitOnDotAux : List Char → List Char → List (List Char)
  | [], acc => [acc.reverse]
  | c :: rest, acc =>
    if c = '.' then acc.reverse :: splitOnDotAux rest []
    else splitOnDotAux rest (c :: acc)

/-- Dot-path segments of a store key, as `dot-prop`'s `getPathSegments`
produces them (keys here never contain a backslash, so escape handling
never fires). -/
def dotSegs (key : String) : List String :=
  (splitOnDotAux key.data []).map String.mk

/-- Reserved path segments rejected by `dot-prop` (prototype-pollution
guard). -/
def disallowedSeg (s : String) : Bool :=
  s = "__proto__" || s = "prototype" || s = "constructor"

/-- Whether `dot-prop` accepts a segment list. -/
def validPathSegs (p : List String) : Bool := p.all (fun s => !disallowedSeg s)

theorem splitOnDotAux_ne_nil (cs acc : List Char) : splitOnDotAux cs acc ≠ [] := by
  induction cs generalizing acc with
  | nil => simp [splitOnDotAux]
  | cons c t ih =>
    by_cases h : c = '.'
    · simp [splitOnDotAux, h]
    · simp only [splitOnDotAux, if_neg h]
      exact ih _

theorem dotSegs_ne_nil (s : String) : dotSegs s ≠ [] := by
  unfold dotSegs
  intro h
  exact splitOnDotAux_ne_nil s.data [] (List.map_eq_nil_iff.mp h)

/-- Joining segments back with dots. -/
def joinDotCs : List (List Char) → List Char
  | [] => []
  | [x] => x
  | x :: y :: t => x ++ '.' :: joinDotCs (y :: t)

theorem joinDotCs_splitOnDotAux (cs acc : List Char) :
    joinDotCs (splitOnDotAux cs acc) = acc.reverse ++ cs := by
  induction cs generalizing acc with
  | nil => simp [splitOnDotAux, joinDotCs]
  | cons c t ih =>
    by_cases h : c = '.'
    · subst h
      rw [show splitOnDotAux ('.' :: t) acc = acc.reverse :: splitOnDotAux t [] by
        simp [splitOnDotAux]]
      obtain ⟨x, rest, hx⟩ : ∃ x rest, splitOnDotAux t [] = x :: rest := by
        cases hsp : splitOnDotAux t [] with
        | nil => exact absurd hsp (splitOnDotAux_ne_nil t [])
        | cons x rest => exact ⟨x, rest, rfl⟩
      rw [hx, joinDotCs, ← hx, ih []]
      simp
    · rw [show splitOnDotAux (c :: t) acc = splitOnDotAux t (c :: acc) by
        simp [splitOnDotAux, h], ih (c :: acc)]
      simp

theorem dotSegs_inj {a b : String} (h : dotSegs a = dotSegs b) : a = b := by
  unfold dotSegs at h
  have hmap : ∀ l : List (List Char), (l.map String.mk).map String.data = l := by
    intro l
    induction l with
    | nil => rfl
    | cons x t ih => simp [ih, string_mk_data]
  have hsplit : splitOnDotAux a.data [] = splitOnDotAux b.data [] := by
    have := congrArg (List.map String.data) h
    rwa [hmap, hmap] at this
  have := congrArg joinDotCs hsplit
  rw [joinDotCs_splitOnDotAux, joinDotCs_splitOnDotAux] at this
  simp at this
  exact string_eq_of_data_eq this

/-- Letters only, no dot: the split of a dot-separated concatenation peels
off the first segment. -/
theorem splitOnDotAux_append_dot (xs ys acc : List Char)
    (h : ∀ c ∈ xs, c ≠ '.') :
    splitOnDotAux (xs ++ '.' :: ys) acc = (acc.reverse ++ xs) :: splitOnDotAux ys [] := by
  induction xs generalizing acc with
  | nil => simp [splitOnDotAux]
  | cons c t ih =>
    have hc : c ≠ '.' := h c (List.mem_cons_self c t)
    have ht : ∀ c' ∈ t, c' ≠ '.' := fun c' hc' => h c' (List.mem_cons_of_mem c hc')
    rw [List.cons_append, show splitOnDotAux (c :: (t ++ '.' :: ys)) acc =
      splitOnDotAux (t ++ '.' :: ys) (c :: acc) by simp [splitOnDotAux, hc], ih _ ht]
    simp

theorem dotSegs_ns (k : String) :
    dotSegs (getSecureStorageKey k) = "switchboard" :: "secure" :: dotSegs k := by
  unfold dotSegs
  have hdata : (getSecureStorageKey k).data =
      "switchboard".data ++ '.' :: ("secure".data ++ '.' :: k.data) := by
    show (SECURE_STORAGE_NAMESPACE ++ "." ++ k).data = _
    rw [String.data_append, String.data_append]
    rw [show (SECURE_STORAGE_NAMESPACE.data ++ ("." : String).data) =
      "switchboard".data ++ '.' :: ("secure".data ++ ['.']) from by decide]
    simp
  rw [hdata, splitOnDotAux_append_dot _ _ _ (by decide),
    splitOnDotAux_append_dot _ _ _ (by decide)]
  simp [string_mk_data]

/-- Well-formed key path of the form `switchboard.secure.…`: the key it
came from starts with the namespace prefix. -/
theorem startsWith_ns_of_segs {k : String} {rest : List String} (hrest : rest ≠ [])
    (h : dotSegs k = "switchboard" :: "secure" :: rest) :
    strStartsWith k (SECURE_STORAGE_NAMESPACE ++ ".") = true := by
  have hsplit : splitOnDotAux k.data [] =
      "switchboard".data :: "secure".data :: (rest.map String.data) := by
    have := congrArg (List.map String.data) h
    unfold dotSegs at this
    have hmap : ∀ l : List (List Char), (l.map String.mk).map String.data = l := by
      intro l
      induction l with
      | nil => rfl
      | cons x t ih => simp [ih, string_mk_data]
    rw [hmap] at this
    simpa [string_mk_data] using this
  have hjoin := joinDotCs_splitOnDotAux k.data []
  rw [hsplit] at hjoin
  obtain ⟨x, tl, hx⟩ : ∃ x tl, rest.map String.data = x :: tl := by
    cases hr : rest.map String.data with
    | nil => exact absurd (List.map_eq_nil_iff.mp hr) hrest
    | cons x tl => exact ⟨x, tl, rfl⟩
  rw [hx] at hjoin
  simp only [joinDotCs, List.nil_append] at hjoin
  have hdata : k.data = "switchboard".data ++ '.' ::
      ("secure".data ++ '.' :: joinDotCs (x :: tl)) := hjoin.symm
  unfold strStartsWith
  rw [List.isPrefixOf_iff_prefix]
  refine ⟨joinDotCs (x :: tl), ?_⟩
  rw [hdata]
  rw [show (SECURE_STORAGE_NAMESPACE ++ "." : String).data =
    "switchboard".data ++ '.' :: ("secure".data ++ ['.']) from by decide]
  simp

/-! ### Traversal, write and delete along a segment path -/

/-- The fields of a value when it is an object, else nothing to traverse. -/
def nodeOf : Option SVal → DStore
  | some (.node m) => m
  | _ => []

/-- Guarded traversal: reading through a missing or non-object intermediate
yields `undefined`. -/
def tget : DStore → List String → Option SVal
  | _, [] => none
  | m, [s] => aget m s
  | m, s :: rest => tget (nodeOf (aget m s)) rest

/-- Write along a path: a missing or non-object intermediate is replaced by
a fresh object, and the final property is overwritten with the leaf. -/
def tset : DStore → List String → String → DStore
  | m, [], _ => m
  | m, [s], v => aset m s (.leaf v)
  | m, s :: rest, v => aset m s (.node (tset (nodeOf (aget m s)) rest v))

/-- Delete along a path: the whole subtree at the path is removed; a
missing or non-object intermediate makes the delete a no-op. -/
def tdel : DStore → List String → DStore
  | m, [] => m
  | m, [s] => adel m s
  | m, s :: rest =>
    match aget m s with
    | some (.node m') => aset m s (.node (tdel m' rest))
    | _ => m

/-- `store.get(key)` under dot notation. -/
def dget (t : DStore) (key : String) : Option SVal :=
  let p := dotSegs key
  if validPathSegs p then tget t p else none

/-- `store.set(key, value)` under dot notation. -/
def dset (t : DStore) (key value : String) : DStore :=
  let p := dotSegs key
  if validPathSegs p then tset t p value else t

/-- `store.delete(key)` under dot notation. -/
def ddel (t : DStore) (key : String) : DStore :=
  let p := dotSegs key
  if validPathSegs p then tdel t p else t

theorem tget_cons (m : DStore) (s : String) (q : List String) (hq : q ≠ []) :
    tget m (s :: q) = tget (nodeOf (aget m s)) q := by
  cases q with
  | nil => exact absurd rfl hq
  | cons r rs => rfl

theorem tset_cons (m : DStore) (s : String) (q : List String) (hq : q ≠ []) (v : String) :
    tset m (s :: q) v = aset m s (.node (tset (nodeOf (aget m s)) q v)) := by
  cases q with
  | nil => exact absurd rfl hq
  | cons r rs => rfl

theorem tdel_cons (m : DStore) (s : String) (q : List String) (hq : q ≠ []) :
    tdel m (s :: q) =
      match aget m s with
      | some (.node m') => aset m s (.node (tdel m' q))
      | _ => m := by
  cases q with
  | nil => exact absurd rfl hq
  | cons r rs => rfl

theorem tget_nil_store (p : List String) (hp : p ≠ []) : tget [] p = none := by
  induction p with
  | nil => exact absurd rfl hp
  | cons s q ih =>
    cases q with
    | nil => rfl
    | cons r rs =>
      rw [tget_cons _ _ _ (by simp)]
      simpa [aget, nodeOf] using ih (by simp)

theorem tdel_nil_store (p : List String) : tdel [] p = [] := by
  cases p with
  | nil => rfl
  | cons s q =>
    cases q with
    | nil => rfl
    | cons r rs => rw [tdel_cons _ _ _ (by simp)]; rfl

/-- A prefix test on segment lists. -/
def segsPrefixOf : List String → List String → Bool
  | [], _ => true
  | _ :: _, [] => false
  | a :: s, b :: t => a == b && segsPrefixOf s t

theorem segsPrefixOf_refl (p : List String) : segsPrefixOf p p = true := by
  induction p with
  | nil => rfl
  | cons a s ih => simp [segsPrefixOf, ih]

theorem segsPrefixOf_cons_self (a : String) (s t : List String) :
    segsPrefixOf (a :: s) (a :: t) = segsPrefixOf s t := by
  simp [segsPrefixOf]

/-- Writing a leaf at `p` places exactly that leaf; every other leaf of the
tree survives exactly when its path neither extends nor is extended by
`p`. -/
theorem leafAt_tset (p : List String) (hp : p ≠ []) (m : DStore) (q : List String)
    (v w : String) :
    tget (tset m p v) q = some (.leaf w) ↔
      (q = p ∧ w = v) ∨
      (tget m q = some (.leaf w) ∧ segsPrefixOf p q = false ∧
        segsPrefixOf q p = false) := by
  induction p generalizing m q with
  | nil => exact absurd rfl hp
  | cons s p' ih =>
    cases hp' : p' with
    | nil =>
      subst hp'
      cases q with
      | nil =>
        simp [tget, segsPrefixOf]
      | cons t q' =>
        by_cases hts : t = s
        · subst hts
          cases q' with
          | nil =>
            show tget (aset m t (.leaf v)) [t] = _ ↔ _
            rw [show tget (aset m t (.leaf v)) [t] = aget (aset m t (.leaf v)) t from rfl,
              aget_aset_self]
            constructor
            · intro h
              exact Or.inl ⟨rfl, by cases h; rfl⟩
            · rintro (⟨_, rfl⟩ | ⟨_, _, hqp⟩)
              · rfl
              · rw [segsPrefixOf_cons_self] at hqp
                cases hqp
          | cons r rs =>
            show tget (aset m t (.leaf v)) (t :: r :: rs) = _ ↔ _
            rw [tget_cons _ _ _ (by simp), aget_aset_self]
            show tget (nodeOf (some (.leaf v))) (r :: rs) = _ ↔ _
            rw [show nodeOf (some (.leaf v)) = [] from rfl,
              tget_nil_store _ (by simp)]
            constructor
            · intro h
              cases h
            · rintro (⟨hq, _⟩ | ⟨_, hpq, _⟩)
              · cases hq
              · rw [show segsPrefixOf [t] (t :: r :: rs) = true by
                  simp [segsPrefixOf]] at hpq
                cases hpq
        · have hst : ¬ s = t := fun h => hts h.symm
          cases q' with
          | nil =>
            show tget (aset m s (.leaf v)) [t] = _ ↔ _
            rw [show tget (aset m s (.leaf v)) [t] = aget (aset m s (.leaf v)) t from rfl,
              aget_aset_ne _ _ _ _ hst]
            constructor
            · intro h
              exact Or.inr ⟨h, by simp [segsPrefixOf, hst], by simp [segsPrefixOf, hts]⟩
            · rintro (⟨hq, _⟩ | ⟨h, _, _⟩)
              · cases hq
                exact absurd rfl hts
              · exact h
          | cons r rs =>
            show tget (aset m s (.leaf v)) (t :: r :: rs) = _ ↔ _
            rw [tget_cons _ _ _ (by simp), aget_aset_ne _ _ _ _ hst,
              ← tget_cons m t (r :: rs) (by simp)]
            constructor
            · intro h
              exact Or.inr ⟨h, by simp [segsPrefixOf, hst], by simp [segsPrefixOf, hts]⟩
            · rintro (⟨hq, _⟩ | ⟨h, _, _⟩)
              · cases hq
              · exact h
    | cons r0 rs0 =>
      rw [← hp']
      have hp'ne : p' ≠ [] := by
        rw [hp']
        simp
      rw [tset_cons _ _ _ hp'ne]
      cases q with
      | nil =>
        rw [tget, show segsPrefixOf [] (s :: p') = true from rfl]
        constructor
        · intro h
          cases h
        · rintro (⟨hq, _⟩ | ⟨h, _, hqp⟩)
          · cases hq
          · cases hqp
      | cons t q'
      =>
        by_cases hts : t = s
        · subst hts
          cases q' with
          | nil =>
            show tget (aset m t _) [t] = _ ↔ _
            rw [show tget (aset m t (.node (tset (nodeOf (aget m t)) p' v))) [t] =
              aget (aset m t (.node (tset (nodeOf (aget m t)) p' v))) t from rfl,
              aget_aset_self]
            constructor
            · intro h
              cases h
            · rintro (⟨hq, _⟩ | ⟨_, _, hqp⟩)
              · rw [hp'] at hq
                cases hq
              · rw [segsPrefixOf_cons_self] at hqp
                rw [show segsPrefixOf [] p' = true from rfl] at hqp
                cases hqp
          | cons r rs =>
            rw [tget_cons _ _ _ (by simp), aget_aset_self,
              show nodeOf (some (.node (tset (nodeOf (aget m t)) p' v))) =
                tset (nodeOf (aget m t)) p' v from rfl]
            rw [ih hp'ne (nodeOf (aget m t)) (r :: rs)]
            rw [← tget_cons m t (r :: rs) (by simp)]
            constructor
            · rintro (⟨hq, hw⟩ | ⟨h, hpq, hqp⟩)
              · exact Or.inl ⟨by rw [hq], hw⟩
              · exact Or.inr ⟨h, by rw [segsPrefixOf_cons_self]; exact hpq,
                  by rw [segsPrefixOf_cons_self]; exact hqp⟩
            · rintro (⟨hq, hw⟩ | ⟨h, hpq, hqp⟩)
              · cases hq
                exact Or.inl ⟨rfl, hw⟩
              · rw [segsPrefixOf_cons_self] at hpq hqp
                exact Or.inr ⟨h, hpq, hqp⟩
        · have hst : ¬ s = t := fun h => hts h.symm
          cases q' with
          | nil =>
            show tget (aset m s _) [t] = _ ↔ _
            rw [show tget (aset m s (.node (tset (nodeOf (aget m s)) p' v))) [t] =
              aget (aset m s (.node (tset (nodeOf (aget m s)) p' v))) t from rfl,
              aget_aset_ne _ _ _ _ hst]
            constructor
            · intro h
              exact Or.inr ⟨h, by simp [segsPrefixOf, hst], by simp [segsPrefixOf, hts]⟩
            · rintro (⟨hq, _⟩ | ⟨h, _, _⟩)
              · cases hq
                exact absurd rfl hts
              · exact h
          | cons r rs =>
            rw [tget_cons _ _ _ (by simp), aget_aset_ne _ _ _ _ hst,
              ← tget_cons m t (r :: rs) (by simp)]
            constructor
            · intro h
              exact Or.inr ⟨h, by simp [segsPrefixOf, hst], by simp [segsPrefixOf, hts]⟩
            · rintro (⟨hq, _⟩ | ⟨h, _, _⟩)
              · cases hq
                exact absurd rfl hts
              · exact h

theorem tget_tset_self (m : DStore) (p : List String) (hp : p ≠ []) (v : String) :
    tget (tset m p v) p = some (.leaf v) :=
  (leafAt_tset p hp m p v v).mpr (Or.inl ⟨rfl, rfl⟩)

theorem tdel_cons_none (m : DStore) (s : String) (q : List String) (hq : q ≠ [])
    (hm : aget m s = none) : tdel m (s :: q) = m := by
  cases q with
  | nil => exact absurd rfl hq
  | cons r rs => simp [tdel, hm]

theorem tdel_cons_leaf (m : DStore) (s : String) (q : List String) (hq : q ≠ [])
    (u : String) (hm : aget m s = some (.leaf u)) : tdel m (s :: q) = m := by
  cases q with
  | nil => exact absurd rfl hq
  | cons r rs => simp [tdel, hm]

theorem tdel_cons_node (m : DStore) (s : String) (q : List String) (hq : q ≠ [])
    (m' : DStore) (hm : aget m s = some (.node m')) :
    tdel m (s :: q) = aset m s (.node (tdel m' q)) := by
  cases q with
  | nil => exact absurd rfl hq
  | cons r rs => simp [tdel, hm]

theorem tget_single (m : DStore) (s : String) : tget m [s] = aget m s := rfl

theorem tdel_single (m : DStore) (s : String) : tdel m [s] = adel m s := rfl

theorem tget_tdel_self : ∀ (p : List String) (m : DStore), p ≠ [] →
    tget (tdel m p) p = none := by
  intro p
  induction p with
  | nil => exact fun m h => absurd rfl h
  | cons s p' ih =>
    intro m _
    cases hp' : p' with
    | nil =>
      subst hp'
      rw [tdel_single, tget_single]
      exact aget_adel_self m s
    | cons r rs =>
      subst hp'
      rcases hm : aget m s with _ | sv
      · rw [tdel_cons_none m s (r :: rs) (by simp) hm,
          tget_cons m s (r :: rs) (by simp), hm]
        exact tget_nil_store (r :: rs) (by simp)
      · cases sv with
        | leaf u =>
          rw [tdel_cons_leaf m s (r :: rs) (by simp) u hm,
            tget_cons m s (r :: rs) (by simp), hm]
          exact tget_nil_store (r :: rs) (by simp)
        | node m' =>
          rw [tdel_cons_node m s (r :: rs) (by simp) m' hm,
            tget_cons _ s (r :: rs) (by simp), aget_aset_self]
          exact ih m' (by simp)

/-- Deleting at a path that is not a prefix of `q` does not change whether
a leaf sits at `q`. -/
theorem leafAt_tdel : ∀ (p : List String) (m : DStore) (q : List String) (w : String),
    segsPrefixOf p q = false →
    (tget (tdel m p) q = some (.leaf w) ↔ tget m q = some (.leaf w)) := by
  intro p
  induction p with
  | nil =>
    intro m q w hpre
    cases hpre
  | cons s p' ih =>
    intro m q w hpre
    cases hp' : p' with
    | nil =>
      subst hp'
      rw [tdel_single]
      cases q with
      | nil => simp [tget]
      | cons t q' =>
        by_cases hts : t = s
        · subst hts
          cases q' with
          | nil =>
            rw [show segsPrefixOf [t] [t] = true from by simp [segsPrefixOf]] at hpre
            cases hpre
          | cons r rs =>
            rw [show segsPrefixOf [t] (t :: r :: rs) = true from by
              simp [segsPrefixOf]] at hpre
            cases hpre
        · have hst : ¬ s = t := fun h => hts h.symm
          cases q' with
          | nil =>
            rw [tget_single, tget_single, aget_adel, if_neg hst]
          | cons r rs =>
            rw [tget_cons _ _ _ (by simp), aget_adel, if_neg hst,
              ← tget_cons m t (r :: rs) (by simp)]
    | cons r0 rs0 =>
      subst hp'
      rcases hm : aget m s with _ | sv
      · rw [tdel_cons_none m s (r0 :: rs0) (by simp) hm]
      · cases sv with
        | leaf u => rw [tdel_cons_leaf m s (r0 :: rs0) (by simp) u hm]
        | node m' =>
          rw [tdel_cons_node m s (r0 :: rs0) (by simp) m' hm]
          cases q with
          | nil => simp [tget]
          | cons t q' =>
            by_cases hts : t = s
            · subst hts
              have hpre' : segsPrefixOf (r0 :: rs0) q' = false := by
                rw [segsPrefixOf_cons_self] at hpre
                exact hpre
              cases q' with
              | nil =>
                rw [tget_single, tget_single, aget_aset_self, hm]
                constructor
                · intro h
                  cases h
                · intro h
                  cases h
              | cons r rs =>
                rw [tget_cons _ _ _ (by simp), aget_aset_self,
                  tget_cons m t (r :: rs) (by simp), hm]
                exact ih m' (r :: rs) w hpre'
            · have hst : ¬ s = t := fun h => hts h.symm
              cases q' with
              | nil =>
                rw [tget_single, tget_single, aget_aset_ne _ _ _ _ hst]
              | cons r rs =>
                rw [tget_cons _ _ _ (by simp), aget_aset_ne _ _ _ _ hst,
                  ← tget_cons m t (r :: rs) (by simp)]

/-- Deleting never creates a leaf. -/
theorem leafAt_tdel_sound : ∀ (p : List String) (m : DStore) (q : List String)
    (w : String), tget (tdel m p) q = some (.leaf w) →
    tget m q = some (.leaf w) := by
  intro p
  induction p with
  | nil => exact fun m q w h => h
  | cons s p' ih =>
    intro m q w h
    cases hp' : p' with
    | nil =>
      subst hp'
      rw [tdel_single] at h
      cases q with
      | nil => cases h
      | cons t q' =>
        by_cases hts : t = s
        · subst hts
          cases q' with
          | nil =>
            rw [tget_single, aget_adel_self] at h
            cases h
          | cons r rs =>
            rw [tget_cons _ _ _ (by simp), aget_adel_self] at h
            rw [show nodeOf none = ([] : DStore) from rfl,
              tget_nil_store _ (by simp)] at h
            cases h
        · have hst : ¬ s = t := fun h' => hts h'.symm
          cases q' with
          | nil =>
            rw [tget_single, aget_adel, if_neg hst] at h
            exact h
          | cons r rs =>
            rw [tget_cons _ _ _ (by simp), aget_adel, if_neg hst,
              ← tget_cons m t (r :: rs) (by simp)] at h
            exact h
    | cons r0 rs0 =>
      subst hp'
      rcases hm : aget m s with _ | sv
      · rw [tdel_cons_none m s (r0 :: rs0) (by simp) hm] at h
        exact h
      · cases sv with
        | leaf u =>
          rw [tdel_cons_leaf m s (r0 :: rs0) (by simp) u hm] at h
          exact h
        | node m' =>
          rw [tdel_cons_node m s (r0 :: rs0) (by simp) m' hm] at h
          cases q with
          | nil => cases h
          | cons t q' =>
            by_cases hts : t = s
            · subst hts
              cases q' with
              | nil =>
                rw [tget_single, aget_aset_self] at h
                cases h
              | cons r rs =>
                rw [tget_cons _ _ _ (by simp), aget_aset_self] at h
                rw [tget_cons m t (r :: rs) (by simp), hm]
                exact ih m' (r :: rs) w h
            · have hst : ¬ s = t := fun h' => hts h'.symm
              cases q' with
              | nil =>
                rw [tget_single, aget_aset_ne _ _ _ _ hst] at h
                exact h
              | cons r rs =>
                rw [tget_cons _ _ _ (by simp), aget_aset_ne _ _ _ _ hst,
                  ← tget_cons m t (r :: rs) (by simp)] at h
                exact h

/-! ### Shape of the fallback store under secure-namespaced writes -/

/-- Every write the fallback path performs goes through the dotted path
`switchboard.secure.…`, so the root object is empty or holds the single
skeleton entry `switchboard → { secure → T }`. -/
def fbShape (fb T : DStore) : Prop :=
  (fb = [] ∧ T = []) ∨ fb = [("switchboard", .node [("secure", .node T)])]

theorem validPathSegs_cons (s : String) (p : List String) :
    validPathSegs (s :: p) = (!disallowedSeg s && validPathSegs p) := by
  simp [validPathSegs]

theorem validPathSegs_ns (k : String)
    (hok : validPathSegs (dotSegs k) = true) :
    validPathSegs (dotSegs (getSecureStorageKey k)) = true := by
  rw [dotSegs_ns, validPathSegs_cons, validPathSegs_cons, hok,
    show disallowedSeg "switchboard" = false from by decide,
    show disallowedSeg "secure" = false from by decide]
  rfl

theorem tget_shape_ns {fb T : DStore} (h : fbShape fb T) (p : List String)
    (hp : p ≠ []) :
    tget fb ("switchboard" :: "secure" :: p) = tget T p := by
  rcases h with ⟨rfl, rfl⟩ | rfl
  · rw [tget_nil_store _ (by simp), tget_nil_store p hp]
  · rw [tget_cons _ _ _ (by simp),
      show aget [("switchboard", SVal.node [("secure", SVal.node T)])] "switchboard" =
        some (SVal.node [("secure", SVal.node T)]) from by simp [aget],
      show nodeOf (some (SVal.node [("secure", SVal.node T)])) =
        [("secure", SVal.node T)] from rfl,
      tget_cons _ _ _ hp,
      show aget [("secure", SVal.node T)] "secure" = some (SVal.node T) from by
        simp [aget]]
    rfl

theorem dget_ns_eq {fb T : DStore} (h : fbShape fb T) (k : String)
    (hok : validPathSegs (dotSegs k) = true) :
    dget fb (getSecureStorageKey k) = tget T (dotSegs k) := by
  unfold dget
  simp only [if_pos (validPathSegs_ns k hok)]
  rw [dotSegs_ns]
  exact tget_shape_ns h _ (dotSegs_ne_nil k)

theorem dset_shape {fb T : DStore} (h : fbShape fb T) (k v : String)
    (hok : validPathSegs (dotSegs k) = true) :
    dset fb (getSecureStorageKey k) v =
      [("switchboard", .node [("secure", .node (tset T (dotSegs k) v))])] := by
  unfold dset
  simp only [if_pos (validPathSegs_ns k hok)]
  rw [dotSegs_ns, tset_cons _ _ _ (by simp),
    tset_cons _ _ _ (dotSegs_ne_nil k)]
  rcases h with ⟨rfl, rfl⟩ | rfl
  · simp [aget, aset, nodeOf]
  · simp [aget, aset, nodeOf]

theorem fbShape_dset {fb T : DStore} (h : fbShape fb T) (k v : String)
    (hok : validPathSegs (dotSegs k) = true) :
    fbShape (dset fb (getSecureStorageKey k) v) (tset T (dotSegs k) v) :=
  Or.inr (dset_shape h k v hok)

theorem ddel_shape_ns {fb T : DStore} (h : fbShape fb T) (k : String)
    (hok : validPathSegs (dotSegs k) = true) :
    fbShape (ddel fb (getSecureStorageKey k)) (tdel T (dotSegs k)) := by
  unfold ddel
  simp only [if_pos (validPathSegs_ns k hok)]
  rw [dotSegs_ns]
  rcases h with ⟨rfl, rfl⟩ | rfl
  · rw [tdel_nil_store, tdel_nil_store]
    exact Or.inl ⟨rfl, rfl⟩
  · rw [tdel_cons_node [("switchboard", SVal.node [("secure", SVal.node T)])]
        "switchboard" ("secure" :: dotSegs k) (by simp)
        [("secure", SVal.node T)] (by simp [aget]),
      tdel_cons_node [("secure", SVal.node T)] "secure" (dotSegs k)
        (dotSegs_ne_nil k) T (by simp [aget])]
    right
    simp [aset]

theorem ddel_legacy_id {fb T : DStore} (h : fbShape fb T) (k : String)
    (hk1 : strStartsWith k (SECURE_STORAGE_NAMESPACE ++ ".") = false)
    (hk2 : k ≠ "switchboard") (hk3 : k ≠ "switchboard.secure") :
    ddel fb k = fb := by
  unfold ddel
  by_cases hguard : validPathSegs (dotSegs k) = true
  · simp only [if_pos hguard]
    rcases h with ⟨rfl, _⟩ | rfl
    · exact tdel_nil_store _
    · rcases hsegs : dotSegs k with _ | ⟨x, rest⟩
      · exact absurd hsegs (dotSegs_ne_nil k)
      · by_cases hx : x = "switchboard"
        · subst hx
          rcases rest with _ | ⟨y, rest'⟩
          · exact absurd (dotSegs_inj (hsegs.trans
              (show ["switchboard"] = dotSegs "switchboard" from by decide))) hk2
          · by_cases hy : y = "secure"
            · subst hy
              rcases rest' with _ | ⟨z, rest''⟩
              · exact absurd (dotSegs_inj (hsegs.trans
                  (show ["switchboard", "secure"] = dotSegs "switchboard.secure" from
                    by decide))) hk3
              · have hsw := startsWith_ns_of_segs (by simp) hsegs
                rw [hk1] at hsw
                cases hsw
            · have hys : ¬ ("secure" : String) = y := fun h' => hy h'.symm
              rcases rest' with _ | ⟨z, rest''⟩
              · rw [tdel_cons_node
                    [("switchboard", SVal.node [("secure", SVal.node T)])]
                    "switchboard" [y] (by simp)
                    [("secure", SVal.node T)] (by simp [aget]), tdel_single,
                  show adel [("secure", SVal.node T)] y = [("secure", SVal.node T)] from
                    adel_of_aget_none _ _ (by simp [aget, hys])]
                exact aset_of_aget_some _ _ _ (by simp [aget])
              · rw [tdel_cons_node
                    [("switchboard", SVal.node [("secure", SVal.node T)])]
                    "switchboard" (y :: z :: rest'') (by simp)
                    [("secure", SVal.node T)] (by simp [aget]),
                  tdel_cons_none [("secure", SVal.node T)] y (z :: rest'') (by simp)
                    (by simp [aget, hys])]
                exact aset_of_aget_some _ _ _ (by simp [aget])
        · have hxs : ¬ ("switchboard" : String) = x := fun h' => hx h'.symm
          rcases rest with _ | ⟨y, rest'⟩
          · rw [tdel_single]
            exact adel_of_aget_none _ _ (by simp [aget, hxs])
          · exact tdel_cons_none _ x (y :: rest') (by simp) (by simp [aget, hxs])
  · simp only [if_neg hguard]

theorem dget_legacy_not_leaf {fb T : DStore} (h : fbShape fb T) (k : String)
    (hk1 : strStartsWith k (SECURE_STORAGE_NAMESPACE ++ ".") = false)
    (hk2 : k ≠ "switchboard") (hk3 : k ≠ "switchboard.secure") (w : String) :
    dget fb k ≠ some (.leaf w) := by
  unfold dget
  by_cases hguard : validPathSegs (dotSegs k) = true
  · simp only [if_pos hguard]
    rcases h with ⟨rfl, rfl⟩ | rfl
    · rw [tget_nil_store _ (dotSegs_ne_nil k)]
      simp
    · rcases hsegs : dotSegs k with _ | ⟨x, rest⟩
      · exact absurd hsegs (dotSegs_ne_nil k)
      · by_cases hx : x = "switchboard"
        · subst hx
          rcases rest with _ | ⟨y, rest'⟩
          · exact absurd (dotSegs_inj (hsegs.trans
              (show ["switchboard"] = dotSegs "switchboard" from by decide))) hk2
          · by_cases hy : y = "secure"
            · subst hy
              rcases rest' with _ | ⟨z, rest''⟩
              · exact absurd (dotSegs_inj (hsegs.trans
                  (show ["switchboard", "secure"] = dotSegs "switchboard.secure" from
                    by decide))) hk3
              · have hsw := startsWith_ns_of_segs (by simp) hsegs
                rw [hk1] at hsw
                cases hsw
            · have hys : ¬ ("secure" : String) = y := fun h' => hy h'.symm
              rcases rest' with _ | ⟨z, rest''⟩
              · rw [tget_cons _ _ _ (by simp),
                  show aget [("switchboard", SVal.node [("secure", SVal.node T)])]
                      "switchboard" = some (SVal.node [("secure", SVal.node T)]) from
                    by simp [aget],
                  show nodeOf (some (SVal.node [("secure", SVal.node T)])) =
                    [("secure", SVal.node T)] from rfl, tget_single,
                  show aget [("secure", SVal.node T)] y = none from by simp [aget, hys]]
                simp
              · rw [tget_cons _ _ _ (by simp),
                  show aget [("switchboard", SVal.node [("secure", SVal.node T)])]
                      "switchboard" = some (SVal.node [("secure", SVal.node T)]) from
                    by simp [aget],
                  show nodeOf (some (SVal.node [("secure", SVal.node T)])) =
                    [("secure", SVal.node T)] from rfl,
                  tget_cons _ _ _ (by simp),
                  show aget [("secure", SVal.node T)] y = none from by simp [aget, hys],
                  show nodeOf none = ([] : DStore) from rfl,
                  tget_nil_store _ (by simp)]
                simp
        · have hxs : ¬ ("switchboard" : String) = x := fun h' => hx h'.symm
          rcases rest with _ | ⟨y, rest'⟩
          · rw [tget_single,
              show aget [("switchboard", SVal.node [("secure", SVal.node T)])] x =
                none from by simp [aget, hxs]]
            simp
          · rw [tget_cons _ _ _ (by simp),
              show aget [("switchboard", SVal.node [("secure", SVal.node T)])] x =
                none from by simp [aget, hxs],
              show nodeOf none = ([] : DStore) from rfl, tget_nil_store _ (by simp)]
            simp
  · simp only [if_neg hguard]
    simp

/-- Clearing the fallback store deletes every top-level key, emptying the
root object. -/
theorem fb_wipe {fb T : DStore} (h : fbShape fb T) :
    (fb.map Prod.fst).foldl ddel fb = [] := by
  rcases h with ⟨rfl, _⟩ | rfl
  · rfl
  · show List.foldl ddel _ ["switchboard"] = []
    rw [List.foldl_cons, List.foldl_nil]
    unfold ddel
    rw [show dotSegs "switchboard" = ["switchboard"] from by decide]
    simp only [if_pos (show validPathSegs ["switchboard"] = true from by decide)]
    rw [tdel_single]
    simp [adel]

/-- Every leaf of an empty store is a contradiction. -/
theorem tget_empty_not_leaf (q : List String) (w : String) :
    tget ([] : DStore) q ≠ some (.leaf w) := by
  cases q with
  | nil => simp [tget]
  | cons s rest =>
    rw [tget_nil_store _ (by simp)]
    simp

/-! ### The secret store over dot-notation stores

The module state and the four facade operations again, now with the two
`electron-store` instances (`switchboard-store` and
`switchboard-secure-fallback`) embedded with their dot-notation semantics;
the keytar keychain is a flat map of opaque account names. -/

/-- Module-level mutable state of `src/main/index.ts` restricted to the
secret store, with dot-notation stores. -/
structure SecureStoreStateD where
  keytarLoaded : Bool
  keytarLoadFailed : Bool
  keytarFallbackWarned : Bool
  keychain : List (String × String)
  fallback : DStore
  localStore : DStore

/-- The pristine state of a fresh store instance with empty backends. -/
def initialStateD : SecureStoreStateD :=
  ⟨false, false, false, [], [], []⟩

/-- `getKeytar()`: returns the memoised client, rethrows the memoised load
error, or attempts the module load once and memoises the outcome. -/
def getKeytarD (env : KeytarEnv) (st : SecureStoreStateD) :
    Except String Unit × SecureStoreStateD :=
  if st.keytarLoaded then (.ok (), st)
  else if st.keytarLoadFailed then (.error "Keychain integration unavailable", st)
  else if env.loadOk then (.ok (), { st with keytarLoaded := true })
  else (.error "Keychain integration unavailable", { st with keytarLoadFailed := true })

/-- `warnKeytarFallback`: log once; only the flag is modelled. -/
def warnKeytarFallbackD (st : SecureStoreStateD) : SecureStoreStateD :=
  { st with keytarFallbackWarned := true }

/-- The error thrown by `throw keytarLoadError ?? new Error('No secure
storage backend is available')`. -/
def storageUnavailableErrorD (st : SecureStoreStateD) : String :=
  if st.keytarLoadFailed then "Keychain integration unavailable"
  else "No secure storage backend is available"

/-- The `typeof raw === 'string'` view of a dot-notation read: a leaf is a
string, an object or a missing entry is not. -/
def asStr : Option SVal → Option String
  | some (.leaf s) => some s
  | _ => none

/-- `readSecureKeyIndex()` over the dot-notation local store: `store.get`
of the reserved key, the `typeof raw !== 'string' || raw.length === 0`
early return, and the `JSON.parse` try/catch with self-healing delete. -/
def readSecureKeyIndexD (ls : DStore) : List String × DStore :=
  match dget ls SECURE_KEY_INDEX with
  | some (.leaf raw) =>
    if raw.length = 0 then ([], ls)
    else
      match parseJson raw with
      | none => ([], ddel ls SECURE_KEY_INDEX)
      | some j =>
        match j with
        | .jarr elems =>
          (dedupF ((elems.filterMap jsonToStr).filter isValidStorageKey), ls)
        | _ => ([], ls)
  | _ => ([], ls)

/-- `writeSecureKeyIndex(keys)`: delete the reserved key when the set is
empty, else store the sorted JSON array. -/
def writeSecureKeyIndexD (keys : List String) (ls : DStore) : DStore :=
  let entries := sortStr keys
  if entries.length = 0 then ddel ls SECURE_KEY_INDEX
  else dset ls SECURE_KEY_INDEX (stringifyStrArr entries)

/-- `trackSecureKey(key)`: read-modify-write add. -/
def trackSecureKeyD (key : String) (st : SecureStoreStateD) : SecureStoreStateD :=
  let rd := readSecureKeyIndexD st.localStore
  { st with localStore := writeSecureKeyIndexD (setAdd rd.1 key) rd.2 }

/-- `untrackSecureKey(key)`: read-modify-write remove. -/
def untrackSecureKeyD (key : String) (st : SecureStoreStateD) : SecureStoreStateD :=
  let rd := readSecureKeyIndexD st.localStore
  { st with localStore := writeSecureKeyIndexD (setDel rd.1 key) rd.2 }

/-- Fallback tail of `secureGetValue` (after the catch): capability check,
then resolve the two ciphertext reads through the `typeof` string test,
decrypt, and migrate the legacy entry when decryption succeeded. -/
def secureGetFallbackD (safe : SafeStorage) (key : String) (st : SecureStoreStateD) :
    Except String (Option String × SecureStoreStateD) :=
  let fallbackKey := getSecureStorageKey key
  if safe.avail = false then .error (storageUnavailableErrorD st)
  else
    let namespacedEncryptedValue := asStr (dget st.fallback fallbackKey)
    let legacyEncryptedValue := asStr (dget st.fallback key)
    let resolvedEncrypted := resolveStoredValue namespacedEncryptedValue legacyEncryptedValue
    match resolvedEncrypted.value with
    | some encVal =>
      let decrypted := decryptFallbackSecureValue safe encVal
      if resolvedEncrypted.shouldMigrateLegacyValue ∧ decrypted ≠ none then
        let st2 := { st with fallback := ddel (dset st.fallback fallbackKey encVal) key }
        .ok (decrypted, trackSecureKeyD key st2)
      else .ok (decrypted, st)
    | none => .ok (none, st)

/-- `secureGetValue(key)`: primary read with one-time legacy migration
inside the same try block; any throw there is caught, warned once, and the
read restarts on the fallback path. -/
def secureGetValueD (env : KeytarEnv) (safe : SafeStorage) (key : String)
    (st : SecureStoreStateD) : Except String (Option String × SecureStoreStateD) :=
  let accountKey := getSecureStorageKey key
  match getKeytarD env st with
  | (.error _, st1) => secureGetFallbackD safe key (warnKeytarFallbackD st1)
  | (.ok _, st1) =>
    if env.getOk accountKey then
      let namespacedValue := mget st1.keychain accountKey
      if env.getOk key then
        let legacyValue := mget st1.keychain key
        let resolved := resolveStoredValue namespacedValue legacyValue
        if resolved.shouldMigrateLegacyValue ∧ resolved.value ≠ none then
          if env.setOk accountKey then
            let st2 := { st1 with
              keychain := mset st1.keychain accountKey (resolved.value.getD "") }
            if env.delOk key then
              let st3 := { st2 with keychain := mdel st2.keychain key }
              .ok (resolved.value, trackSecureKeyD key st3)
            else secureGetFallbackD safe key (warnKeytarFallbackD st2)
          else secureGetFallbackD safe key (warnKeytarFallbackD st1)
        else .ok (resolved.value, st1)
      else secureGetFallbackD safe key (warnKeytarFallbackD st1)
    else secureGetFallbackD safe key (warnKeytarFallbackD st1)

/-- `secureSetValue(key, value)`: primary write, else warn once, check the
fallback capability, encrypt and write the namespaced fallback entry; the
key is tracked after either successful write. -/
def secureSetValueD (env : KeytarEnv) (safe : SafeStorage) (key value : String)
    (st : SecureStoreStateD) : Except String (Unit × SecureStoreStateD) :=
  let accountKey := getSecureStorageKey key
  let fallbackKey := getSecureStorageKey key
  let primary : Except SecureStoreStateD SecureStoreStateD :=
    match getKeytarD env st with
    | (.error _, st1) => .error (warnKeytarFallbackD st1)
    | (.ok _, st1) =>
      if env.setOk accountKey then
        .ok { st1 with keychain := mset st1.keychain accountKey value }
      else .error (warnKeytarFallbackD st1)
  match primary with
  | .ok st2 => .ok ((), trackSecureKeyD key st2)
  | .error st1 =>
    if safe.avail = false then .error (storageUnavailableErrorD st1)
    else
      let encryptedValue := safe.enc value
      let st2 := { st1 with fallback := dset st1.fallback fallbackKey encryptedValue }
      .ok ((), trackSecureKeyD key st2)

/-- Primary half of `secureDeleteValue`: the try block deleting the
namespaced and legacy accounts, with any throw caught and warned. -/
def deletePrimaryPhaseD (env : KeytarEnv) (key : String) (st : SecureStoreStateD) :
    SecureStoreStateD :=
  let accountKey := getSecureStorageKey key
  match getKeytarD env st with
  | (.error _, st1) => warnKeytarFallbackD st1
  | (.ok _, st1) =>
    if env.delOk accountKey then
      let st2 := { st1 with keychain := mdel st1.keychain accountKey }
      if env.delOk key then { st2 with keychain := mdel st2.keychain key }
      else warnKeytarFallbackD st2
    else warnKeytarFallbackD st1

/-- `secureDeleteValue(key)`: best-effort primary deletes (errors caught
and warned), unconditional fallback deletes of the namespaced and bare
dot-paths, then untrack. -/
def secureDeleteValueD (env : KeytarEnv) (key : String) (st : SecureStoreStateD) :
    Except String (Unit × SecureStoreStateD) :=
  let fallbackKey := getSecureStorageKey key
  let afterPrimary := deletePrimaryPhaseD env key st
  let st3 := { afterPrimary with
    fallback := ddel (ddel afterPrimary.fallback fallbackKey) key }
  .ok ((), untrackSecureKeyD key st3)

/-- `clearSecureValues()`: snapshot the tracked keys, clear the keychain by
enumeration (`findCredentials`) when exposed or by tracked keys otherwise
(outer throw caught and warned), delete every top-level key of the
fallback store, and reset the index to empty. -/
def clearSecureValuesD (env : KeytarEnv) (st : SecureStoreStateD) :
    Except String (Unit × SecureStoreStateD) :=
  let rd := readSecureKeyIndexD st.localStore
  let trackedKeys := rd.1
  let st0 := { st with localStore := rd.2 }
  let st1 :=
    match getKeytarD env st0 with
    | (.error _, sta) => warnKeytarFallbackD sta
    | (.ok _, sta) =>
      if env.hasFindCredentials then
        if env.findOk then
          { sta with keychain := clearCredentialsPass env sta.keychain sta.keychain }
        else warnKeytarFallbackD sta
      else { sta with keychain := clearTrackedPass env sta.keychain trackedKeys }
  let st2 := { st1 with
    fallback := (st1.fallback.map Prod.fst).foldl ddel st1.fallback }
  .ok ((), { st2 with localStore := writeSecureKeyIndexD [] st2.localStore })

/-- One facade operation, dropping the returned value. -/
def runOpD (env : KeytarEnv) (safe : SafeStorage) (op : SecOp)
    (st : SecureStoreStateD) : Except String SecureStoreStateD :=
  match op with
  | .get k => (secureGetValueD env safe k st).map (fun r => r.2)
  | .set k v => (secureSetValueD env safe k v st).map (fun r => r.2)
  | .remove k => (secureDeleteValueD env k st).map (fun r => r.2)
  | .clear => (clearSecureValuesD env st).map (fun r => r.2)

/-- A sequence of facade operations, stopping at the first throw. -/
def runOpsD (env : KeytarEnv) (safe : SafeStorage) :
    List SecOp → SecureStoreStateD → Except String SecureStoreStateD
  | [], st => .ok st
  | op :: rest, st =>
    match runOpD env safe op st with
    | .ok st' => runOpsD env safe rest st'
    | .error e => .error e

/-! ### Reduction of the index operations to the flat root object

The reserved index key contains no dot and no reserved segment, so the
dot-notation store operations on it are plain root-object operations. -/

theorem dotSegs_index : dotSegs SECURE_KEY_INDEX = [SECURE_KEY_INDEX] := by decide

theorem dget_index (ls : DStore) :
    dget ls SECURE_KEY_INDEX = aget ls SECURE_KEY_INDEX := by
  unfold dget
  rw [dotSegs_index]
  simp only [if_pos (show validPathSegs [SECURE_KEY_INDEX] = true from by decide)]
  exact tget_single ls SECURE_KEY_INDEX

theorem dset_index (ls : DStore) (v : String) :
    dset ls SECURE_KEY_INDEX v = aset ls SECURE_KEY_INDEX (.leaf v) := by
  unfold dset
  rw [dotSegs_index]
  simp only [if_pos (show validPathSegs [SECURE_KEY_INDEX] = true from by decide)]
  rfl

theorem ddel_index (ls : DStore) :
    ddel ls SECURE_KEY_INDEX = adel ls SECURE_KEY_INDEX := by
  unfold ddel
  rw [dotSegs_index]
  simp only [if_pos (show validPathSegs [SECURE_KEY_INDEX] = true from by decide)]
  exact tdel_single ls SECURE_KEY_INDEX

/-! ### Coherence of the secure key index over the dot-notation store -/

/-- Reading back a just-written index recovers exactly the sorted key set
and changes nothing further. -/
theorem readSecureKeyIndexD_write (keys : List String) (ls : DStore)
    (hnd : keys.Nodup) (hval : ∀ x ∈ keys, isValidStorageKey x = true) :
    readSecureKeyIndexD (writeSecureKeyIndexD keys ls) =
      (sortStr keys, writeSecureKeyIndexD keys ls) := by
  unfold writeSecureKeyIndexD
  by_cases he : (sortStr keys).length = 0
  · have hk : sortStr keys = [] := List.length_eq_zero.mp he
    rw [if_pos he]
    unfold readSecureKeyIndexD
    rw [dget_index, ddel_index, aget_adel_self, hk]
  · rw [if_neg he]
    unfold readSecureKeyIndexD
    rw [dget_index, dset_index, aget_aset_self]
    have hplain : ∀ s ∈ sortStr keys, PlainStr s := fun s hs =>
      valid_plainStr (hval s ((mem_sortStr s keys).mp hs))
    have hfil : (sortStr keys).filter isValidStorageKey = sortStr keys :=
      List.filter_eq_self.mpr (fun a ha => hval a ((mem_sortStr a keys).mp ha))
    have hded : dedupF (sortStr keys) = sortStr keys :=
      dedupF_of_nodup _ (nodup_sortStr _ hnd)
    simp [stringifyStrArr_length_ne_zero, parseJson_stringify _ hplain,
      filterMap_jsonToStr_map, filterMap_jsonToStr_comp, hfil, hded]

theorem readSecureKeyIndexD_fst_nodup (ls : DStore) :
    (readSecureKeyIndexD ls).1.Nodup := by
  unfold readSecureKeyIndexD
  cases hm : dget ls SECURE_KEY_INDEX with
  | none => simp
  | some sv =>
    cases sv with
    | node m' => simp
    | leaf raw =>
      by_cases hl : raw.length = 0
      · simp [hl]
      · cases hp : parseJson raw with
        | none => simp [hl, hp]
        | some j =>
          cases j <;> simp [hl, hp, nodup_dedupF]

theorem readSecureKeyIndexD_fst_valid (ls : DStore) :
    ∀ x ∈ (readSecureKeyIndexD ls).1, isValidStorageKey x = true := by
  unfold readSecureKeyIndexD
  cases hm : dget ls SECURE_KEY_INDEX with
  | none => simp
  | some sv =>
    cases sv with
    | node m' => simp
    | leaf raw =>
      by_cases hl : raw.length = 0
      · simp [hl]
      · cases hp : parseJson raw with
        | none => simp [hl, hp]
        | some j =>
          cases j <;> simp [hl, hp]
          intro x hx
          exact (List.mem_filter.mp ((mem_dedupF x _).mp hx)).2

/-- Well-formedness of the persisted index: reading it is pure and returns
a duplicate-free list of valid keys. -/
def IndexWFD (ls : DStore) (idx : List String) : Prop :=
  readSecureKeyIndexD ls = (idx, ls) ∧ idx.Nodup ∧
    ∀ x ∈ idx, isValidStorageKey x = true

theorem indexWFD_initial : IndexWFD [] [] :=
  ⟨rfl, List.nodup_nil, by simp⟩

theorem indexWFD_write (keys : List String) (ls : DStore)
    (hnd : keys.Nodup) (hval : ∀ x ∈ keys, isValidStorageKey x = true) :
    IndexWFD (writeSecureKeyIndexD keys ls) (sortStr keys) :=
  ⟨readSecureKeyIndexD_write keys ls hnd hval, nodup_sortStr keys hnd,
    fun x hx => hval x ((mem_sortStr x keys).mp hx)⟩

theorem trackSecureKeyD_of_wf (st : SecureStoreStateD) {idx : List String}
    (hwf : IndexWFD st.localStore idx) (k : String)
    (hkv : isValidStorageKey k = true) :
    (trackSecureKeyD k st).localStore =
        writeSecureKeyIndexD (setAdd idx k) st.localStore ∧
      IndexWFD (trackSecureKeyD k st).localStore (sortStr (setAdd idx k)) := by
  have h1 : (trackSecureKeyD k st).localStore =
      writeSecureKeyIndexD (setAdd idx k) st.localStore := by
    show writeSecureKeyIndexD (setAdd (readSecureKeyIndexD st.localStore).1 k)
      (readSecureKeyIndexD st.localStore).2 = _
    rw [hwf.1]
  refine ⟨h1, ?_⟩
  rw [h1]
  apply indexWFD_write
  · exact nodup_setAdd idx k hwf.2.1
  · intro x hx
    rcases (mem_setAdd x idx k).mp hx with hx' | hx'
    · exact hwf.2.2 x hx'
    · exact hx' ▸ hkv

theorem untrackSecureKeyD_of_wf (st : SecureStoreStateD) {idx : List String}
    (hwf : IndexWFD st.localStore idx) (k : String) :
    (untrackSecureKeyD k st).localStore =
        writeSecureKeyIndexD (setDel idx k) st.localStore ∧
      IndexWFD (untrackSecureKeyD k st).localStore (sortStr (setDel idx k)) := by
  have h1 : (untrackSecureKeyD k st).localStore =
      writeSecureKeyIndexD (setDel idx k) st.localStore := by
    show writeSecureKeyIndexD (setDel (readSecureKeyIndexD st.localStore).1 k)
      (readSecureKeyIndexD st.localStore).2 = _
    rw [hwf.1]
  refine ⟨h1, ?_⟩
  rw [h1]
  apply indexWFD_write
  · exact nodup_setDel idx k hwf.2.1
  · intro x hx
    exact hwf.2.2 x ((mem_setDel x idx k).mp hx).1

theorem getKeytarD_failed (e : KeytarEnv) {st : SecureStoreStateD}
    (h1 : st.keytarLoaded = false) (h2 : st.keytarLoadFailed = true) :
    getKeytarD e st = (.error "Keychain integration unavailable", st) := by
  simp [getKeytarD, h1, h2]

theorem ddel_nil_store (key : String) : ddel [] key = [] := by
  unfold ddel
  by_cases h : validPathSegs (dotSegs key) = true
  · simp only [if_pos h]
    exact tdel_nil_store _
  · simp only [if_neg h]

theorem asStr_eq_none_of_not_leaf {o : Option SVal}
    (h : ∀ w, o ≠ some (.leaf w)) : asStr o = none := by
  cases o with
  | none => rfl
  | some sv =>
    cases sv with
    | leaf w => exact absurd rfl (h w)
    | node m => rfl

/-! ### The amended C1 invariant over dot-notation stores -/

/-- A key the amended invariant admits: accepted by the facade, not itself
a namespaced key name, not a dot-prefix of the namespace skeleton, and
free of `dot-prop`'s reserved segments. -/
def KeyOkD (k : String) : Prop :=
  OpKeyOk k ∧ k ≠ "switchboard" ∧ k ≠ "switchboard.secure" ∧
    validPathSegs (dotSegs k) = true

/-- An admissible key family: each key is admitted and no two distinct
keys are dot-prefixes of one another (`a` and `a.b` alias each other's
storage paths under dot notation). -/
def KeySetOk (K : String → Prop) : Prop :=
  (∀ k, K k → KeyOkD k) ∧
  (∀ k1 k2, K k1 → K k2 → k1 ≠ k2 →
    segsPrefixOf (dotSegs k1) (dotSegs k2) = false)

/-- One operation over keys of the family. -/
def opOkK (K : String → Prop) : SecOp → Prop
  | .get k => K k
  | .set k _ => K k
  | .remove k => K k
  | .clear => True

def OpsOkK (K : String → Prop) (ops : List SecOp) : Prop := ∀ op ∈ ops, opOkK K op

/-- Invariant of the primary regime: the index is well formed and holds
only family keys, the keychain's populated accounts are exactly the
namespaced images of the indexed keys, the memoised load failure is never
set, and the fallback store was never written. -/
def InvAD (K : String → Prop) (st : SecureStoreStateD) (idx : List String) : Prop :=
  IndexWFD st.localStore idx ∧
  (∀ k ∈ idx, K k) ∧
  (∀ a, (∃ v, mget st.keychain a = some v) ↔ ∃ k ∈ idx, a = getSecureStorageKey k) ∧
  st.keytarLoadFailed = false ∧
  st.fallback = []

/-- Invariant of the fallback regime: the index is well formed and holds
only family keys, the fallback store has the namespace skeleton shape with
the leaves of its secure subtree exactly at the indexed keys' dot-paths
(each holding an encryptor image), and the client is never memoised. -/
def InvBD (safe : SafeStorage) (K : String → Prop) (st : SecureStoreStateD)
    (idx : List String) : Prop :=
  IndexWFD st.localStore idx ∧
  (∀ k ∈ idx, K k) ∧
  (∃ T, fbShape st.fallback T ∧
    (∀ q w, tget T q = some (.leaf w) →
      ∃ k ∈ idx, q = dotSegs k ∧ ∃ v, w = safe.enc v) ∧
    (∀ k ∈ idx, ∃ v, tget T (dotSegs k) = some (.leaf (safe.enc v)))) ∧
  st.keytarLoaded = false

theorem invAD_initial (K : String → Prop) : InvAD K initialStateD [] := by
  refine ⟨indexWFD_initial, by simp, ?_, rfl, rfl⟩
  intro a
  simp [initialStateD, mget]

theorem invBD_initial (safe : SafeStorage) (K : String → Prop) :
    InvBD safe K initialStateD [] := by
  refine ⟨indexWFD_initial, by simp, ⟨[], Or.inl ⟨rfl, rfl⟩, ?_, by simp⟩, rfl⟩
  intro q w h
  exact absurd h (tget_empty_not_leaf q w)

/-- Regime A, `get`: returns the namespaced keychain value, migrates
nothing, and preserves the invariant with the same index. -/
theorem invAD_get (env : KeytarEnv) (safe : SafeStorage) (K : String → Prop)
    (k : String) (st : SecureStoreStateD) (idx : List String)
    (hA : PrimaryAllOk env) (hKS : KeySetOk K) (hI : InvAD K st idx) (hk : K k) :
    ∃ st', secureGetValueD env safe k st =
        .ok (mget st.keychain (getSecureStorageKey k), st') ∧
      InvAD K st' idx := by
  obtain ⟨hwf, hmem, hdom, hff, hfb⟩ := hI
  have hkOk : OpKeyOk k := (hKS.1 k hk).1
  have hleg : mget st.keychain k = none := dom_lookup_bare hdom hkOk
  by_cases hL : st.keytarLoaded
  · refine ⟨st, ?_, ⟨hwf, hmem, hdom, hff, hfb⟩⟩
    unfold secureGetValueD
    rw [show getKeytarD env st = (.ok (), st) by simp [getKeytarD, hL]]
    cases hns : mget st.keychain (getSecureStorageKey k) with
    | some w => simp [hA.2.1, hns, hleg, resolveStoredValue]
    | none => simp [hA.2.1, hns, hleg, resolveStoredValue]
  · refine ⟨{ st with keytarLoaded := true }, ?_, ⟨hwf, hmem, hdom, hff, hfb⟩⟩
    unfold secureGetValueD
    rw [show getKeytarD env st = (.ok (), { st with keytarLoaded := true }) by
      simp [getKeytarD, hL, hff, hA.1]]
    cases hns : mget st.keychain (getSecureStorageKey k) with
    | some w => simp [hA.2.1, hns, hleg, resolveStoredValue]
    | none => simp [hA.2.1, hns, hleg, resolveStoredValue]

/-- Regime A, `set`: writes the namespaced account, tracks the key, and
re-establishes the invariant at the enlarged index. -/
theorem invAD_set (env : KeytarEnv) (safe : SafeStorage) (K : String → Prop)
    (k v : String) (st : SecureStoreStateD) (idx : List String)
    (hA : PrimaryAllOk env) (hKS : KeySetOk K) (hI : InvAD K st idx) (hk : K k) :
    ∃ st', secureSetValueD env safe k v st = .ok ((), st') ∧
      InvAD K st' (sortStr (setAdd idx k)) := by
  obtain ⟨hwf, hmem, hdom, hff, hfb⟩ := hI
  have hkOk : OpKeyOk k := (hKS.1 k hk).1
  have hmem' : ∀ y, y ∈ sortStr (setAdd idx k) ↔ y ∈ idx ∨ y = k := fun y =>
    (mem_sortStr y _).trans (mem_setAdd y idx k)
  have hdom' : ∀ (kc1 : List (String × String)), kc1 = st.keychain →
      ∀ a, (∃ w, mget (mset kc1 (getSecureStorageKey k) v) a = some w) ↔
        ∃ k' ∈ sortStr (setAdd idx k), a = getSecureStorageKey k' := by
    rintro kc1 rfl a
    by_cases ha : a = getSecureStorageKey k
    · subst ha
      constructor
      · intro _
        exact ⟨k, (hmem' k).mpr (Or.inr rfl), rfl⟩
      · intro _
        exact ⟨v, mget_mset_self _ _ _⟩
    · rw [mget_mset_ne _ _ _ _ (fun h => ha h.symm)]
      rw [hdom a]
      constructor
      · rintro ⟨k', hk', rfl⟩
        exact ⟨k', (hmem' k').mpr (Or.inl hk'), rfl⟩
      · rintro ⟨k', hk', rfl⟩
        rcases (hmem' k').mp hk' with h | h
        · exact ⟨k', h, rfl⟩
        · exact absurd rfl (h ▸ ha)
  have hmembers : ∀ y ∈ sortStr (setAdd idx k), K y := by
    intro y hy
    rcases (hmem' y).mp hy with h | h
    · exact hmem y h
    · exact h ▸ hk
  by_cases hL : st.keytarLoaded
  · have hwfPart := trackSecureKeyD_of_wf (
      { st with keychain := mset st.keychain (getSecureStorageKey k) v }) hwf k hkOk.1
    refine ⟨trackSecureKeyD k
      { st with keychain := mset st.keychain (getSecureStorageKey k) v }, ?_, ?_⟩
    · unfold secureSetValueD
      rw [show getKeytarD env st = (.ok (), st) by simp [getKeytarD, hL]]
      simp [hA.2.2.1]
    · exact ⟨hwfPart.2, hmembers, hdom' _ rfl, hff, hfb⟩
  · have hwfPart' := trackSecureKeyD_of_wf (
      { st with
        keytarLoaded := true,
        keychain := mset st.keychain (getSecureStorageKey k) v }) hwf k hkOk.1
    refine ⟨trackSecureKeyD k
      { st with
        keytarLoaded := true,
        keychain := mset st.keychain (getSecureStorageKey k) v }, ?_, ?_⟩
    · unfold secureSetValueD
      rw [show getKeytarD env st = (.ok (), { st with keytarLoaded := true }) by
        simp [getKeytarD, hL, hff, hA.1]]
      simp [hA.2.2.1]
    · exact ⟨hwfPart'.2, hmembers, hdom' _ rfl, hff, hfb⟩

set_option maxRecDepth 2048 in
/-- Regime A, `remove`: deletes the namespaced (and absent bare) accounts,
no-ops on the never-written fallback store, untracks the key, and
re-establishes the invariant at the shrunken index. -/
theorem invAD_remove (env : KeytarEnv) (K : String → Prop) (k : String)
    (st : SecureStoreStateD) (idx : List String)
    (hA : PrimaryAllOk env) (hKS : KeySetOk K) (hI : InvAD K st idx) (hk : K k) :
    ∃ st', secureDeleteValueD env k st = .ok ((), st') ∧
      InvAD K st' (sortStr (setDel idx k)) := by
  obtain ⟨hwf, hmem, hdom, hff, hfb⟩ := hI
  have hkOk : OpKeyOk k := (hKS.1 k hk).1
  have hfb2 : ddel (ddel st.fallback (getSecureStorageKey k)) k = [] := by
    rw [hfb, ddel_nil_store, ddel_nil_store]
  have hdom' : ∀ a,
      (∃ w, mget (mdel (mdel st.keychain (getSecureStorageKey k)) k) a = some w) ↔
        ∃ k' ∈ sortStr (setDel idx k), a = getSecureStorageKey k' := by
    intro a
    by_cases hak : k = a
    · constructor
      · rintro ⟨w, hw⟩
        rw [mget_mdel, if_pos hak] at hw
        cases hw
      · rintro ⟨k', _, ha⟩
        exact absurd (hak.trans ha) (opKeyOk_ne_ns hkOk k')
    · by_cases hans : getSecureStorageKey k = a
      · constructor
        · rintro ⟨w, hw⟩
          rw [mget_mdel, if_neg hak, mget_mdel, if_pos hans] at hw
          cases hw
        · rintro ⟨k', hk', ha⟩
          have hkk : k' = k := ns_inj (by rw [← ha, ← hans])
          subst hkk
          exact absurd ((mem_sortStr k' _).mp hk') (not_mem_setDel idx k')
      · rw [mget_mdel, if_neg hak, mget_mdel, if_neg hans, hdom a]
        constructor
        · rintro ⟨k', hk', rfl⟩
          refine ⟨k', ?_, rfl⟩
          rw [mem_sortStr, mem_setDel]
          exact ⟨hk', fun he => hans (by rw [he])⟩
        · rintro ⟨k', hk', rfl⟩
          rw [mem_sortStr, mem_setDel] at hk'
          exact ⟨k', hk'.1, rfl⟩
  have hmembers : ∀ y ∈ sortStr (setDel idx k), K y := by
    intro y hy
    rw [mem_sortStr, mem_setDel] at hy
    exact hmem y hy.1
  by_cases hL : st.keytarLoaded
  · have hp1 : deletePrimaryPhaseD env k st =
        { st with keychain := mdel (mdel st.keychain (getSecureStorageKey k)) k } := by
      unfold deletePrimaryPhaseD
      rw [show getKeytarD env st = (.ok (), st) by simp [getKeytarD, hL]]
      simp [hA.2.2.2.1]
    refine ⟨untrackSecureKeyD k
      { st with
        keychain := mdel (mdel st.keychain (getSecureStorageKey k)) k,
        fallback := ddel (ddel st.fallback (getSecureStorageKey k)) k }, ?_, ?_⟩
    · unfold secureDeleteValueD
      rw [hp1]
    · have hwf' := untrackSecureKeyD_of_wf (
        { st with
          keychain := mdel (mdel st.keychain (getSecureStorageKey k)) k,
          fallback := ddel (ddel st.fallback (getSecureStorageKey k)) k }) hwf k
      exact ⟨hwf'.2, hmembers, hdom', hff, hfb2⟩
  · have hp1 : deletePrimaryPhaseD env k st =
        { st with
          keytarLoaded := true,
          keychain := mdel (mdel st.keychain (getSecureStorageKey k)) k } := by
      unfold deletePrimaryPhaseD
      rw [show getKeytarD env st = (.ok (), { st with keytarLoaded := true }) by
        simp [getKeytarD, hL, hff, hA.1]]
      simp [hA.2.2.2.1]
    refine ⟨untrackSecureKeyD k
      { st with
        keytarLoaded := true,
        keychain := mdel (mdel st.keychain (getSecureStorageKey k)) k,
        fallback := ddel (ddel st.fallback (getSecureStorageKey k)) k }, ?_, ?_⟩
    · unfold secureDeleteValueD
      rw [hp1]
    · have hwf' := untrackSecureKeyD_of_wf (
        { st with
          keytarLoaded := true,
          keychain := mdel (mdel st.keychain (getSecureStorageKey k)) k,
          fallback := ddel (ddel st.fallback (getSecureStorageKey k)) k }) hwf k
      exact ⟨hwf'.2, hmembers, hdom', hff, hfb2⟩

/-- Regime A, `clear`: both clearing strategies empty the keychain, the
fallback store stays empty, and the index resets to empty. -/
theorem invAD_clear (env : KeytarEnv) (K : String → Prop) (st : SecureStoreStateD)
    (idx : List String) (hA : PrimaryAllOk env) (hI : InvAD K st idx) :
    ∃ st', clearSecureValuesD env st = .ok ((), st') ∧ InvAD K st' [] := by
  obtain ⟨hwf, hmem, hdom, hff, hfb⟩ := hI
  have hrd : readSecureKeyIndexD st.localStore = (idx, st.localStore) := hwf.1
  have hwfEmpty : IndexWFD (writeSecureKeyIndexD [] st.localStore) [] :=
    indexWFD_write [] st.localStore List.nodup_nil (by simp)
  have hclears : ∀ kc1 : List (String × String), kc1 = st.keychain →
      ∀ a kc2, (kc2 = clearCredentialsPass env kc1 kc1 ∨
        kc2 = clearTrackedPass env kc1 idx) → mget kc2 a = none := by
    rintro kc1 rfl a kc2 (rfl | rfl)
    · rw [clearCredentialsPass_all env hA.2.2.2.1, mget_foldl_mdel]
      by_cases hmemk : a ∈ st.keychain.map Prod.fst
      · simp [hmemk]
      · simp [hmemk, mget_eq_none_of_not_mem _ _ hmemk]
    · rcases clearTrackedPass_lookup env hA.2.2.2.1 idx st.keychain a with h | ⟨heq, hne⟩
      · exact h
      · rw [heq]
        cases hm : mget st.keychain a with
        | none => rfl
        | some w =>
          obtain ⟨k', hk', ha⟩ := (hdom a).mp ⟨w, hm⟩
          exact absurd ha (hne k' hk')
  have hInvOf : ∀ st' : SecureStoreStateD,
      st'.keychain = clearCredentialsPass env st.keychain st.keychain ∨
        st'.keychain = clearTrackedPass env st.keychain idx →
      st'.localStore = writeSecureKeyIndexD [] st.localStore →
      st'.keytarLoadFailed = st.keytarLoadFailed →
      st'.fallback = [] → InvAD K st' [] := by
    intro st' hkc hls hff' hfb'
    refine ⟨hls ▸ hwfEmpty, by simp, ?_, hff' ▸ hff, hfb'⟩
    intro a
    constructor
    · rintro ⟨w, hw⟩
      rcases hkc with hkc | hkc <;>
        rw [hkc, hclears st.keychain rfl a _ (by simp)] at hw <;> cases hw
    · rintro ⟨k', hk', _⟩
      simp at hk'
  by_cases hL : st.keytarLoaded
  · by_cases hFind : env.hasFindCredentials
    · refine ⟨{ st with
        keychain := clearCredentialsPass env st.keychain st.keychain,
        fallback := [],
        localStore := writeSecureKeyIndexD [] st.localStore }, ?_, ?_⟩
      · simp [clearSecureValuesD, hrd, getKeytarD, hL, hFind, hA.2.2.2.2, hfb,
          clearCredentialsPass]
      · exact hInvOf _ (Or.inl rfl) rfl rfl rfl
    · refine ⟨{ st with
        keychain := clearTrackedPass env st.keychain idx,
        fallback := [],
        localStore := writeSecureKeyIndexD [] st.localStore }, ?_, ?_⟩
      · simp [clearSecureValuesD, hrd, getKeytarD, hL, hFind, hfb, clearTrackedPass]
      · exact hInvOf _ (Or.inr rfl) rfl rfl rfl
  · by_cases hFind : env.hasFindCredentials
    · refine ⟨{ st with
        keytarLoaded := true,
        keychain := clearCredentialsPass env st.keychain st.keychain,
        fallback := [],
        localStore := writeSecureKeyIndexD [] st.localStore }, ?_, ?_⟩
      · simp [clearSecureValuesD, hrd, getKeytarD, hL, hff, hA.1, hFind, hA.2.2.2.2,
          hfb, clearCredentialsPass]
      · exact hInvOf _ (Or.inl rfl) rfl rfl rfl
    · refine ⟨{ st with
        keytarLoaded := true,
        keychain := clearTrackedPass env st.keychain idx,
        fallback := [],
        localStore := writeSecureKeyIndexD [] st.localStore }, ?_, ?_⟩
      · simp [clearSecureValuesD, hrd, getKeytarD, hL, hff, hA.1, hFind, hfb,
          clearTrackedPass]
      · exact hInvOf _ (Or.inr rfl) rfl rfl rfl

/-- Regime B, `get`: answered from the fallback tree, decrypting
successfully exactly on indexed keys, with no mutation beyond the probe
flags. -/
theorem invBD_get (env : KeytarEnv) (safe : SafeStorage) (K : String → Prop)
    (k : String) (st : SecureStoreStateD) (idx : List String)
    (hB : FallbackGood env safe) (hKS : KeySetOk K) (hI : InvBD safe K st idx)
    (hk : K k) :
    ∃ r st', secureGetValueD env safe k st = .ok (r, st') ∧ InvBD safe K st' idx ∧
      ((∃ v, r = some v) ↔ k ∈ idx) := by
  obtain ⟨hwf, hmem, ⟨T, hshape, hsound, hcomp⟩, hld⟩ := hI
  have hkD : KeyOkD k := hKS.1 k hk
  have hok : validPathSegs (dotSegs k) = true := hkD.2.2.2
  have hleg : asStr (dget st.fallback k) = none :=
    asStr_eq_none_of_not_leaf (fun w =>
      dget_legacy_not_leaf hshape k hkD.1.2 hkD.2.1 hkD.2.2.1 w)
  have hns : dget st.fallback (getSecureStorageKey k) = tget T (dotSegs k) :=
    dget_ns_eq hshape k hok
  have main : ∀ W : SecureStoreStateD, W.fallback = st.fallback →
      ∃ r, secureGetFallbackD safe k W = .ok (r, W) ∧
        ((∃ v, r = some v) ↔ k ∈ idx) := by
    intro W hW
    by_cases hmemk : k ∈ idx
    · obtain ⟨v, hv⟩ := hcomp k hmemk
      refine ⟨some v, ?_, by simp [hmemk]⟩
      have hnsv : asStr (dget st.fallback (getSecureStorageKey k)) =
          some (safe.enc v) := by
        rw [hns, hv]
        rfl
      simp only [secureGetFallbackD, hB.2.1, hnsv, hW, hleg, resolveStoredValue,
        decryptFallbackSecureValue, hB.2.2 v]
      simp
    · have hnsv : asStr (dget st.fallback (getSecureStorageKey k)) = none := by
        rw [hns]
        apply asStr_eq_none_of_not_leaf
        intro w hw
        obtain ⟨k', hk', hq, _⟩ := hsound _ _ hw
        exact hmemk ((dotSegs_inj hq) ▸ hk')
      refine ⟨none, ?_, by simp [hmemk]⟩
      simp only [secureGetFallbackD, hB.2.1, hnsv, hW, hleg, resolveStoredValue]
      simp
  by_cases hF : st.keytarLoadFailed
  · obtain ⟨r, hr, hiff⟩ := main (warnKeytarFallbackD st) rfl
    refine ⟨r, warnKeytarFallbackD st, ?_,
      ⟨hwf, hmem, ⟨T, hshape, hsound, hcomp⟩, hld⟩, hiff⟩
    unfold secureGetValueD
    rw [getKeytarD_failed env hld hF]
    exact hr
  · obtain ⟨r, hr, hiff⟩ :=
      main (warnKeytarFallbackD { st with keytarLoadFailed := true }) rfl
    refine ⟨r, warnKeytarFallbackD { st with keytarLoadFailed := true }, ?_,
      ⟨hwf, hmem, ⟨T, hshape, hsound, hcomp⟩, hld⟩, hiff⟩
    unfold secureGetValueD
    rw [show getKeytarD env st = (.error "Keychain integration unavailable",
      { st with keytarLoadFailed := true }) by simp [getKeytarD, hld, hF, hB.1]]
    exact hr

/-- Regime B, `set`: encrypts into the namespaced dot-path of the fallback
tree, tracks the key, and re-establishes the invariant at the enlarged
index; the prefix-freedom of the family keeps every other leaf intact. -/
theorem invBD_set (env : KeytarEnv) (safe : SafeStorage) (K : String → Prop)
    (k v : String) (st : SecureStoreStateD) (idx : List String)
    (hB : FallbackGood env safe) (hKS : KeySetOk K) (hI : InvBD safe K st idx)
    (hk : K k) :
    ∃ st', secureSetValueD env safe k v st = .ok ((), st') ∧
      InvBD safe K st' (sortStr (setAdd idx k)) := by
  obtain ⟨hwf, hmem, ⟨T, hshape, hsound, hcomp⟩, hld⟩ := hI
  have hkD : KeyOkD k := hKS.1 k hk
  have hok : validPathSegs (dotSegs k) = true := hkD.2.2.2
  have hmem' : ∀ y, y ∈ sortStr (setAdd idx k) ↔ y ∈ idx ∨ y = k := fun y =>
    (mem_sortStr y _).trans (mem_setAdd y idx k)
  have hmembers : ∀ y ∈ sortStr (setAdd idx k), K y := by
    intro y hy
    rcases (hmem' y).mp hy with h | h
    · exact hmem y h
    · exact h ▸ hk
  have hshape' : fbShape (dset st.fallback (getSecureStorageKey k) (safe.enc v))
      (tset T (dotSegs k) (safe.enc v)) := fbShape_dset hshape k (safe.enc v) hok
  have hsound' : ∀ q w, tget (tset T (dotSegs k) (safe.enc v)) q = some (.leaf w) →
      ∃ k' ∈ sortStr (setAdd idx k), q = dotSegs k' ∧ ∃ u, w = safe.enc u := by
    intro q w hq
    rcases (leafAt_tset (dotSegs k) (dotSegs_ne_nil k) T q (safe.enc v) w).mp hq with
      ⟨rfl, rfl⟩ | ⟨hold, _, _⟩
    · exact ⟨k, (hmem' k).mpr (Or.inr rfl), rfl, v, rfl⟩
    · obtain ⟨k', hk', hq', hu⟩ := hsound q w hold
      exact ⟨k', (hmem' k').mpr (Or.inl hk'), hq', hu⟩
  have hcomp' : ∀ k' ∈ sortStr (setAdd idx k),
      ∃ u, tget (tset T (dotSegs k) (safe.enc v)) (dotSegs k') =
        some (.leaf (safe.enc u)) := by
    intro k' hk'
    by_cases hkk : k' = k
    · subst hkk
      exact ⟨v, tget_tset_self T (dotSegs k') (dotSegs_ne_nil k') (safe.enc v)⟩
    · have hk'idx : k' ∈ idx := by
        rcases (hmem' k').mp hk' with h | h
        · exact h
        · exact absurd h hkk
      obtain ⟨u, hu⟩ := hcomp k' hk'idx
      refine ⟨u, (leafAt_tset (dotSegs k) (dotSegs_ne_nil k) T (dotSegs k')
        (safe.enc v) (safe.enc u)).mpr (Or.inr ⟨hu, ?_, ?_⟩)⟩
      · exact hKS.2 k k' hk (hmem k' hk'idx) (fun h => hkk h.symm)
      · exact hKS.2 k' k (hmem k' hk'idx) hk hkk
  by_cases hF : st.keytarLoadFailed
  · have hwfPart := trackSecureKeyD_of_wf ({ warnKeytarFallbackD st with
      fallback := dset st.fallback (getSecureStorageKey k) (safe.enc v) })
      hwf k hkD.1.1
    refine ⟨trackSecureKeyD k { warnKeytarFallbackD st with
      fallback := dset st.fallback (getSecureStorageKey k) (safe.enc v) }, ?_,
      ⟨hwfPart.2, hmembers, ⟨_, hshape', hsound', hcomp'⟩, hld⟩⟩
    unfold secureSetValueD
    rw [getKeytarD_failed env hld hF]
    simp [hB.2.1, warnKeytarFallbackD]
  · have hwfPart := trackSecureKeyD_of_wf ({ st with
      keytarLoadFailed := true,
      keytarFallbackWarned := true,
      fallback := dset st.fallback (getSecureStorageKey k) (safe.enc v) })
      hwf k hkD.1.1
    refine ⟨trackSecureKeyD k { st with
      keytarLoadFailed := true,
      keytarFallbackWarned := true,
      fallback := dset st.fallback (getSecureStorageKey k) (safe.enc v) }, ?_,
      ⟨hwfPart.2, hmembers, ⟨_, hshape', hsound', hcomp'⟩, hld⟩⟩
    unfold secureSetValueD
    rw [show getKeytarD env st = (.error "Keychain integration unavailable",
      { st with keytarLoadFailed := true }) by simp [getKeytarD, hld, hF, hB.1]]
    simp [hB.2.1, warnKeytarFallbackD]

/-- Regime B, `remove`: deletes the namespaced dot-path subtree, no-ops at
the bare path, untracks the key, and re-establishes the invariant at the
shrunken index. -/
theorem invBD_remove (env : KeytarEnv) (safe : SafeStorage) (K : String → Prop)
    (k : String) (st : SecureStoreStateD) (idx : List String)
    (hB : FallbackGood env safe) (hKS : KeySetOk K) (hI : InvBD safe K st idx)
    (hk : K k) :
    ∃ st', secureDeleteValueD env k st = .ok ((), st') ∧
      InvBD safe K st' (sortStr (setDel idx k)) := by
  obtain ⟨hwf, hmem, ⟨T, hshape, hsound, hcomp⟩, hld⟩ := hI
  have hkD : KeyOkD k := hKS.1 k hk
  have hok : validPathSegs (dotSegs k) = true := hkD.2.2.2
  have hmembers : ∀ y ∈ sortStr (setDel idx k), K y := by
    intro y hy
    rw [mem_sortStr, mem_setDel] at hy
    exact hmem y hy.1
  have hshape1 : fbShape (ddel st.fallback (getSecureStorageKey k))
      (tdel T (dotSegs k)) := ddel_shape_ns hshape k hok
  have hfb2 : ddel (ddel st.fallback (getSecureStorageKey k)) k =
      ddel st.fallback (getSecureStorageKey k) :=
    ddel_legacy_id hshape1 k hkD.1.2 hkD.2.1 hkD.2.2.1
  have hsound1 : ∀ q w, tget (tdel T (dotSegs k)) q = some (.leaf w) →
      ∃ k' ∈ sortStr (setDel idx k), q = dotSegs k' ∧ ∃ u, w = safe.enc u := by
    intro q w hq
    obtain ⟨k', hk', hq', hu⟩ := hsound q w (leafAt_tdel_sound (dotSegs k) T q w hq)
    refine ⟨k', ?_, hq', hu⟩
    rw [mem_sortStr, mem_setDel]
    refine ⟨hk', ?_⟩
    intro hkk
    subst hkk
    rw [hq', tget_tdel_self (dotSegs k') T (dotSegs_ne_nil k')] at hq
    cases hq
  have hcomp1 : ∀ k' ∈ sortStr (setDel idx k),
      ∃ u, tget (tdel T (dotSegs k)) (dotSegs k') = some (.leaf (safe.enc u)) := by
    intro k' hk'
    rw [mem_sortStr, mem_setDel] at hk'
    obtain ⟨u, hu⟩ := hcomp k' hk'.1
    refine ⟨u, ?_⟩
    rw [leafAt_tdel (dotSegs k) T (dotSegs k') (safe.enc u)
      (hKS.2 k k' hk (hmem k' hk'.1) (fun h => hk'.2 h.symm))]
    exact hu
  by_cases hF : st.keytarLoadFailed
  · have hp1 : deletePrimaryPhaseD env k st = warnKeytarFallbackD st := by
      unfold deletePrimaryPhaseD
      rw [getKeytarD_failed env hld hF]
    refine ⟨untrackSecureKeyD k { warnKeytarFallbackD st with
      fallback := ddel (ddel st.fallback (getSecureStorageKey k)) k }, ?_, ?_⟩
    · unfold secureDeleteValueD
      rw [hp1]
      rfl
    · have hwf' := untrackSecureKeyD_of_wf ({ warnKeytarFallbackD st with
        fallback := ddel (ddel st.fallback (getSecureStorageKey k)) k }) hwf k
      refine ⟨hwf'.2, hmembers, ⟨tdel T (dotSegs k), ?_, hsound1, hcomp1⟩, hld⟩
      show fbShape (ddel (ddel st.fallback (getSecureStorageKey k)) k) _
      rw [hfb2]
      exact hshape1
  · have hp1 : deletePrimaryPhaseD env k st =
        { st with keytarLoadFailed := true, keytarFallbackWarned := true } := by
      unfold deletePrimaryPhaseD
      rw [show getKeytarD env st = (.error "Keychain integration unavailable",
        { st with keytarLoadFailed := true }) by simp [getKeytarD, hld, hF, hB.1]]
      rfl
    refine ⟨untrackSecureKeyD k { st with
      keytarLoadFailed := true,
      keytarFallbackWarned := true,
      fallback := ddel (ddel st.fallback (getSecureStorageKey k)) k }, ?_, ?_⟩
    · unfold secureDeleteValueD
      rw [hp1]
    · have hwf' := untrackSecureKeyD_of_wf ({ st with
        keytarLoadFailed := true,
        keytarFallbackWarned := true,
        fallback := ddel (ddel st.fallback (getSecureStorageKey k)) k }) hwf k
      refine ⟨hwf'.2, hmembers, ⟨tdel T (dotSegs k), ?_, hsound1, hcomp1⟩, hld⟩
      show fbShape (ddel (ddel st.fallback (getSecureStorageKey k)) k) _
      rw [hfb2]
      exact hshape1

/-- Regime B, `clear`: the keychain section throws and is warned, every
top-level key of the fallback store is deleted, and the index resets to
empty. -/
theorem invBD_clear (env : KeytarEnv) (safe : SafeStorage) (K : String → Prop)
    (st : SecureStoreStateD) (idx : List String)
    (hB : FallbackGood env safe) (hI : InvBD safe K st idx) :
    ∃ st', clearSecureValuesD env st = .ok ((), st') ∧ InvBD safe K st' [] := by
  obtain ⟨hwf, hmem, ⟨T, hshape, hsound, hcomp⟩, hld⟩ := hI
  have hrd : readSecureKeyIndexD st.localStore = (idx, st.localStore) := hwf.1
  have hwfEmpty : IndexWFD (writeSecureKeyIndexD [] st.localStore) [] :=
    indexWFD_write [] st.localStore List.nodup_nil (by simp)
  have hwipe : (st.fallback.map Prod.fst).foldl ddel st.fallback = [] :=
    fb_wipe hshape
  have hInvOf : ∀ st' : SecureStoreStateD, st'.fallback = ([] : DStore) →
      st'.localStore = writeSecureKeyIndexD [] st.localStore →
      st'.keytarLoaded = st.keytarLoaded → InvBD safe K st' [] := by
    intro st' hfb hls hl
    refine ⟨hls ▸ hwfEmpty, by simp, ⟨[], ?_, ?_, by simp⟩, hl ▸ hld⟩
    · rw [hfb]
      exact Or.inl ⟨rfl, rfl⟩
    · intro q w h
      exact absurd h (tget_empty_not_leaf q w)
  by_cases hF : st.keytarLoadFailed
  · refine ⟨{ st with
      keytarFallbackWarned := true,
      fallback := [],
      localStore := writeSecureKeyIndexD [] st.localStore }, ?_,
      hInvOf _ rfl rfl rfl⟩
    simp [clearSecureValuesD, hrd, getKeytarD, hld, hF, hwipe, warnKeytarFallbackD]
  · refine ⟨{ st with
      keytarLoadFailed := true,
      keytarFallbackWarned := true,
      fallback := [],
      localStore := writeSecureKeyIndexD [] st.localStore }, ?_,
      hInvOf _ rfl rfl rfl⟩
    simp [clearSecureValuesD, hrd, getKeytarD, hld, hF, hB.1, hwipe,
      warnKeytarFallbackD]

theorem runOpsD_invAD (env : KeytarEnv) (safe : SafeStorage) (K : String → Prop)
    (ops : List SecOp) (hA : PrimaryAllOk env) (hKS : KeySetOk K) :
    ∀ st idx st'', OpsOkK K ops → InvAD K st idx →
      runOpsD env safe ops st = .ok st'' → ∃ idx'', InvAD K st'' idx'' := by
  induction ops with
  | nil =>
    intro st idx st'' _ hI hrun
    cases hrun
    exact ⟨idx, hI⟩
  | cons op rest ih =>
    intro st idx st'' hops hI hrun
    have hop : opOkK K op := hops op (List.mem_cons_self op rest)
    have hrest : OpsOkK K rest := fun o ho => hops o (List.mem_cons_of_mem op ho)
    cases op with
    | get k =>
      obtain ⟨st', heq, hI'⟩ := invAD_get env safe K k st idx hA hKS hI hop
      have hstep : runOpD env safe (.get k) st = .ok st' := by
        simp [runOpD, heq, Except.map]
      rw [runOpsD, hstep] at hrun
      exact ih st' idx st'' hrest hI' hrun
    | set k v =>
      obtain ⟨st', heq, hI'⟩ := invAD_set env safe K k v st idx hA hKS hI hop
      have hstep : runOpD env safe (.set k v) st = .ok st' := by
        simp [runOpD, heq, Except.map]
      rw [runOpsD, hstep] at hrun
      exact ih st' _ st'' hrest hI' hrun
    | remove k =>
      obtain ⟨st', heq, hI'⟩ := invAD_remove env K k st idx hA hKS hI hop
      have hstep : runOpD env safe (.remove k) st = .ok st' := by
        simp [runOpD, heq, Except.map]
      rw [runOpsD, hstep] at hrun
      exact ih st' _ st'' hrest hI' hrun
    | clear =>
      obtain ⟨st', heq, hI'⟩ := invAD_clear env K st idx hA hI
      have hstep : runOpD env safe .clear st = .ok st' := by
        simp [runOpD, heq, Except.map]
      rw [runOpsD, hstep] at hrun
      exact ih st' _ st'' hrest hI' hrun

theorem runOpsD_invBD (env : KeytarEnv) (safe : SafeStorage) (K : String → Prop)
    (ops : List SecOp) (hB : FallbackGood env safe) (hKS : KeySetOk K) :
    ∀ st idx st'', OpsOkK K ops → InvBD safe K st idx →
      runOpsD env safe ops st = .ok st'' → ∃ idx'', InvBD safe K st'' idx'' := by
  induction ops with
  | nil =>
    intro st idx st'' _ hI hrun
    cases hrun
    exact ⟨idx, hI⟩
  | cons op rest ih =>
    intro st idx st'' hops hI hrun
    have hop : opOkK K op := hops op (List.mem_cons_self op rest)
    have hrest : OpsOkK K rest := fun o ho => hops o (List.mem_cons_of_mem op ho)
    cases op with
    | get k =>
      obtain ⟨r, st', heq, hI', _⟩ := invBD_get env safe K k st idx hB hKS hI hop
      have hstep : runOpD env safe (.get k) st = .ok st' := by
        simp [runOpD, heq, Except.map]
      rw [runOpsD, hstep] at hrun
      exact ih st' idx st'' hrest hI' hrun
    | set k v =>
      obtain ⟨st', heq, hI'⟩ := invBD_set env safe K k v st idx hB hKS hI hop
      have hstep : runOpD env safe (.set k v) st = .ok st' := by
        simp [runOpD, heq, Except.map]
      rw [runOpsD, hstep] at hrun
      exact ih st' _ st'' hrest hI' hrun
    | remove k =>
      obtain ⟨st', heq, hI'⟩ := invBD_remove env safe K k st idx hB hKS hI hop
      have hstep : runOpD env safe (.remove k) st = .ok st' := by
        simp [runOpD, heq, Except.map]
      rw [runOpsD, hstep] at hrun
      exact ih st' _ st'' hrest hI' hrun
    | clear =>
      obtain ⟨st', heq, hI'⟩ := invBD_clear env safe K st idx hB hI
      have hstep : runOpD env safe .clear st = .ok st' := by
        simp [runOpD, heq, Except.map]
      rw [runOpsD, hstep] at hrun
      exact ih st' _ st'' hrest hI' hrun

/-- C1 (amended): over the dot-notation semantics of the `electron-store`
backends, take any admissible key family — accepted keys that are not
namespaced key names, differ from `switchboard` and `switchboard.secure`,
contain no reserved `dot-prop` segment, and are pairwise dot-prefix-free —
and any sequence of successful operations over family keys from the empty
store, under an environment where either the primary serves every call or
the primary never loads while `safeStorage` decryption inverts encryption.
Then the secure key index equals exactly the set of family keys on which
`get` returns non-null. (The counterexample shows the provisos are
necessary: an undecryptable ciphertext stays indexed while `get` reads
null, a key of the form `switchboard.secure.x` migrates another key's
entry away, and `set "a"` then `set "a.b"` nests an object over `a`'s
ciphertext so `get "a"` reads null while `a` stays indexed.) -/
theorem c1_index_invariant_amended (env : KeytarEnv) (safe : SafeStorage)
    (K : String → Prop) (ops : List SecOp) (st : SecureStoreStateD)
    (hreg : PrimaryAllOk env ∨ FallbackGood env safe)
    (hKS : KeySetOk K) (hops : OpsOkK K ops)
    (hrun : runOpsD env safe ops initialStateD = .ok st) :
    ∀ k, K k →
      ((∃ v st', secureGetValueD env safe k st = .ok (some v, st')) ↔
        k ∈ (readSecureKeyIndexD st.localStore).1) := by
  intro k hk
  rcases hreg with hA | hB
  · obtain ⟨idx, hI⟩ := runOpsD_invAD env safe K ops hA hKS initialStateD [] st hops
      (invAD_initial K) hrun
    have hfst : (readSecureKeyIndexD st.localStore).1 = idx := by
      rw [hI.1.1]
    rw [hfst]
    obtain ⟨st', heq, _⟩ := invAD_get env safe K k st idx hA hKS hI hk
    constructor
    · rintro ⟨v, st'', heq2⟩
      rw [heq] at heq2
      have hv : mget st.keychain (getSecureStorageKey k) = some v := by
        have h3 := (Except.ok.injEq .. ▸ heq2 :
          (mget st.keychain (getSecureStorageKey k), st') = (some v, st''))
        exact (Prod.mk.injEq .. ▸ h3).1
      obtain ⟨k', hk', hns⟩ := (hI.2.2.1 _).mp ⟨v, hv⟩
      exact (ns_inj hns) ▸ hk'
    · intro hmem
      obtain ⟨v, hv⟩ := dom_lookup_ns_mem hI.2.2.1 hmem
      exact ⟨v, st', by rw [heq, hv]⟩
  · obtain ⟨idx, hI⟩ := runOpsD_invBD env safe K ops hB hKS initialStateD [] st hops
      (invBD_initial safe K) hrun
    have hfst : (readSecureKeyIndexD st.localStore).1 = idx := by
      rw [hI.1.1]
    rw [hfst]
    obtain ⟨r, st', heq, _, hiff⟩ := invBD_get env safe K k st idx hB hKS hI hk
    constructor
    · rintro ⟨v, st'', heq2⟩
      rw [heq] at heq2
      have hv : r = some v := by
        have h3 := (Except.ok.injEq .. ▸ heq2 : (r, st') = (some v, st''))
        exact (Prod.mk.injEq .. ▸ h3).1
      exact hiff.mp ⟨v, hv⟩
    · intro hmem
      obtain ⟨v, hv⟩ := hiff.mpr hmem
      exact ⟨v, st', by rw [heq, hv]⟩

def c1StBD : SecureStoreStateD :=
  ⟨false, true, true, [],
    [("switchboard", .node [("secure", .node [("k", .leaf "v")])])],
    [(SECURE_KEY_INDEX, .leaf "[\"k\"]")]⟩

def c1StAD : SecureStoreStateD :=
  ⟨true, false, false, [("switchboard.secure.switchboard.secure.y", "v")], [],
    [(SECURE_KEY_INDEX, .leaf "[\"switchboard.secure.y\",\"y\"]")]⟩

def c1StCD : SecureStoreStateD :=
  ⟨false, true, true, [],
    [("switchboard", .node [("secure", .node [("a", .node [("b", .leaf "w")])])])],
    [(SECURE_KEY_INDEX, .leaf "[\"a\",\"a.b\"]")]⟩

/-- C1 counterexample, three parts. (1) Starting empty with the primary
unavailable, the single successful operation `set "k" "v"` indexes `"k"`;
when its ciphertext no longer decrypts, `get "k"` returns null while `"k"`
stays indexed. (2) Starting empty with the primary fully available, the
two successful operations `set "y" "v"; get "switchboard.secure.y"`
migrate `y`'s namespaced account away as a "legacy" entry, after which
`"y"` is indexed but `get "y"` returns null. (3) Starting empty with the
primary unavailable and decryption inverting encryption, the two
successful operations `set "a" "v"; set "a.b" "w"` nest an object over the
dot-path holding `a`'s ciphertext, after which `"a"` is indexed but
`get "a"` returns null. So the claimed invariant fails for undecryptable
ciphertexts, for keys that are themselves namespaced key names, and for
dot-prefix-related key pairs. -/
theorem c1_index_invariant_counterexample :
    (runOpsD c1EnvB c1SafeBad [.set "k" "v"] initialStateD = .ok c1StBD ∧
      "k" ∈ (readSecureKeyIndexD c1StBD.localStore).1 ∧
      secureGetValueD c1EnvB c1SafeBad "k" c1StBD = .ok (none, c1StBD)) ∧
    (runOpsD c1EnvA c1SafeGood [.set "y" "v", .get "switchboard.secure.y"]
        initialStateD = .ok c1StAD ∧
      isValidStorageKey "switchboard.secure.y" = true ∧
      "y" ∈ (readSecureKeyIndexD c1StAD.localStore).1 ∧
      secureGetValueD c1EnvA c1SafeGood "y" c1StAD = .ok (none, c1StAD)) ∧
    (runOpsD c1EnvB c1SafeGood [.set "a" "v", .set "a.b" "w"] initialStateD =
        .ok c1StCD ∧
      isValidStorageKey "a" = true ∧ isValidStorageKey "a.b" = true ∧
      "a" ∈ (readSecureKeyIndexD c1StCD.localStore).1 ∧
      secureGetValueD c1EnvB c1SafeGood "a" c1StCD = .ok (none, c1StCD)) :=
  ⟨⟨rfl, by decide, rfl⟩,
    ⟨rfl, by decide, by decide, rfl⟩,
    ⟨rfl, by decide, by decide, by decide, rfl⟩⟩

def c1K : String → Prop := fun x => x = "k"

/-- C1 witness: the amended invariant applied to the one-`set` sequence
over the single-key family `{"k"}` in the fallback regime with an
inverting `safeStorage`. -/
theorem c1_index_invariant_witness :
    (∃ v st', secureGetValueD c1EnvB c1SafeGood "k" c1StBD = .ok (some v, st')) ↔
      "k" ∈ (readSecureKeyIndexD c1StBD.localStore).1 :=
  c1_index_invariant_amended c1EnvB c1SafeGood c1K [.set "k" "v"] c1StBD
    (Or.inr ⟨rfl, rfl, fun _ => rfl⟩)
    ⟨fun k hk => by
        rw [show k = "k" from hk]
        exact ⟨⟨by decide, by decide⟩, by decide, by decide, by decide⟩,
      fun k1 k2 h1 h2 hne => absurd (h1.trans h2.symm) hne⟩
    (by
      intro op hop
      simp only [List.mem_singleton] at hop
      subst hop
      exact rfl)
    rfl "k" rfl

/-! ## C9 over the dot-notation local store -/

/-- `clearLocalValues()`: collect every top-level key of the local store
(`Object.keys(store.store)`) carrying the local namespace prefix and
delete each. -/
def clearLocalValues (ls : DStore) : DStore :=
  let keysToDelete :=
    (ls.map Prod.fst).filter (fun k => strStartsWith k (LOCAL_STORAGE_NAMESPACE ++ "."))
  keysToDelete.foldl ddel ls

/-- `localSetValue(key, value)`: a namespaced write into the local store. -/
def localSetValue (key value : String) (ls : DStore) : DStore :=
  dset ls (getLocalStorageKey key) value

/-- C9: the claimed deletion never happens — `clearLocalValues` is the
identity on every store whose top-level keys lack the local namespace
prefix, which covers every store the application can write:
`Object.keys(store.store)` yields only top-level path segments of the
dot-notation store, and a namespaced write nests its entry under the
single segment `switchboard`, so the `startsWith('switchboard.local.')`
filter matches nothing and no entry is deleted. -/
theorem c9_clear_local_bug : ∀ ls : DStore,
    (∀ r ∈ ls.map Prod.fst,
      strStartsWith r (LOCAL_STORAGE_NAMESPACE ++ ".") = false) →
    clearLocalValues ls = ls := by
  intro ls h
  have hfil : (ls.map Prod.fst).filter
      (fun k => strStartsWith k (LOCAL_STORAGE_NAMESPACE ++ ".")) = [] := by
    rw [List.filter_eq_nil_iff]
    intro a ha
    simp [h a ha]
  show ((ls.map Prod.fst).filter
      (fun k => strStartsWith k (LOCAL_STORAGE_NAMESPACE ++ "."))).foldl ddel ls = ls
  rw [hfil]
  rfl

/-- C9 witness: the no-op applied to the store holding exactly one
namespaced local entry written by `localSetValue`; the entry survives the
clear and still reads back. -/
theorem c9_clear_local_bug_witness :
    clearLocalValues (localSetValue "theme" "dark" []) =
        localSetValue "theme" "dark" [] ∧
      dget (localSetValue "theme" "dark" []) (getLocalStorageKey "theme") =
        some (.leaf "dark") :=
  ⟨c9_clear_local_bug _ (by decide), rfl⟩

end Switchboard
